import Mathlib

/-!
# Transaction-processing core of `weave`

A shallow embedding of `coin/coin.go` (package `coin`), of `abci.go` (package
`weave`), of `x/cash/staticfee.go` (package `cash`), of the decorator chains
of `cmd/bcpd/app/app.go` and `cmd/bnsd/app/app.go`, of `x/paychan/msg.go`
(package `paychan`) and of the wire codec of token details in
`x/nft/blockchain/codec.pb.go` (package `blockchain`).  Packages whose
implementation lies outside these files (`errors`, `app`, `x/multisig`,
`coin/coins.go`) are modelled from the specification; every such definition
says so.  Go's `int64` is modelled by `Int`
together with an explicit two's-complement wrap (`wrap64`) applied after every
arithmetic operation that can leave the 64-bit range.  Go's `/` and `%` on
integers truncate toward zero, which is `Int.tdiv` / `Int.tmod`.

A Go function returning `(Coin, error)` is modelled as returning
`Coin × Option ErrKind`, where `none` stands for the `nil` error; the coin
component is kept because the source returns a definite coin on every path.
-/

namespace coin

/-! ## Machine integers -/

/-- Two's-complement reduction of an unbounded integer to the `int64` range
`[-2^63, 2^63)`. -/
def wrap64 (x : Int) : Int :=
  (x + 9223372036854775808) % 18446744073709551616 - 9223372036854775808

/-- Membership in the `int64` range. -/
def inInt64 (x : Int) : Prop :=
  -9223372036854775808 ≤ x ∧ x ≤ 9223372036854775807

instance (x : Int) : Decidable (inInt64 x) := by
  unfold inInt64; exact inferInstance

/-- Go's `a / b` on `int64` for `b ≠ 0`: truncated division, wrapped (the only
wrapping case is `MinInt64 / -1`). -/
def goDiv (a b : Int) : Int := wrap64 (Int.tdiv a b)

/-- Go's `a % b` on `int64` for `b ≠ 0`: remainder of truncated division. -/
def goMod (a b : Int) : Int := Int.tmod a b

/-! ## Constants (`coin.go` lines 14-26) -/

/-- `MaxInt` is the largest whole value accepted, `10^15 - 1`. -/
def MaxInt : Int := 999999999999999
/-- `MinInt` is the lowest whole value accepted. -/
def MinInt : Int := -MaxInt
/-- `FracUnit` is the number of fractional units in one whole, `10^9`. -/
def FracUnit : Int := 1000000000
/-- `MaxFrac` is the highest possible fractional value. -/
def MaxFrac : Int := FracUnit - 1
/-- `MinFrac` is the lowest possible fractional value. -/
def MinFrac : Int := -MaxFrac

/-! ## Errors -/

/-- The error kinds used by the modelled code: `ErrInvalidCurrency` and
`ErrInvalidCoin` of package `coin`, `ErrOverflow`, `ErrHuman`,
`ErrUnauthorized`, `ErrInsufficientAmount`, `ErrInternal`, `ErrInvalidInput`,
and `ErrInvalidMsg` of package `errors`, and `ErrContractNotFound` and
`ErrUnauthorizedMultiSig` of package `multisig`, which carry the contract id.
Only the kind is modelled, not the message. -/
inductive ErrKind where
  | ErrInvalidCurrency
  | ErrInvalidCoin
  | ErrOverflow
  | ErrHuman
  | ErrUnauthorized
  | ErrInsufficientAmount
  | ErrInternal
  | ErrInvalidInput
  | ErrInvalidMsg
  | ErrContractNotFound (id : List Nat)
  | ErrUnauthorizedMultiSig (id : List Nat)
  deriving DecidableEq

end coin

/-! ## The coin type -/

/-- The `Coin` message: a whole part, a fractional part and a ticker. -/
structure Coin where
  Whole : Int
  Fractional : Int
  Ticker : String
  deriving DecidableEq

namespace coin

open ErrKind

/-- The zero value `Coin{}` of Go. -/
def emptyCoin : Coin := { Whole := 0, Fractional := 0, Ticker := "" }

/-- `NewCoin` creates a new coin object. -/
def NewCoin (whole fractional : Int) (ticker : String) : Coin :=
  { Whole := whole, Fractional := fractional, Ticker := ticker }

/-- The exact value of a coin in fractional units, as an unbounded integer. -/
def exactValue (c : Coin) : Int := c.Whole * FracUnit + c.Fractional

/-- `IsCC` is the match of the regular expression `^[A-Z]{3,4}$`: three or four
characters, each an upper-case ASCII letter. -/
def IsCC (s : String) : Bool :=
  (s.length == 3 || s.length == 4) &&
    s.data.all (fun ch => decide ('A' ≤ ch ∧ ch ≤ 'Z'))

end coin

namespace Coin

open coin coin.ErrKind

/-- `IsZero` returns true when both amounts are 0. -/
def IsZero (c : Coin) : Bool := c.Whole == 0 && c.Fractional == 0

/-- `SameType` returns true if both coins have the same currency. -/
def SameType (c o : Coin) : Bool := c.Ticker == o.Ticker

/-- `Validate` ensures that the coin is in the valid range and has a valid
currency code (`coin.go` lines 256-273). -/
def Validate (c : Coin) : Option ErrKind :=
  if !IsCC c.Ticker then some ErrInvalidCurrency
  else if c.Whole < MinInt ∨ c.Whole > MaxInt then some ErrInvalidCoin
  else if c.Fractional < MinFrac ∨ c.Fractional > MaxFrac then some ErrInvalidCoin
  else if c.Whole ≠ 0 ∧ c.Fractional ≠ 0 ∧
      (decide (c.Whole > 0) ≠ decide (c.Fractional > 0)) then some ErrInvalidCoin
  else none

/-- The first loop of `normalize` (`coin.go` lines 282-285):
`for c.Fractional < MinFrac { c.Whole--; c.Fractional += FracUnit }`,
run for at most `fuel` iterations. -/
def raiseFrac : Nat → Coin → Coin
  | 0, c => c
  | fuel + 1, c =>
    if c.Fractional < MinFrac then
      raiseFrac fuel { c with Whole := wrap64 (c.Whole - 1),
                              Fractional := wrap64 (c.Fractional + FracUnit) }
    else c

/-- The second loop of `normalize` (`coin.go` lines 286-289):
`for c.Fractional > MaxFrac { c.Whole++; c.Fractional -= FracUnit }`,
run for at most `fuel` iterations. -/
def lowerFrac : Nat → Coin → Coin
  | 0, c => c
  | fuel + 1, c =>
    if c.Fractional > MaxFrac then
      lowerFrac fuel { c with Whole := wrap64 (c.Whole + 1),
                              Fractional := wrap64 (c.Fractional - FracUnit) }
    else c

/-- The sign step of `normalize` (`coin.go` lines 292-298). -/
def fixSigns (c : Coin) : Coin :=
  if c.Whole > 0 ∧ c.Fractional < 0 then
    { c with Whole := wrap64 (c.Whole - 1), Fractional := wrap64 (c.Fractional + FracUnit) }
  else if c.Whole < 0 ∧ c.Fractional > 0 then
    { c with Whole := wrap64 (c.Whole + 1), Fractional := wrap64 (c.Fractional - FracUnit) }
  else c

/-- `normalize` adjusts the fractional part to its range and to the sign of the
whole part, and fails when the whole part is then out of range (`coin.go`
lines 280-305).  Each loop is given as fuel the distance of the fractional part
from its bound, which every iteration reduces (`raiseFrac_exit`,
`lowerFrac_exit`), so the loops always run to their exit condition. -/
def normalize (c : Coin) : Coin × Option ErrKind :=
  let c1 := raiseFrac (MinFrac - c.Fractional).toNat c
  let c2 := lowerFrac (c1.Fractional - MaxFrac).toNat c1
  let c3 := fixSigns c2
  if c3.Whole < MinInt ∨ c3.Whole > MaxInt then (emptyCoin, some ErrInvalidCoin)
  else (c3, none)

/-- `Add` combines two coins (`coin.go` lines 134-152). -/
def Add (c o : Coin) : Coin × Option ErrKind :=
  if c.Ticker == "" && c.IsZero then (o, none)
  else if o.Ticker == "" && o.IsZero then (c, none)
  else if !c.SameType o then (emptyCoin, some ErrInvalidCurrency)
  else
    normalize { c with Whole := wrap64 (c.Whole + o.Whole),
                       Fractional := wrap64 (c.Fractional + o.Fractional) }

end Coin

namespace coin

open ErrKind

/-- `mul64` multiplies two `int64` numbers and reports `ErrOverflow` when the
division check `c/a != b` fails (`coin.go` lines 119-128).  The division is
only reached with `a ≠ 0`. -/
def mul64 (a b : Int) : Int × Option ErrKind :=
  if a = 0 ∨ b = 0 then (0, none)
  else
    let c := wrap64 (a * b)
    if goDiv c a ≠ b then (c, some ErrOverflow)
    else (c, none)

end coin

namespace Coin

open coin coin.ErrKind

/-- `Multiply` returns the result of a coin value multiplication (`coin.go`
lines 84-115). -/
def Multiply (c : Coin) (times : Int) : Coin × Option ErrKind :=
  if times = 0 ∨ (c.Whole = 0 ∧ c.Fractional = 0) then
    ({ Whole := 0, Fractional := 0, Ticker := c.Ticker }, none)
  else
    match mul64 c.Whole times with
    | (_, some err) => (emptyCoin, some err)
    | (whole, none) =>
      match mul64 c.Fractional times with
      | (_, some err) => (emptyCoin, some err)
      | (frac, none) =>
        if frac > FracUnit then
          let n := wrap64 (whole + goDiv frac FracUnit)
          if n < whole then (emptyCoin, some ErrOverflow)
          else ({ Whole := n, Fractional := goMod frac FracUnit, Ticker := c.Ticker }, none)
        else ({ Whole := whole, Fractional := frac, Ticker := c.Ticker }, none)

/-- `Divide` splits the value of a coin into the given number of pieces and
returns a single piece and the leftover (`coin.go` lines 55-80).  The
divisions are only reached with `pieces > 0`. -/
def Divide (c : Coin) (pieces : Int) : Coin × Coin × Option ErrKind :=
  if pieces ≤ 0 then
    let zero : Coin := { Whole := 0, Fractional := 0, Ticker := c.Ticker }
    (zero, zero, some ErrHuman)
  else
    let leftover := goMod c.Whole pieces
    let fractional :=
      if leftover ≠ 0 then wrap64 (c.Fractional + wrap64 (leftover * FracUnit))
      else c.Fractional
    let one : Coin :=
      { Whole := goDiv c.Whole pieces, Fractional := goDiv fractional pieces,
        Ticker := c.Ticker }
    let rest : Coin :=
      { Whole := 0, Fractional := goMod fractional pieces, Ticker := c.Ticker }
    (one, rest, none)

end Coin

namespace coin

/-- Both numeric fields of the coin are `int64` values, as the Go type of
`Whole` and `Fractional` requires. -/
def isInt64Coin (c : Coin) : Prop := inInt64 c.Whole ∧ inInt64 c.Fractional

instance (c : Coin) : Decidable (isInt64Coin c) := by
  unfold isInt64Coin; exact inferInstance

/-- `IsEmpty` returns true on a nil pointer or a zero amount (`coin.go` lines
201-203). -/
def IsEmpty (c : Option Coin) : Bool :=
  match c with
  | none => true
  | some x => x.IsZero

end coin

namespace Coin

open coin coin.ErrKind

/-- `Negative` returns the opposite coin value (`coin.go` lines 156-162). -/
def Negative (c : Coin) : Coin :=
  { Ticker := c.Ticker, Whole := wrap64 (-1 * c.Whole),
    Fractional := wrap64 (-1 * c.Fractional) }

/-- `Subtract` the given amount (`coin.go` lines 165-167). -/
def Subtract (c amount : Coin) : Coin × Option ErrKind :=
  c.Add amount.Negative

/-- `Compare` checks the values of two coins without inspecting the currency
code: 1 if `c` is larger, -1 if `o` is larger, 0 if equal (`coin.go` lines
175-191). -/
def Compare (c o : Coin) : Int :=
  if c.Whole > o.Whole then 1
  else if c.Whole < o.Whole then -1
  else if c.Fractional > o.Fractional then 1
  else if c.Fractional < o.Fractional then -1
  else 0

/-- `IsPositive` returns true if the value is greater than 0 (`coin.go` lines
211-214). -/
def IsPositive (c : Coin) : Bool :=
  decide (c.Whole > 0) || (c.Whole == 0 && decide (c.Fractional > 0))

/-- `IsNonNegative` returns true if the value is 0 or higher (`coin.go` lines
217-219). -/
def IsNonNegative (c : Coin) : Bool :=
  decide (c.Whole ≥ 0) && decide (c.Fractional ≥ 0)

/-- `IsGTE` returns true if `c` is of the same type as `o` and at least as
large (`coin.go` lines 224-233). -/
def IsGTE (c o : Coin) : Bool :=
  if !c.SameType o || decide (c.Whole < o.Whole) then false
  else if c.Whole == o.Whole && decide (c.Fractional < o.Fractional) then false
  else true

end Coin

/-! # Results of handlers (package `weave`, `abci.go`) -/

namespace weave

/-- `CheckResult` captures any non-error result of the check phase (`abci.go`
lines 65-78).  Byte strings are lists of numbers. -/
structure CheckResult where
  Data : List Nat
  Log : String
  RequiredFee : Coin
  GasAllocated : Int
  GasPayment : Int
  deriving DecidableEq

/-- The zero value of `CheckResult`, as declared by `var res weave.CheckResult`. -/
def CheckResult.zero : CheckResult :=
  { Data := [], Log := "", RequiredFee := coin.emptyCoin, GasAllocated := 0, GasPayment := 0 }

/-- `DeliverResult` captures any non-error result of the deliver phase
(`abci.go` lines 38-52).  A validator update is a key with a power, a tag a
pair of byte strings. -/
structure DeliverResult where
  Data : List Nat
  Log : String
  RequiredFee : Coin
  Diff : List (List Nat × Int)
  Tags : List (List Nat × List Nat)
  GasUsed : Int
  deriving DecidableEq

/-- The zero value of `DeliverResult`, as declared by
`var res weave.DeliverResult`. -/
def DeliverResult.zero : DeliverResult :=
  { Data := [], Log := "", RequiredFee := coin.emptyCoin, Diff := [], Tags := [],
    GasUsed := 0 }

end weave

/-! # Fee decorator (package `cash`, `x/cash/staticfee.go`)

The decorator is a function of the store, so the store is threaded through:
`MoveCoins` and the next handler take a store and return the store they leave
behind.  Every call the decorator makes to `MoveCoins` or to the next handler
is recorded, in order, in the `calls` of the outcome.  A Go pointer that may be
nil is an `Option`; a nil dereference is the result `none`. -/

namespace cash

open coin coin.ErrKind weave

/-- An address is a byte string. -/
abbrev Address := List Nat

/-- `GconfCollectorAddress` is the configuration key of the fee collector. -/
def GconfCollectorAddress : String := "cash:collector_address"
/-- `GconfMinimalFee` is the configuration key of the minimal fee. -/
def GconfMinimalFee : String := "cash:minimal_fee"

/-- Modelled from the spec: the `FeeInfo` message, whose declaration is
generated code outside the sources at hand; §3 gives it as
`{payer: address, fees: Value}`, optional per transaction, and the fees are
held by pointer (`*fee` in `staticfee.go`). -/
structure FeeInfo where
  Payer : Address
  Fees : Option Coin
  deriving DecidableEq

/-- Modelled from the spec: the getter `GetFees` of the generated `FeeInfo`
code, called on a possibly nil `*FeeInfo` in `staticfee.go` line 120: a nil
fee info has no fees. -/
def GetFees (f : Option FeeInfo) : Option Coin :=
  match f with
  | none => none
  | some fi => fi.Fees

/-- The part of `x.Authenticator` used by the decorator. -/
structure Authenticator (Ctx : Type) where
  HasAddress : Ctx → Address → Bool

/-- The `CoinMover` interface: `MoveCoins(store, from, to, amount)` returns an
error or nil, and leaves a store behind. -/
structure CoinMover (Store : Type) where
  MoveCoins : Store → Address → Address → Coin → Store × Option ErrKind

/-- `FeeDecorator` holds an authenticator and a coin mover (`staticfee.go`
lines 26-29). -/
structure FeeDecorator (Ctx Store : Type) where
  auth : Authenticator Ctx
  ctrl : CoinMover Store

/-- The functions of other packages that `staticfee.go` calls and whose code is
not among the sources at hand, taken as parameters: the type assertion
`tx.(FeeTx)` followed by `GetFees()` (`none` when the transaction is not a
`FeeTx`), `x.MainSigner(ctx, auth).Address()`, `(*FeeInfo).DefaultPayer`,
`(*FeeInfo).Validate`, `gconf.Coin` and `gconf.Address`. -/
structure Deps (Ctx Store Tx : Type) where
  asFeeTx : Tx → Option (Option FeeInfo)
  mainSignerAddress : Ctx → Authenticator Ctx → Address
  DefaultPayer : Option FeeInfo → Address → Option FeeInfo
  Validate : Option FeeInfo → Option ErrKind
  gconfCoin : Store → String → Coin
  gconfAddress : Store → String → Address

/-- A call made by the decorator: to `MoveCoins`, with the store it is given,
or to the next handler, with the store it is given. -/
inductive Call (Store : Type) where
  | MoveCoins (store : Store) (src dst : Address) (amount : Coin)
  | Next (store : Store)

/-- What a run of `Check` or `Deliver` returns and leaves behind: the result
and error returned, the final store, and the calls made in order. -/
structure Outcome (Store R : Type) where
  res : R
  err : Option ErrKind
  store : Store
  calls : List (Call Store)

/-- A `weave.Checker`: `Check(ctx, store, tx)`, with the store left behind. -/
abbrev Checker (Ctx Store Tx : Type) := Ctx → Store → Tx → Store × CheckResult × Option ErrKind

/-- A `weave.Deliverer`: `Deliver(ctx, store, tx)`, with the store left
behind. -/
abbrev Deliverer (Ctx Store Tx : Type) :=
  Ctx → Store → Tx → Store × DeliverResult × Option ErrKind

/-- The fee info `extractFee` works on (`staticfee.go` lines 113-118): nil
unless the transaction is a `FeeTx`, else its fee info with the main signer as
default payer. -/
def feeInfoOf {Ctx Store Tx : Type} (env : Deps Ctx Store Tx) (d : FeeDecorator Ctx Store)
    (ctx : Ctx) (tx : Tx) : Option FeeInfo :=
  match env.asFeeTx tx with
  | none => none
  | some declared => env.DefaultPayer declared (env.mainSignerAddress ctx d.auth)

/-- `extractFee` (`staticfee.go` lines 112-151) returns the fee info and an
error, or `none` for a nil dereference. -/
def FeeDecorator.extractFee {Ctx Store Tx : Type} (env : Deps Ctx Store Tx)
    (d : FeeDecorator Ctx Store) (ctx : Ctx) (tx : Tx) (store : Store) :
    Option (Option FeeInfo × Option ErrKind) :=
  let finfo := feeInfoOf env d ctx tx
  let fee := GetFees finfo
  if coin.IsEmpty fee then
    let minFee := env.gconfCoin store GconfMinimalFee
    if minFee.IsZero then some (finfo, none)
    else some (none, some ErrInsufficientAmount)
  else
    match env.Validate finfo with
    | some err => some (none, some err)
    | none =>
      let cmp := env.gconfCoin store GconfMinimalFee
      if cmp.IsZero then some (finfo, none)
      else if cmp.Ticker == "" then some (none, some ErrInvalidCurrency)
      else
        match fee with
        | none => none
        | some f =>
          if !f.SameType cmp then some (none, some ErrInvalidCurrency)
          else if !f.IsGTE cmp then some (none, some ErrInsufficientAmount)
          else some (finfo, none)

/-- `toPayment` calculates how much the transaction is prioritized, one point
per fractional unit (`staticfee.go` lines 155-159). -/
def toPayment (fee : Coin) : Int :=
  wrap64 (fee.Fractional + wrap64 (fee.Whole * FracUnit))

/-- `Check` verifies and deducts fees before calling down the stack
(`staticfee.go` lines 49-80). -/
def FeeDecorator.Check {Ctx Store Tx : Type} (env : Deps Ctx Store Tx)
    (d : FeeDecorator Ctx Store) (ctx : Ctx) (store : Store) (tx : Tx)
    (next : Checker Ctx Store Tx) : Option (Outcome Store CheckResult) :=
  match d.extractFee env ctx tx store with
  | none => none
  | some (_, some err) =>
    some { res := CheckResult.zero, err := some err, store := store, calls := [] }
  | some (finfo, none) =>
    let fee := GetFees finfo
    if coin.IsEmpty fee then
      let r := next ctx store tx
      some { res := r.2.1, err := r.2.2, store := r.1, calls := [Call.Next store] }
    else
      match finfo, fee with
      | some fi, some f =>
        if !d.auth.HasAddress ctx fi.Payer then
          some { res := CheckResult.zero, err := some ErrUnauthorized, store := store,
                 calls := [] }
        else
          let collector := env.gconfAddress store GconfCollectorAddress
          let m := d.ctrl.MoveCoins store fi.Payer collector f
          match m.2 with
          | some err =>
            some { res := CheckResult.zero, err := some err, store := m.1,
                   calls := [Call.MoveCoins store fi.Payer collector f] }
          | none =>
            let paid := toPayment f
            let r := next ctx m.1 tx
            some { res := { r.2.1 with GasPayment := wrap64 (r.2.1.GasPayment + paid) },
                   err := r.2.2, store := r.1,
                   calls := [Call.MoveCoins store fi.Payer collector f, Call.Next m.1] }
      | _, _ => none

/-- `Deliver` verifies and deducts fees before calling down the stack
(`staticfee.go` lines 83-110). -/
def FeeDecorator.Deliver {Ctx Store Tx : Type} (env : Deps Ctx Store Tx)
    (d : FeeDecorator Ctx Store) (ctx : Ctx) (store : Store) (tx : Tx)
    (next : Deliverer Ctx Store Tx) : Option (Outcome Store DeliverResult) :=
  match d.extractFee env ctx tx store with
  | none => none
  | some (_, some err) =>
    some { res := DeliverResult.zero, err := some err, store := store, calls := [] }
  | some (finfo, none) =>
    let fee := GetFees finfo
    if coin.IsEmpty fee then
      let r := next ctx store tx
      some { res := r.2.1, err := r.2.2, store := r.1, calls := [Call.Next store] }
    else
      match finfo, fee with
      | some fi, some f =>
        if !d.auth.HasAddress ctx fi.Payer then
          some { res := DeliverResult.zero, err := some ErrUnauthorized, store := store,
                 calls := [] }
        else
          let collector := env.gconfAddress store GconfCollectorAddress
          let m := d.ctrl.MoveCoins store fi.Payer collector f
          match m.2 with
          | some err =>
            some { res := DeliverResult.zero, err := some err, store := m.1,
                   calls := [Call.MoveCoins store fi.Payer collector f] }
          | none =>
            let r := next ctx m.1 tx
            some { res := r.2.1, err := r.2.2, store := r.1,
                   calls := [Call.MoveCoins store fi.Payer collector f, Call.Next m.1] }
      | _, _ => none

/-! ## A concrete setting

A small instance of the parameters, used to run the decorator on examples: the
context is trivial, the store is just the configured minimal fee, and a
transaction is its declared fee info. -/

/-- Example dependencies: every transaction is a `FeeTx`, the main signer has
address `[1]`, a fee info without payer gets the default payer, every fee info
is accepted by `Validate`, the minimal fee is the store and the collector has
address `[9]`. -/
def demoDeps : Deps Unit Coin (Option FeeInfo) :=
  { asFeeTx := fun tx => some tx
    mainSignerAddress := fun _ _ => [1]
    DefaultPayer := fun f addr =>
      match f with
      | none => some { Payer := addr, Fees := none }
      | some fi => if fi.Payer = [] then some { fi with Payer := addr } else some fi
    Validate := fun _ => none
    gconfCoin := fun store _ => store
    gconfAddress := fun _ _ => [9] }

/-- Example decorator: the addresses in `signers` are authenticated, and
`MoveCoins` always succeeds and leaves the store as it is. -/
def demoDecorator (signers : List Address) : FeeDecorator Unit Coin :=
  { auth := { HasAddress := fun _ a => decide (a ∈ signers) }
    ctrl := { MoveCoins := fun store _ _ _ => (store, none) } }

/-- Example next handler of the check phase: returns the zero result. -/
def demoChecker : Checker Unit Coin (Option FeeInfo) :=
  fun _ store _ => (store, CheckResult.zero, none)

/-- Example next handler of the deliver phase: returns the zero result. -/
def demoDeliverer : Deliverer Unit Coin (Option FeeInfo) :=
  fun _ store _ => (store, DeliverResult.zero, none)

end cash

namespace cash

open coin coin.ErrKind weave

/-- Example decorator whose coin mover always fails for lack of funds; the
addresses in `signers` are authenticated. -/
def brokeDecorator (signers : List Address) : FeeDecorator Unit Coin :=
  { auth := { HasAddress := fun _ a => decide (a ∈ signers) }
    ctrl := { MoveCoins := fun store _ _ _ => (store, some ErrInsufficientAmount) } }

/-- Example next handler of the check phase that reports a payment of `paid`
of its own, as a fee decorator further down the stack does. -/
def payingChecker (paid : Int) : Checker Unit Coin (Option FeeInfo) :=
  fun _ store _ => (store, { CheckResult.zero with GasPayment := paid }, none)

end cash

/-! # Responses at the consensus boundary (`abci.go`) -/

namespace abci

/-- The fields of `abci.ResponseCheckTx` (a type of the consensus engine's
library) that `abci.go` sets; a field left unset has its zero value. -/
structure ResponseCheckTx where
  Code : Nat
  Data : List Nat
  Log : String
  GasWanted : Int
  deriving DecidableEq

/-- The fields of `abci.ResponseDeliverTx` (a type of the consensus engine's
library) that `abci.go` sets; a field left unset has its zero value. -/
structure ResponseDeliverTx where
  Code : Nat
  Data : List Nat
  Log : String
  Tags : List (List Nat × List Nat)
  deriving DecidableEq

end abci

namespace errors

open coin

/-- The functions of package `errors` that `abci.go` calls, taken as
parameters over a type `E` of error values: `Redact`, `Wrap`, the methods
`ABCICode` and `ABCILog` of the wrapped error, and its formatting with `%v`. -/
structure Pkg (E : Type) where
  Redact : E → E
  Wrap : E → String → E
  ABCICode : E → Nat
  ABCILog : E → String
  Format : E → String

/-- Modelled from the spec: an error value of package `errors`, which is not
among the sources at hand.  By §7 an error is of one of the kinds and carries
a message ("typed error"), it may be "wrapped with stage context", it can be
an untyped error, which the boundary classifies as internal (`abci_test.go`
lines 20-22), and it can be a recovered panic, which by §7 is "converted to
internal-error": the value of the panic is internal detail and not part of
the message (`abci_test.go` line 19 has the message `internal` for the panic
value `stdlib`). -/
inductive Error where
  | Plain (msg : String)
  | Framework (kind : ErrKind) (msg : String)
  | Panic (value : String)
  | Wrapped (parent : Error) (msg : String)
  deriving DecidableEq

/-- Modelled from the spec: `NormalizePanic` makes an error of the value of a
recovered panic (`abci_test.go` line 19). -/
def NormalizePanic (value : String) : Error := Error.Panic value

/-- Modelled from the spec: the kind of an error value; wrapping keeps the
kind ("preserves kind"), and an untyped error and a recovered panic count as
internal. -/
def Error.kind : Error → ErrKind
  | Error.Plain _ => ErrKind.ErrInternal
  | Error.Framework k _ => k
  | Error.Panic _ => ErrKind.ErrInternal
  | Error.Wrapped p _ => p.kind

/-- Modelled from the spec: the message of an error value; a wrapped error
shows its context before the message of its cause (`abci_test.go` line 22,
`"wrapped: demo"`), and the message of a recovered panic is `internal`
(`abci_test.go` line 19). -/
def Error.text : Error → String
  | Error.Plain m => m
  | Error.Framework _ m => m
  | Error.Panic _ => "internal"
  | Error.Wrapped p m => m ++ ": " ++ p.text

/-- Modelled from the spec: `Redact`.  By §7 the boundary "redacts internal
detail but preserves kind and top-level text": the value of a recovered panic
is dropped, and every other error is kept. -/
def Redact : Error → Error
  | Error.Panic _ => Error.Framework ErrKind.ErrInternal "internal"
  | e => e

/-- Modelled from the spec: the wire code of a kind.  By §7 every kind is
"mapped to a stable numeric wire code", and by §6 a "non-zero `code` signals
failure".  The spec does not give the numbers; here the kinds are numbered
from 1, the internal error first. -/
def codeOf : ErrKind → Nat
  | ErrKind.ErrInternal => 1
  | ErrKind.ErrUnauthorized => 2
  | ErrKind.ErrInvalidMsg => 3
  | ErrKind.ErrInvalidInput => 4
  | ErrKind.ErrHuman => 5
  | ErrKind.ErrInsufficientAmount => 6
  | ErrKind.ErrOverflow => 7
  | ErrKind.ErrInvalidCurrency => 8
  | ErrKind.ErrInvalidCoin => 9
  | ErrKind.ErrContractNotFound _ => 10
  | ErrKind.ErrUnauthorizedMultiSig _ => 11

/-- Modelled from the spec: the rendering of an error with `%v`, the "full
detail" of §6.  Call-site detail is not modelled (`abci_test.go` lines 37-40:
the stack trace is not rendered), so the rendering is the message. -/
def Format (e : Error) : String := e.text

/-- Modelled from the spec: package `errors` over the modelled error values.
By §7 each kind is "mapped to a stable numeric wire code", given by `codeOf`;
the log is the text of the error, and `detail` is the full rendering used
under the debug flag. -/
def specPkg (codeOf : ErrKind → Nat) (detail : Error → String) : Pkg Error :=
  { Redact := Redact
    Wrap := Error.Wrapped
    ABCICode := fun e => codeOf e.kind
    ABCILog := Error.text
    Format := detail }

/-- Modelled from the spec: package `errors` with the codes of `codeOf` and
the rendering of `Format`. -/
def pkg : Pkg Error := specPkg codeOf Format

end errors

namespace weave

open coin

/-- `ToABCI` converts a `DeliverResult` into a response (`abci.go` lines
55-61); `Code` is not set. -/
def DeliverResult.ToABCI (d : DeliverResult) : abci.ResponseDeliverTx :=
  { Code := 0, Data := d.Data, Log := d.Log, Tags := d.Tags }

/-- `NewCheck` sets the gas allocated and the log (`abci.go` lines 82-87). -/
def NewCheck (gasAllocated : Int) (log : String) : CheckResult :=
  { Data := [], Log := log, RequiredFee := emptyCoin, GasAllocated := gasAllocated,
    GasPayment := 0 }

/-- `ToABCI` converts a `CheckResult` into a response (`abci.go` lines
90-96); `Code` is not set. -/
def CheckResult.ToABCI (c : CheckResult) : abci.ResponseCheckTx :=
  { Code := 0, Data := c.Data, Log := c.Log, GasWanted := c.GasAllocated }

/-- `DeliverTxError` converts any error into a response (`abci.go` lines
108-121). -/
def DeliverTxError {E : Type} (P : errors.Pkg E) (err : E) (debug : Bool) :
    abci.ResponseDeliverTx :=
  let clean := P.Redact err
  let tm := P.Wrap clean "cannot deliver tx"
  let log := if debug then P.Format tm else P.ABCILog tm
  { Code := P.ABCICode tm, Data := [], Log := log, Tags := [] }

/-- `CheckTxError` converts any error into a response (`abci.go` lines
126-139). -/
def CheckTxError {E : Type} (P : errors.Pkg E) (err : E) (debug : Bool) :
    abci.ResponseCheckTx :=
  let clean := P.Redact err
  let tm := P.Wrap clean "cannot check tx"
  let log := if debug then P.Format tm else P.ABCILog tm
  { Code := P.ABCICode tm, Data := [], Log := log, GasWanted := 0 }

/-- `DeliverOrError` returns the response for an error if there is one, else
for the result (`abci.go` lines 17-22). -/
def DeliverOrError {E : Type} (P : errors.Pkg E) (result : DeliverResult) (err : Option E)
    (debug : Bool) : abci.ResponseDeliverTx :=
  match err with
  | some e => DeliverTxError P e debug
  | none => result.ToABCI

/-- `CheckOrError` returns the response for an error if there is one, else for
the result (`abci.go` lines 27-32). -/
def CheckOrError {E : Type} (P : errors.Pkg E) (result : CheckResult) (err : Option E)
    (debug : Bool) : abci.ResponseCheckTx :=
  match err with
  | some e => CheckTxError P e debug
  | none => result.ToABCI

end weave

/-! # Decorator chains of the applications -/

namespace app

/-- A stage of a handler stack, named by the constructor call that builds it
in `cmd/bcpd/app/app.go` and `cmd/bnsd/app/app.go`; the arguments of the calls
are left out. -/
inductive Stage where
  | Logging
  | Recovery
  | KeyTagger
  | SavepointOnCheck
  | SavepointOnDeliver
  | SigsDecorator
  | MultisigDecorator
  | FeeDecorator
  | DynamicFeeDecorator
  | HashlockDecorator
  | BatchDecorator
  | Router
  deriving DecidableEq

/-- Modelled from the spec: `app.ChainDecorators`, which is not among the
sources at hand; by §4.5 the chain is an "ordered chain of cross-cutting
stages", so the decorators are kept in the order given. -/
def ChainDecorators (ds : List Stage) : List Stage := ds

/-- Modelled from the spec: `Decorators.WithHandler`, which is not among the
sources at hand; by §4.5 the chain is "terminated by a dispatch table", so the
handler comes after the last decorator. -/
def WithHandler (chain : List Stage) (h : Stage) : List Stage := chain ++ [h]

end app

namespace bcpd

open app app.Stage

/-- `Chain` of the bcpd application (`cmd/bcpd/app/app.go` lines 37-59). -/
def Chain : List Stage :=
  ChainDecorators
    [ Logging, Recovery, KeyTagger, SavepointOnCheck, SigsDecorator, MultisigDecorator,
      FeeDecorator, HashlockDecorator, BatchDecorator, SavepointOnDeliver ]

/-- `Stack` of the bcpd application (`cmd/bcpd/app/app.go` lines 95-99). -/
def Stack : List Stage := WithHandler Chain Router

end bcpd

namespace bnsd

open app app.Stage

/-- `Chain` of the bnsd application (`cmd/bnsd/app/app.go` lines 40-60); the
batch decorator is commented out in the source. -/
def Chain : List Stage :=
  ChainDecorators
    [ Logging, Recovery, KeyTagger, SavepointOnCheck, SigsDecorator, MultisigDecorator,
      DynamicFeeDecorator, HashlockDecorator ]

/-- `Stack` of the bnsd application (`cmd/bnsd/app/app.go` lines 112-115). -/
def Stack : List Stage := WithHandler Chain Router

end bnsd

/-! # Multisig decorator (package `multisig`)

The decorator itself is not among the sources at hand, only its test
(`x/multisig/decorator_test.go`); it is modelled from §3 and §4.3 of the
specification. -/

namespace multisig

open coin coin.ErrKind weave

/-- A contract id is a byte string. -/
abbrev ContractID := List Nat

/-- Modelled from the spec: a condition, by §3 an "opaque byte-string token =
namespace (verification strategy) + type tag + identifying data"; the
strategies of §1 are signatures, pre-disclosed secrets and multi-party
contracts. -/
inductive Condition where
  | Signature (data : List Nat)
  | Preimage (data : List Nat)
  | MultiSig (id : ContractID)
  deriving DecidableEq

/-- Modelled from the spec: `MultiSigCondition`, the synthetic "contract
satisfied" condition of §4.3 step 4 for a contract id. -/
def MultiSigCondition (id : ContractID) : Condition := Condition.MultiSig id

/-- Modelled from the spec: the contract of §3,
`{participants, activationThreshold, adminThreshold}`. -/
structure Contract where
  participants : List cash.Address
  activationThreshold : Nat
  adminThreshold : Nat
  deriving DecidableEq

/-- Modelled from the spec: the context as far as the decorator is concerned:
the conditions authenticated by the other strategies, and the contract ids
contributed by the multisig decorator so far. -/
structure Context where
  signers : List Condition
  contracts : List ContractID
  deriving DecidableEq

/-- Modelled from the spec: adding the "contract satisfied" condition of a
contract to the context (§4.3 step 4). -/
def withMultisig (ctx : Context) (id : ContractID) : Context :=
  { ctx with contracts := ctx.contracts ++ [id] }

/-- Modelled from the spec: `Authenticate.GetConditions`, the conditions the
multisig strategy offers for a context (`decorator_test.go` line 120): one
`MultiSigCondition` per contributed contract. -/
def GetConditions (ctx : Context) : List Condition :=
  ctx.contracts.map MultiSigCondition

/-- Modelled from the spec: what the decorator needs from its surroundings:
the multisig id a transaction names (`none` when the transaction does not
have the multisig shape, an empty id when it names no contract) and the
contract stored under an id, if any. -/
structure Deps (Store Tx : Type) where
  GetMultisig : Tx → Option ContractID
  getContract : Store → ContractID → Option Contract

/-- Modelled from the spec: §4.3 step 2, the number of contract participants
with a matching authenticated condition, deduplicated. -/
def countAuthenticated (auth : cash.Authenticator Context) (ctx : Context)
    (participants : List cash.Address) : Nat :=
  (participants.dedup.filter (fun p => auth.HasAddress ctx p)).length

/-- Modelled from the spec: the evaluation of §4.3 for an ordinary action.  A
transaction without the multisig shape, or naming no contract, is passed
through with the context unchanged; an id that does not resolve fails with
"contract not found" (step 1); the contract authorizes iff the count of step 2
reaches the activation threshold (step 3); success contributes the condition
of the contract (step 4) and failure is "unauthorized multisig" with the
contract id (step 5). -/
def authorize {Store Tx : Type} (env : Deps Store Tx) (auth : cash.Authenticator Context)
    (ctx : Context) (store : Store) (tx : Tx) : Context × Option ErrKind :=
  match env.GetMultisig tx with
  | none => (ctx, none)
  | some id =>
    if id = [] then (ctx, none)
    else
      match env.getContract store id with
      | none => (ctx, some (ErrContractNotFound id))
      | some contract =>
        if countAuthenticated auth ctx contract.participants ≥ contract.activationThreshold
        then (withMultisig ctx id, none)
        else (ctx, some (ErrUnauthorizedMultiSig id))

/-- Modelled from the spec: `Decorator.Check`, by §4.5 a stage that either
returns a typed error or calls the continuation, here with the context that
`authorize` returns. -/
def Check {Store Tx : Type} (env : Deps Store Tx) (auth : cash.Authenticator Context)
    (ctx : Context) (store : Store) (tx : Tx) (next : cash.Checker Context Store Tx) :
    Store × CheckResult × Option ErrKind :=
  match authorize env auth ctx store tx with
  | (_, some err) => (store, CheckResult.zero, some err)
  | (ctx', none) => next ctx' store tx

/-- Modelled from the spec: `Decorator.Deliver`, the same stage in the deliver
phase. -/
def Deliver {Store Tx : Type} (env : Deps Store Tx) (auth : cash.Authenticator Context)
    (ctx : Context) (store : Store) (tx : Tx) (next : cash.Deliverer Context Store Tx) :
    Store × DeliverResult × Option ErrKind :=
  match authorize env auth ctx store tx with
  | (_, some err) => (store, DeliverResult.zero, some err)
  | (ctx', none) => next ctx' store tx

/-! ## The setting of `TestDecorator` -/

/-- Example dependencies after `decorator_test.go`: a transaction is its
optional multisig id, and the store holds one contract under the id `[42]`,
with participants `[1]`, `[2]`, `[3]`, activation threshold 2 and admin
threshold 3. -/
def demoDeps : Deps Unit (Option ContractID) :=
  { GetMultisig := fun tx => tx
    getContract := fun _ id =>
      if id = [42] then
        some { participants := [[1], [2], [3]], activationThreshold := 2,
               adminThreshold := 3 }
      else none }

/-- Example authenticator: the addresses in `signers` are authenticated. -/
def demoAuth (signers : List cash.Address) : cash.Authenticator Context :=
  { HasAddress := fun _ a => decide (a ∈ signers) }

/-- Example next handler of the check phase, after `MultisigCheckHandler`: it
reports in `Data` how many multisig conditions it sees. -/
def demoChecker : cash.Checker Context Unit (Option ContractID) :=
  fun ctx store _ =>
    (store, { CheckResult.zero with Data := [(GetConditions ctx).length] }, none)

/-- Example next handler of the deliver phase, after `MultisigCheckHandler`. -/
def demoDeliverer : cash.Deliverer Context Unit (Option ContractID) :=
  fun ctx store _ =>
    (store, { DeliverResult.zero with Data := [(GetConditions ctx).length] }, none)

end multisig

/-! # Normalized coin sets (package `coin`)

`coin/coins.go` is not among the sources at hand, only its test
(`coin/coins_test.go`); `NormalizeCoins` and `isNormalized` are modelled from
§3 and §4.1 of the specification, on top of the `Add` of `coin.go`. -/

namespace coin

open ErrKind

/-- Lexicographic "less than" on character sequences, the order of Go strings
under `<`. -/
def lexLT : List Char → List Char → Bool
  | _, [] => false
  | [], _ :: _ => true
  | a :: as, b :: bs => decide (a < b) || (a == b && lexLT as bs)

/-- The ticker `s` comes strictly before the ticker `t`. -/
def tickerLT (s t : String) : Bool := lexLT s.data t.data

/-- The ticker `s` comes before the ticker `t` or is equal to it. -/
def tickerLE (s t : String) : Bool := !tickerLT t s

/-- Modelled from the spec: the sum "via `Add`" (§4.1) of an accumulated coin
with the coins of a list, from left to right; the first error ends it. -/
def addFrom (acc : Coin) : List Coin → Coin × Option ErrKind
  | [] => (acc, none)
  | c :: rest =>
    match acc.Add c with
    | (s, none) => addFrom s rest
    | (s, some err) => (s, some err)

/-- Modelled from the spec: "same-ticker entries summed" (§3): the sum via
`Add` of the coins of a list that have the ticker `t`, in the order of the
list. -/
def sumTicker (t : String) (cs : List Coin) : Coin × Option ErrKind :=
  match cs.filter (fun c => c.Ticker == t) with
  | [] => (emptyCoin, none)
  | c :: rest => addFrom c rest

/-- Modelled from the spec: the tickers of a list of coins, each once, "sorted
ascending by ticker" (§3). -/
def sortedTickers (cs : List Coin) : List String :=
  ((cs.map Coin.Ticker).dedup).insertionSort (fun s t => tickerLE s t = true)

/-- Modelled from the spec: for each ticker in turn the sum of its entries,
"zero results dropped" (§3); an error of `Add` fails the whole. -/
def collectSums : List String → List Coin → List Coin × Option ErrKind
  | [], _ => ([], none)
  | t :: ts, cs =>
    match sumTicker t cs with
    | (_, some err) => ([], some err)
    | (s, none) =>
      match collectSums ts cs with
      | (_, some err) => ([], some err)
      | (rest, none) => if s.IsZero then (rest, none) else (s :: rest, none)

/-- Modelled from the spec: `NormalizeCoins`, by §4.1
"`NormalizeCoins(list) -> sorted unique non-zero list`: merges same-ticker
entries via `Add`, drops zeros, sorts". -/
def NormalizeCoins (cs : List Coin) : List Coin × Option ErrKind :=
  collectSums (sortedTickers cs) cs

/-- Modelled from the spec: `isNormalized`, after a coin with ticker `prev`:
by §3 a value set has "at most one per ticker, sorted ascending by ticker, no
zero entries"; an entry may be a nil pointer, which is not normalized
(`coins_test.go`, case "one currency nil"). -/
def isNormalizedFrom (prev : Option String) : List (Option Coin) → Bool
  | [] => true
  | none :: _ => false
  | some c :: rest =>
    !c.IsZero &&
      (match prev with
        | none => true
        | some p => tickerLT p c.Ticker) &&
      isNormalizedFrom (some c.Ticker) rest

/-- Modelled from the spec: `isNormalized` on a list of coin pointers. -/
def isNormalized (cs : List (Option Coin)) : Bool := isNormalizedFrom none cs

/-- The invariants of a value in §3 of the specification, which are the checks
of `Validate` apart from the one of the ticker: the whole part is within
`[MinInt, MaxInt]`, the fractional part within `[MinFrac, MaxFrac]`, and the
signs of the two parts agree. -/
def isNormalCoin (c : Coin) : Prop :=
  (MinInt ≤ c.Whole ∧ c.Whole ≤ MaxInt) ∧
  (MinFrac ≤ c.Fractional ∧ c.Fractional ≤ MaxFrac) ∧
  ((0 < c.Whole → 0 ≤ c.Fractional) ∧ (c.Whole < 0 → c.Fractional ≤ 0))

instance (c : Coin) : Decidable (isNormalCoin c) := by
  unfold isNormalCoin; exact inferInstance

end coin

/-! # Text of error responses -/

namespace errors

/-- `strings.Contains(s, sub)`, by which `assert.Contains` of `abci_test.go`
looks for a message in the log: `sub` occurs in `s` as a contiguous run of
characters. -/
def Contains (s sub : String) : Prop := sub.data <:+: s.data

instance (s sub : String) : Decidable (Contains s sub) := by
  unfold Contains; exact inferInstance

end errors

/-! # Payment channel messages (`x/paychan/msg.go`) -/

namespace paychan

open coin coin.ErrKind

/-- The fields of `CreatePaymentChannelMsg` as `Validate` reads them; the
declaration of the type is generated code.  A field that `Validate` compares
with nil (a `weave.Address`, which is a byte slice, or a pointer) is an
`Option`, `Timeout` is an integer and `Memo` a string. -/
structure CreatePaymentChannelMsg where
  Src : Option cash.Address
  SenderPubkey : Option (List Nat)
  Recipient : Option cash.Address
  Total : Option Coin
  Timeout : Int
  Memo : String
  deriving DecidableEq

/-- `validateAddresses` returns an error if any non-nil address does not
validate (`msg.go` lines 82-93); `validate` stands for `weave.Address.Validate`,
whose code is in another package. -/
def validateAddresses (validate : cash.Address → Option ErrKind) :
    List (Option cash.Address) → Option ErrKind
  | [] => none
  | none :: rest => validateAddresses validate rest
  | some a :: rest =>
    match validate a with
    | some err => some err
    | none => validateAddresses validate rest

/-- `Validate` of `CreatePaymentChannelMsg` (`msg.go` lines 18-39). -/
def CreatePaymentChannelMsg.Validate (validate : cash.Address → Option ErrKind)
    (m : CreatePaymentChannelMsg) : Option ErrKind :=
  if m.Src = none then some ErrInvalidMsg
  else if m.SenderPubkey = none then some ErrInvalidMsg
  else if m.Recipient = none then some ErrInvalidMsg
  else if (match m.Total with
      | none => true
      | some total => total.IsZero) then some ErrInvalidMsg
  else if m.Timeout ≤ 0 then some ErrInvalidMsg
  else if m.Memo.utf8ByteSize > 128 then some ErrInvalidMsg
  else validateAddresses validate [m.Recipient, m.Src]

/-- Example of an address check: an address is 20 bytes long. -/
def demoValidateAddress (a : cash.Address) : Option ErrKind :=
  if a.length = 20 then none else some ErrInvalidInput

/-- Example message: all fields set, a timeout of 1, an empty memo, and the
given total. -/
def demoCreateMsg (total : Coin) : CreatePaymentChannelMsg :=
  { Src := some (List.replicate 20 1), SenderPubkey := some [2],
    Recipient := some (List.replicate 20 3), Total := some total, Timeout := 1,
    Memo := "" }

end paychan

/-! # Wire codec of token details (`x/nft/blockchain/codec.pb.go`)

A byte is a natural number below 256.  Go's `int` is the 64-bit `int`; the
length of a slice is an `int`, so an index that has been compared with a
length is kept without a wrap, and every sum with a decoded length is wrapped.
A call of a function that returns an `error` has one of three outcomes: it
returns nil, it returns an error, or it panics (an index or a slice bound out
of range). -/

namespace blockchain

open coin

/-- `Node` (`codec.pb.go` lines 158-160); a Go string is a sequence of
bytes. -/
structure Node where
  Name : List Nat
  deriving DecidableEq

/-- `TokenDetails` (`codec.pb.go` lines 134-137); a nil and an empty slice are
the same list. -/
structure TokenDetails where
  Nodes : List Node
  ChainID : List Nat
  deriving DecidableEq

/-- The conversion `uint64(x)` of an `int`. -/
def uint64 (x : Int) : Nat := (x % 18446744073709551616).toNat

/-- The conversion `int32(x)` of a `uint64`. -/
def int32 (x : Nat) : Int := ((x + 2147483648) % 4294967296 : Nat) - 2147483648

/-! ## Encoding -/

/-- The loop of `sovCodec` (`codec.pb.go` lines 455-461); a `uint64` is zero
after ten shifts by 7, so ten rounds are enough. -/
def sovLoop : Nat → Nat → Nat → Nat
  | 0, _, n => n
  | fuel + 1, x, n =>
    if x >>> 7 = 0 then n + 1 else sovLoop fuel (x >>> 7) (n + 1)

/-- `sovCodec` is the number of bytes of a varint (`codec.pb.go` lines
454-463). -/
def sovCodec (x : Nat) : Nat := sovLoop 10 x 0

/-- `Size` of a `Node` (`codec.pb.go` lines 444-452). -/
def Node.Size (m : Node) : Nat :=
  let l := m.Name.length
  if l > 0 then 1 + l + sovCodec (uint64 l) else 0

/-- The loop over the nodes in `Size` of `TokenDetails` (`codec.pb.go` lines
432-435). -/
def sizeNodes : List Node → Nat → Nat
  | [], n => n
  | e :: rest, n => sizeNodes rest (n + (1 + e.Size + sovCodec (uint64 e.Size)))

/-- `Size` of `TokenDetails` (`codec.pb.go` lines 428-442). -/
def TokenDetails.Size (m : TokenDetails) : Nat :=
  let n := sizeNodes m.Nodes 0
  let l := m.ChainID.length
  if l > 0 then n + (1 + l + sovCodec (uint64 l)) else n

/-- The assignment `dAtA[i] = b`; `none` when the index is out of range. -/
def setByte (dAtA : List Nat) (i : Nat) (b : Nat) : Option (List Nat) :=
  if i < dAtA.length then some (dAtA.set i b) else none

/-- The call `copy(dAtA[i:], src)`: as many bytes as fit are copied, and their
number is returned; `none` when `i` is beyond the length. -/
def copyAt (dAtA : List Nat) (i : Nat) (src : List Nat) : Option (List Nat × Nat) :=
  if i ≤ dAtA.length then
    let n := min (dAtA.length - i) src.length
    some (dAtA.take i ++ src.take n ++ dAtA.drop (i + n), n)
  else none

/-- The loop of `encodeVarintCodec` (`codec.pb.go` lines 368-374): writes `v`
at `offset` and returns the offset after it; a `uint64` is below `1<<7` after
nine shifts. -/
def encodeVarintLoop : Nat → List Nat → Nat → Nat → Option (List Nat × Nat)
  | 0, _, _, _ => none
  | fuel + 1, dAtA, offset, v =>
    if v ≥ 128 then
      match setByte dAtA offset ((v &&& 0x7f ||| 0x80) % 256) with
      | none => none
      | some d => encodeVarintLoop fuel d (offset + 1) (v >>> 7)
    else
      match setByte dAtA offset (v % 256) with
      | none => none
      | some d => some (d, offset + 1)

/-- `encodeVarintCodec` (`codec.pb.go` lines 367-375). -/
def encodeVarintCodec (dAtA : List Nat) (offset : Nat) (v : Nat) : Option (List Nat × Nat) :=
  encodeVarintLoop 10 dAtA offset v

/-- `MarshalTo` of a `Node` (`codec.pb.go` lines 353-365): the buffer after the
writes and the number of bytes written; `none` is a panic. -/
def Node.MarshalTo (m : Node) (dAtA : List Nat) : Option (List Nat × Nat) :=
  if m.Name.length > 0 then
    match setByte dAtA 0 0xa with
    | none => none
    | some d1 =>
      match encodeVarintCodec d1 1 (uint64 m.Name.length) with
      | none => none
      | some (d2, i) =>
        match copyAt d2 i m.Name with
        | none => none
        | some (d3, n) => some (d3, i + n)
  else some (dAtA, 0)

/-- `Marshal` of a `Node` (`codec.pb.go` lines 343-351); the slice
`dAtA[:n]` needs `n` within the buffer. -/
def Node.Marshal (m : Node) : Option (List Nat) :=
  match m.MarshalTo (List.replicate m.Size 0) with
  | none => none
  | some (d, n) => if n ≤ d.length then some (d.take n) else none

/-- The loop over the nodes in `MarshalTo` of `TokenDetails` (`codec.pb.go`
lines 323-332); the node is written into the rest `dAtA[i:]` of the buffer. -/
def marshalNodes : List Node → List Nat → Nat → Option (List Nat × Nat)
  | [], dAtA, i => some (dAtA, i)
  | msg :: rest, dAtA, i =>
    match setByte dAtA i 0xa with
    | none => none
    | some d1 =>
      match encodeVarintCodec d1 (i + 1) (uint64 msg.Size) with
      | none => none
      | some (d2, i2) =>
        if i2 ≤ d2.length then
          match msg.MarshalTo (d2.drop i2) with
          | none => none
          | some (sub, n) => marshalNodes rest (d2.take i2 ++ sub) (i2 + n)
        else none

/-- `MarshalTo` of `TokenDetails` (`codec.pb.go` lines 317-341). -/
def TokenDetails.MarshalTo (m : TokenDetails) (dAtA : List Nat) : Option (List Nat × Nat) :=
  match marshalNodes m.Nodes dAtA 0 with
  | none => none
  | some (d1, i) =>
    if m.ChainID.length > 0 then
      match setByte d1 i 0x12 with
      | none => none
      | some d2 =>
        match encodeVarintCodec d2 (i + 1) (uint64 m.ChainID.length) with
        | none => none
        | some (d3, i3) =>
          match copyAt d3 i3 m.ChainID with
          | none => none
          | some (d4, n) => some (d4, i3 + n)
    else some (d1, i)

/-- `Marshal` of `TokenDetails` (`codec.pb.go` lines 307-315). -/
def TokenDetails.Marshal (m : TokenDetails) : Option (List Nat) :=
  match m.MarshalTo (List.replicate m.Size 0) with
  | none => none
  | some (d, n) => if n ≤ d.length then some (d.take n) else none

/-! ## Decoding -/

/-- The errors of the decoder: `ErrInvalidLengthCodec`, `ErrIntOverflowCodec`,
`io.ErrUnexpectedEOF`, and the errors made with `fmt.Errorf` for a bad tag or
wire type. -/
inductive Err where
  | ErrInvalidLengthCodec
  | ErrIntOverflowCodec
  | ErrUnexpectedEOF
  | ErrProto
  deriving DecidableEq

/-- The outcome of a call: a returned value with a nil error, a returned
error, or a panic. -/
inductive Res (α : Type) where
  | ok (a : α)
  | error (e : Err)
  | panic
  deriving DecidableEq

/-- The expression `dAtA[i]`; `none` when the index is out of range. -/
def index (dAtA : List Nat) (i : Int) : Option Nat :=
  if 0 ≤ i then dAtA[i.toNat]? else none

/-- The expression `dAtA[i:j]`; `none` when the bounds are out of range. -/
def slice (dAtA : List Nat) (i j : Int) : Option (List Nat) :=
  if 0 ≤ i ∧ i ≤ j ∧ j ≤ dAtA.length then some ((dAtA.take j.toNat).drop i.toNat) else none

/-- The expression `dAtA[i:]`; `none` when the bound is out of range. -/
def sliceFrom (dAtA : List Nat) (i : Int) : Option (List Nat) :=
  if 0 ≤ i ∧ i ≤ dAtA.length then some (dAtA.drop i.toNat) else none

/-- The loop that reads a varint, which the source repeats wherever a tag or a
length is read (`codec.pb.go` lines 904-917, 932-945, 1094-1107, ...): from
`iNdEx` on, seven bits per byte are or-ed into the 64-bit pattern `wire`, until
a byte below `0x80`.  The loop is entered at most ten times with a shift below
64; the eleventh entry reports an overflow. -/
def readVarint (dAtA : List Nat) : Nat → Nat → Int → Nat → Res (Int × Nat)
  | 0, _, _, _ => Res.error Err.ErrIntOverflowCodec
  | fuel + 1, shift, iNdEx, wire =>
    if shift ≥ 64 then Res.error Err.ErrIntOverflowCodec
    else if iNdEx ≥ dAtA.length then Res.error Err.ErrUnexpectedEOF
    else
      match index dAtA iNdEx with
      | none => Res.panic
      | some b =>
        if b < 0x80 then
          Res.ok (iNdEx + 1, (wire ||| ((b &&& 0x7F) <<< shift)) % 18446744073709551616)
        else
          readVarint dAtA fuel (shift + 7) (iNdEx + 1)
            ((wire ||| ((b &&& 0x7F) <<< shift)) % 18446744073709551616)

/-- The loop of wire type 3 in `skipCodec` (`codec.pb.go` lines 1149-1175),
with the recursive call as a parameter: nested fields are skipped until an
end-group tag.  `none` is a run that has not ended within the given number of
rounds. -/
def skipGroup (skip : List Nat → Option (Res Int)) (dAtA : List Nat) :
    Nat → Int → Option (Res Int)
  | 0, _ => none
  | fuel + 1, start =>
    match readVarint dAtA 10 0 start 0 with
    | Res.panic => some Res.panic
    | Res.error e => some (Res.error e)
    | Res.ok (iNdEx, innerWire) =>
      if innerWire &&& 0x7 = 4 then some (Res.ok iNdEx)
      else
        match sliceFrom dAtA start with
        | none => some Res.panic
        | some sub =>
          match skip sub with
          | none => none
          | some Res.panic => some Res.panic
          | some (Res.error e) => some (Res.error e)
          | some (Res.ok next) => skipGroup skip dAtA fuel (wrap64 (start + next))

/-- `skipCodec` returns the number of bytes of the field at the head of `dAtA`
(`codec.pb.go` lines 1089-1187).  `none` is a run that has not ended within
the given number of nested calls and rounds. -/
def skipCodec : Nat → List Nat → Option (Res Int)
  | 0, _ => none
  | fuel + 1, dAtA =>
    if 0 < dAtA.length then
      match readVarint dAtA 10 0 0 0 with
      | Res.panic => some Res.panic
      | Res.error e => some (Res.error e)
      | Res.ok (iNdEx, wire) =>
        if wire &&& 0x7 = 0 then
          match readVarint dAtA 10 0 iNdEx 0 with
          | Res.panic => some Res.panic
          | Res.error e => some (Res.error e)
          | Res.ok (iNdEx, _) => some (Res.ok iNdEx)
        else if wire &&& 0x7 = 1 then some (Res.ok (iNdEx + 8))
        else if wire &&& 0x7 = 2 then
          match readVarint dAtA 10 0 iNdEx 0 with
          | Res.panic => some Res.panic
          | Res.error e => some (Res.error e)
          | Res.ok (iNdEx, length) =>
            if wrap64 length < 0 then some (Res.error Err.ErrInvalidLengthCodec)
            else some (Res.ok (wrap64 (iNdEx + wrap64 length)))
        else if wire &&& 0x7 = 3 then skipGroup (skipCodec fuel) dAtA fuel iNdEx
        else if wire &&& 0x7 = 4 then some (Res.ok iNdEx)
        else if wire &&& 0x7 = 5 then some (Res.ok (iNdEx + 4))
        else some (Res.error Err.ErrProto)
    else some Res.panic

/-- The default case of the two `Unmarshal` functions (`codec.pb.go` lines
989-1001 and 1068-1080): the unknown field at `preIndex` is skipped; the
result is the index after it. -/
def skipUnknown (dAtA : List Nat) (preIndex : Int) : Option (Res Int) :=
  match sliceFrom dAtA preIndex with
  | none => some Res.panic
  | some sub =>
    match skipCodec (sub.length + 1) sub with
    | none => none
    | some Res.panic => some Res.panic
    | some (Res.error e) => some (Res.error e)
    | some (Res.ok skippy) =>
      if skippy < 0 then some (Res.error Err.ErrInvalidLengthCodec)
      else if wrap64 (preIndex + skippy) > dAtA.length then
        some (Res.error Err.ErrUnexpectedEOF)
      else some (Res.ok (wrap64 (preIndex + skippy)))

/-- The loop of `Unmarshal` of a `Node` (`codec.pb.go` lines 1013-1087).
`none` is a run that has not ended within the given number of rounds. -/
def Node.unmarshalLoop (dAtA : List Nat) : Nat → Int → Node → Option (Res Node)
  | 0, _, _ => none
  | fuel + 1, iNdEx, m =>
    if iNdEx < dAtA.length then
      match readVarint dAtA 10 0 iNdEx 0 with
      | Res.panic => some Res.panic
      | Res.error e => some (Res.error e)
      | Res.ok (i1, wire) =>
        if wire &&& 0x7 = 4 then some (Res.error Err.ErrProto)
        else if int32 (wire >>> 3) ≤ 0 then some (Res.error Err.ErrProto)
        else if int32 (wire >>> 3) = 1 then
          if wire &&& 0x7 ≠ 2 then some (Res.error Err.ErrProto)
          else
            match readVarint dAtA 10 0 i1 0 with
            | Res.panic => some Res.panic
            | Res.error e => some (Res.error e)
            | Res.ok (i2, stringLen) =>
              if wrap64 stringLen < 0 then some (Res.error Err.ErrInvalidLengthCodec)
              else if wrap64 (i2 + wrap64 stringLen) > dAtA.length then
                some (Res.error Err.ErrUnexpectedEOF)
              else
                match slice dAtA i2 (wrap64 (i2 + wrap64 stringLen)) with
                | none => some Res.panic
                | some name =>
                  Node.unmarshalLoop dAtA fuel (wrap64 (i2 + wrap64 stringLen))
                    { m with Name := name }
        else
          match skipUnknown dAtA iNdEx with
          | none => none
          | some Res.panic => some Res.panic
          | some (Res.error e) => some (Res.error e)
          | some (Res.ok i3) => Node.unmarshalLoop dAtA fuel i3 m
    else if iNdEx > dAtA.length then some (Res.error Err.ErrUnexpectedEOF)
    else some (Res.ok m)

/-- `Unmarshal` of a `Node` (`codec.pb.go` lines 1010-1088): every round but
the last moves the index forward, so one round more than there are bytes is
enough. -/
def Node.Unmarshal (m : Node) (dAtA : List Nat) : Option (Res Node) :=
  Node.unmarshalLoop dAtA (dAtA.length + 1) 0 m

/-- The loop of `Unmarshal` of `TokenDetails` (`codec.pb.go` lines 901-1008).
`none` is a run that has not ended within the given number of rounds. -/
def TokenDetails.unmarshalLoop (dAtA : List Nat) :
    Nat → Int → TokenDetails → Option (Res TokenDetails)
  | 0, _, _ => none
  | fuel + 1, iNdEx, m =>
    if iNdEx < dAtA.length then
      match readVarint dAtA 10 0 iNdEx 0 with
      | Res.panic => some Res.panic
      | Res.error e => some (Res.error e)
      | Res.ok (i1, wire) =>
        if wire &&& 0x7 = 4 then some (Res.error Err.ErrProto)
        else if int32 (wire >>> 3) ≤ 0 then some (Res.error Err.ErrProto)
        else if int32 (wire >>> 3) = 1 then
          if wire &&& 0x7 ≠ 2 then some (Res.error Err.ErrProto)
          else
            match readVarint dAtA 10 0 i1 0 with
            | Res.panic => some Res.panic
            | Res.error e => some (Res.error e)
            | Res.ok (i2, msglen) =>
              if wrap64 msglen < 0 then some (Res.error Err.ErrInvalidLengthCodec)
              else if wrap64 (i2 + wrap64 msglen) > dAtA.length then
                some (Res.error Err.ErrUnexpectedEOF)
              else
                match slice dAtA i2 (wrap64 (i2 + wrap64 msglen)) with
                | none => some Res.panic
                | some sub =>
                  match Node.Unmarshal { Name := [] } sub with
                  | none => none
                  | some Res.panic => some Res.panic
                  | some (Res.error e) => some (Res.error e)
                  | some (Res.ok node) =>
                    TokenDetails.unmarshalLoop dAtA fuel (wrap64 (i2 + wrap64 msglen))
                      { m with Nodes := m.Nodes ++ [node] }
        else if int32 (wire >>> 3) = 2 then
          if wire &&& 0x7 ≠ 2 then some (Res.error Err.ErrProto)
          else
            match readVarint dAtA 10 0 i1 0 with
            | Res.panic => some Res.panic
            | Res.error e => some (Res.error e)
            | Res.ok (i2, byteLen) =>
              if wrap64 byteLen < 0 then some (Res.error Err.ErrInvalidLengthCodec)
              else if wrap64 (i2 + wrap64 byteLen) > dAtA.length then
                some (Res.error Err.ErrUnexpectedEOF)
              else
                match slice dAtA i2 (wrap64 (i2 + wrap64 byteLen)) with
                | none => some Res.panic
                | some chain =>
                  TokenDetails.unmarshalLoop dAtA fuel (wrap64 (i2 + wrap64 byteLen))
                    { m with ChainID := chain }
        else
          match skipUnknown dAtA iNdEx with
          | none => none
          | some Res.panic => some Res.panic
          | some (Res.error e) => some (Res.error e)
          | some (Res.ok i3) => TokenDetails.unmarshalLoop dAtA fuel i3 m
    else if iNdEx > dAtA.length then some (Res.error Err.ErrUnexpectedEOF)
    else some (Res.ok m)

/-- `Unmarshal` of `TokenDetails` (`codec.pb.go` lines 898-1009). -/
def TokenDetails.Unmarshal (m : TokenDetails) (dAtA : List Nat) : Option (Res TokenDetails) :=
  TokenDetails.unmarshalLoop dAtA (dAtA.length + 1) 0 m

end blockchain

/-! ## The encoded byte string

The byte strings below are what `MarshalTo` writes; they are used to state
what the encoder and the decoder do. -/

namespace blockchain

/-- The bytes of a varint: seven bits per byte, lowest first, every byte but
the last with the bit `0x80` set; at most as many bytes as given. -/
def varintBytes : Nat → Nat → List Nat
  | 0, _ => []
  | fuel + 1, v =>
    if v ≥ 128 then (v % 128 + 128) :: varintBytes fuel (v / 128) else [v]

/-- The bytes of the varint of a `uint64`. -/
def varint (v : Nat) : List Nat := varintBytes 10 v

/-- The bytes of a length-delimited field: tag, length, content. -/
def fieldBytes (tag : Nat) (content : List Nat) : List Nat :=
  tag :: (varint content.length ++ content)

/-- The encoding of a `Node`: the field 1 with the name, unless it is empty. -/
def Node.bytes (m : Node) : List Nat :=
  if m.Name.length > 0 then fieldBytes 0xa m.Name else []

/-- The encoding of a list of nodes: a field 1 for each. -/
def nodesBytes : List Node → List Nat
  | [] => []
  | n :: rest => fieldBytes 0xa n.bytes ++ nodesBytes rest

/-- The encoding of `TokenDetails`: the nodes, then the field 2 with the chain
id, unless it is empty. -/
def TokenDetails.bytes (m : TokenDetails) : List Nat :=
  nodesBytes m.Nodes ++ (if m.ChainID.length > 0 then fieldBytes 0x12 m.ChainID else [])

/-- The names and the encodings of the nodes are shorter than `2^63`, as every
Go slice and string is. -/
def nodesFit (ns : List Node) : Prop :=
  ∀ n ∈ ns, n.Name.length < 9223372036854775808 ∧ n.bytes.length < 9223372036854775808

end blockchain

namespace coin

/-! ## Lemmas on machine integers -/

theorem wrap64_of_inInt64 {x : Int} (h : inInt64 x) : wrap64 x = x := by
  unfold inInt64 at h
  unfold wrap64
  omega

theorem wrap64_inInt64 (x : Int) : inInt64 (wrap64 x) := by
  unfold inInt64 wrap64
  omega

theorem wrap64_eq_of_bounds {x : Int} (h1 : -9223372036854775808 ≤ x)
    (h2 : x ≤ 9223372036854775807) : wrap64 x = x :=
  wrap64_of_inInt64 ⟨h1, h2⟩

end coin

namespace Coin

open coin coin.ErrKind

/-! ## Lemmas on the loops of `normalize` -/

theorem raiseFrac_of_not_lt (n : Nat) (c : Coin) (h : ¬ c.Fractional < MinFrac) :
    raiseFrac n c = c := by
  cases n with
  | zero => rfl
  | succ k => simp [raiseFrac, h]

theorem raiseFrac_succ_of_lt (n : Nat) (c : Coin) (h : c.Fractional < MinFrac) :
    raiseFrac (n + 1) c =
      raiseFrac n { c with Whole := wrap64 (c.Whole - 1),
                           Fractional := wrap64 (c.Fractional + FracUnit) } := by
  simp [raiseFrac, h]

theorem lowerFrac_of_not_gt (n : Nat) (c : Coin) (h : ¬ c.Fractional > MaxFrac) :
    lowerFrac n c = c := by
  cases n with
  | zero => rfl
  | succ k => simp [lowerFrac, h]

theorem lowerFrac_succ_of_gt (n : Nat) (c : Coin) (h : c.Fractional > MaxFrac) :
    lowerFrac (n + 1) c =
      lowerFrac n { c with Whole := wrap64 (c.Whole + 1),
                           Fractional := wrap64 (c.Fractional - FracUnit) } := by
  simp [lowerFrac, h]

/-- With fuel at least the distance of the fractional part below `MinFrac`,
the first loop of `normalize` stops because its condition is false. -/
theorem raiseFrac_exit (n : Nat) : ∀ c : Coin, (MinFrac - c.Fractional).toNat ≤ n →
    ¬ (raiseFrac n c).Fractional < MinFrac := by
  induction n with
  | zero =>
    intro c h
    simp only [raiseFrac]
    omega
  | succ k ih =>
    intro c h
    by_cases hlt : c.Fractional < MinFrac
    · rw [raiseFrac_succ_of_lt k c hlt]
      apply ih
      simp only
      have hw := wrap64_inInt64 (c.Fractional + FracUnit)
      unfold inInt64 at hw
      by_cases hr : -9223372036854775808 ≤ c.Fractional
      · have : wrap64 (c.Fractional + FracUnit) = c.Fractional + FracUnit := by
          apply wrap64_eq_of_bounds <;> (unfold MinFrac MaxFrac FracUnit at *; omega)
        rw [this]
        unfold MinFrac MaxFrac FracUnit at *
        omega
      · unfold MinFrac MaxFrac FracUnit at *
        omega
    · rw [raiseFrac_of_not_lt _ c hlt]
      exact hlt

/-- With fuel at least the distance of the fractional part above `MaxFrac`,
the second loop of `normalize` stops because its condition is false. -/
theorem lowerFrac_exit (n : Nat) : ∀ c : Coin, (c.Fractional - MaxFrac).toNat ≤ n →
    ¬ (lowerFrac n c).Fractional > MaxFrac := by
  induction n with
  | zero =>
    intro c h
    simp only [lowerFrac]
    omega
  | succ k ih =>
    intro c h
    by_cases hgt : c.Fractional > MaxFrac
    · rw [lowerFrac_succ_of_gt k c hgt]
      apply ih
      simp only
      have hw := wrap64_inInt64 (c.Fractional - FracUnit)
      unfold inInt64 at hw
      by_cases hr : c.Fractional ≤ 9223372036854775807
      · have : wrap64 (c.Fractional - FracUnit) = c.Fractional - FracUnit := by
          apply wrap64_eq_of_bounds <;> (unfold MaxFrac FracUnit at *; omega)
        rw [this]
        unfold MaxFrac FracUnit at *
        omega
      · unfold MaxFrac FracUnit at *
        omega
    · rw [lowerFrac_of_not_gt _ c hgt]
      exact hgt

end Coin

namespace Coin

open coin coin.ErrKind

/-! ## Validity -/

/-- What `Validate` accepting a coin means, field by field. -/
theorem validate_eq_none_iff (c : Coin) :
    c.Validate = none ↔
      IsCC c.Ticker = true ∧ (MinInt ≤ c.Whole ∧ c.Whole ≤ MaxInt) ∧
      (MinFrac ≤ c.Fractional ∧ c.Fractional ≤ MaxFrac) ∧
      ((0 < c.Whole → 0 ≤ c.Fractional) ∧ (c.Whole < 0 → c.Fractional ≤ 0)) := by
  unfold Validate
  by_cases h1 : IsCC c.Ticker = true
  · by_cases h2 : c.Whole < MinInt ∨ c.Whole > MaxInt
    · simp [h1, h2]; omega
    · by_cases h3 : c.Fractional < MinFrac ∨ c.Fractional > MaxFrac
      · simp [h1, h2, h3]; omega
      · simp only [h1, h2, h3, Bool.not_true, Bool.false_eq_true, if_false, true_and]
        split_ifs with h4
        · simp only [false_iff, reduceCtorEq]
          obtain ⟨hw, hf, hs⟩ := h4
          rw [ne_eq, decide_eq_decide] at hs
          omega
        · simp only [true_iff]
          rw [not_and, not_and, ne_eq, not_not, decide_eq_decide] at h4
          omega
  · simp [h1]

/-- A ticker accepted by `IsCC` is not the empty string. -/
theorem ticker_ne_empty_of_IsCC {s : String} (h : IsCC s = true) : s ≠ "" := by
  intro he
  subst he
  revert h
  decide

end Coin

namespace Coin

open coin coin.ErrKind

/-! ## `normalize` on the sum of two valid coins -/

/-- The first loop of `normalize` on a fractional part that is at most one unit
below its range: one iteration when it is below, none otherwise. -/
theorem raiseFrac_small (c : Coin) (hW : -2000000000000000 ≤ c.Whole)
    (hW2 : c.Whole ≤ 2000000000000000) (hF : -1999999998 ≤ c.Fractional) :
    raiseFrac (MinFrac - c.Fractional).toNat c =
      if c.Fractional < MinFrac then
        { c with Whole := c.Whole - 1, Fractional := c.Fractional + FracUnit }
      else c := by
  by_cases hlt : c.Fractional < MinFrac
  · obtain ⟨k, hk⟩ : ∃ k, (MinFrac - c.Fractional).toNat = k + 1 := by
      apply Nat.exists_eq_succ_of_ne_zero
      omega
    have hw : wrap64 (c.Whole - 1) = c.Whole - 1 := by
      apply wrap64_eq_of_bounds <;> omega
    have hf : wrap64 (c.Fractional + FracUnit) = c.Fractional + FracUnit := by
      apply wrap64_eq_of_bounds <;> (unfold MinFrac MaxFrac FracUnit at *; omega)
    rw [hk, raiseFrac_succ_of_lt k c hlt, hw, hf, if_pos hlt]
    apply raiseFrac_of_not_lt
    simp only
    unfold MinFrac MaxFrac FracUnit at *
    omega
  · rw [raiseFrac_of_not_lt _ c hlt, if_neg hlt]

/-- The second loop of `normalize` on a fractional part that is at most one
unit above its range: one iteration when it is above, none otherwise. -/
theorem lowerFrac_small (c : Coin) (hW1 : -2000000000000000 ≤ c.Whole)
    (hW : c.Whole ≤ 2000000000000000) (hF : c.Fractional ≤ 1999999998) :
    lowerFrac (c.Fractional - MaxFrac).toNat c =
      if c.Fractional > MaxFrac then
        { c with Whole := c.Whole + 1, Fractional := c.Fractional - FracUnit }
      else c := by
  by_cases hgt : c.Fractional > MaxFrac
  · obtain ⟨k, hk⟩ : ∃ k, (c.Fractional - MaxFrac).toNat = k + 1 := by
      apply Nat.exists_eq_succ_of_ne_zero
      omega
    have hw : wrap64 (c.Whole + 1) = c.Whole + 1 := by
      apply wrap64_eq_of_bounds <;> omega
    have hf : wrap64 (c.Fractional - FracUnit) = c.Fractional - FracUnit := by
      apply wrap64_eq_of_bounds <;> (unfold MaxFrac FracUnit at *; omega)
    rw [hk, lowerFrac_succ_of_gt k c hgt, hw, hf, if_pos hgt]
    apply lowerFrac_of_not_gt
    simp only
    unfold MaxFrac FracUnit at *
    omega
  · rw [lowerFrac_of_not_gt _ c hgt, if_neg hgt]

/-- The sign step of `normalize` away from the 64-bit boundary. -/
theorem fixSigns_small (c : Coin) (hW1 : -2000000000000001 ≤ c.Whole)
    (hW2 : c.Whole ≤ 2000000000000001)
    (hF1 : MinFrac ≤ c.Fractional) (hF2 : c.Fractional ≤ MaxFrac) :
    fixSigns c =
      if c.Whole > 0 ∧ c.Fractional < 0 then
        { c with Whole := c.Whole - 1, Fractional := c.Fractional + FracUnit }
      else if c.Whole < 0 ∧ c.Fractional > 0 then
        { c with Whole := c.Whole + 1, Fractional := c.Fractional - FracUnit }
      else c := by
  have hw1 : wrap64 (c.Whole - 1) = c.Whole - 1 := by
    apply wrap64_eq_of_bounds <;> omega
  have hw2 : wrap64 (c.Whole + 1) = c.Whole + 1 := by
    apply wrap64_eq_of_bounds <;> omega
  have hf1 : wrap64 (c.Fractional + FracUnit) = c.Fractional + FracUnit := by
    apply wrap64_eq_of_bounds <;> (unfold MinFrac MaxFrac FracUnit at *; omega)
  have hf2 : wrap64 (c.Fractional - FracUnit) = c.Fractional - FracUnit := by
    apply wrap64_eq_of_bounds <;> (unfold MinFrac MaxFrac FracUnit at *; omega)
  unfold fixSigns
  rw [hw1, hw2, hf1, hf2]

/-- The result of `normalize` on a coin whose whole part is within twice the
coin range and whose fractional part is within one unit of its range, as is
the field-wise sum of two valid coins. -/
theorem normalize_small (c : Coin)
    (hW1 : -2000000000000000 ≤ c.Whole) (hW2 : c.Whole ≤ 2000000000000000)
    (hF1 : -1999999998 ≤ c.Fractional) (hF2 : c.Fractional ≤ 1999999998) :
    ((normalize c).2 = none ↔
        -(MaxInt * FracUnit + MaxFrac) ≤ exactValue c ∧
          exactValue c ≤ MaxInt * FracUnit + MaxFrac) ∧
    ((normalize c).2 = none →
        (normalize c).1.Ticker = c.Ticker ∧
        exactValue (normalize c).1 = exactValue c ∧
        (MinInt ≤ (normalize c).1.Whole ∧ (normalize c).1.Whole ≤ MaxInt) ∧
        (MinFrac ≤ (normalize c).1.Fractional ∧ (normalize c).1.Fractional ≤ MaxFrac) ∧
        ((0 < (normalize c).1.Whole → 0 ≤ (normalize c).1.Fractional) ∧
          ((normalize c).1.Whole < 0 → (normalize c).1.Fractional ≤ 0))) ∧
    ((normalize c).2 ≠ none → normalize c = (emptyCoin, some ErrInvalidCoin)) := by
  unfold normalize
  simp only
  rw [raiseFrac_small c hW1 hW2 hF1]
  by_cases h1 : c.Fractional < MinFrac
  · rw [if_pos h1]
    rw [lowerFrac_of_not_gt _ _ (by simp only; unfold MinFrac MaxFrac FracUnit at *; omega)]
    rw [fixSigns_small _ (by simp only; omega) (by simp only; omega)
      (by simp only; unfold MinFrac MaxFrac FracUnit at *; omega)
      (by simp only; unfold MinFrac MaxFrac FracUnit at *; omega)]
    simp only [exactValue]
    unfold MinInt MaxInt MinFrac MaxFrac FracUnit at *
    split_ifs <;> dsimp only at * <;> simp <;> omega
  · rw [if_neg h1, lowerFrac_small c hW1 hW2 hF2]
    by_cases h2 : c.Fractional > MaxFrac
    · rw [if_pos h2]
      rw [fixSigns_small _ (by simp only; omega) (by simp only; omega)
        (by simp only; unfold MinFrac MaxFrac FracUnit at *; omega)
        (by simp only; unfold MinFrac MaxFrac FracUnit at *; omega)]
      simp only [exactValue]
      unfold MinInt MaxInt MinFrac MaxFrac FracUnit at *
      split_ifs <;> dsimp only at * <;> simp <;> omega
    · rw [if_neg h2]
      rw [fixSigns_small _ (by omega) (by omega)
        (by unfold MinFrac MaxFrac FracUnit at *; omega)
        (by unfold MinFrac MaxFrac FracUnit at *; omega)]
      simp only [exactValue]
      unfold MinInt MaxInt MinFrac MaxFrac FracUnit at *
      split_ifs <;> dsimp only at * <;> simp <;> omega

end Coin

namespace Coin

open coin coin.ErrKind

/-- On two valid coins of one ticker, `Add` is `normalize` of the field-wise
sum: neither shortcut for an empty coin applies and nothing wraps. -/
theorem Add_eq_normalize_of_valid (a b : Coin) (ha : a.Validate = none)
    (hb : b.Validate = none) (ht : a.Ticker = b.Ticker) :
    a.Add b = normalize { Whole := a.Whole + b.Whole,
                          Fractional := a.Fractional + b.Fractional,
                          Ticker := a.Ticker } := by
  obtain ⟨hca, ⟨haW1, haW2⟩, ⟨haF1, haF2⟩, -⟩ := (validate_eq_none_iff a).1 ha
  obtain ⟨hcb, ⟨hbW1, hbW2⟩, ⟨hbF1, hbF2⟩, -⟩ := (validate_eq_none_iff b).1 hb
  have hna : a.Ticker ≠ "" := ticker_ne_empty_of_IsCC hca
  have hnb : b.Ticker ≠ "" := ticker_ne_empty_of_IsCC hcb
  have hw : wrap64 (a.Whole + b.Whole) = a.Whole + b.Whole := by
    apply wrap64_eq_of_bounds <;> (unfold MinInt MaxInt at *; omega)
  have hf : wrap64 (a.Fractional + b.Fractional) = a.Fractional + b.Fractional := by
    apply wrap64_eq_of_bounds <;> (unfold MinFrac MaxFrac FracUnit at *; omega)
  unfold Add SameType
  simp [hna, hnb, ht, hw, hf]

end Coin

namespace coin

open ErrKind

/-- C1: for two coins that pass `Validate` and share a ticker, `Add` succeeds
exactly when the exact sum `(a.Whole + b.Whole) * 10^9 + a.Fractional +
b.Fractional` has magnitude at most `MaxInt * 10^9 + MaxFrac`; on success the
result keeps the ticker, has exactly that value and passes `Validate`;
otherwise `Add` returns an error. -/
theorem add_valid_same_ticker (a b : Coin) (ha : a.Validate = none)
    (hb : b.Validate = none) (ht : a.Ticker = b.Ticker) :
    ((a.Add b).2 = none ↔
      |(a.Whole + b.Whole) * FracUnit + a.Fractional + b.Fractional|
        ≤ MaxInt * FracUnit + MaxFrac) ∧
    ((a.Add b).2 = none →
      (a.Add b).1.Ticker = a.Ticker ∧
      (a.Add b).1.Whole * FracUnit + (a.Add b).1.Fractional
        = (a.Whole + b.Whole) * FracUnit + a.Fractional + b.Fractional ∧
      (a.Add b).1.Validate = none) ∧
    (¬ |(a.Whole + b.Whole) * FracUnit + a.Fractional + b.Fractional|
        ≤ MaxInt * FracUnit + MaxFrac → ∃ e, (a.Add b).2 = some e) := by
  obtain ⟨hca, ⟨haW1, haW2⟩, ⟨haF1, haF2⟩, -⟩ := (Coin.validate_eq_none_iff a).1 ha
  obtain ⟨hcb, ⟨hbW1, hbW2⟩, ⟨hbF1, hbF2⟩, -⟩ := (Coin.validate_eq_none_iff b).1 hb
  rw [Coin.Add_eq_normalize_of_valid a b ha hb ht]
  obtain ⟨h1, h2, h3⟩ := Coin.normalize_small
    { Whole := a.Whole + b.Whole, Fractional := a.Fractional + b.Fractional,
      Ticker := a.Ticker }
    (by simp only; unfold MinInt MaxInt at *; omega)
    (by simp only; unfold MinInt MaxInt at *; omega)
    (by simp only; unfold MinFrac MaxFrac FracUnit at *; omega)
    (by simp only; unfold MinFrac MaxFrac FracUnit at *; omega)
  have hv : exactValue (Coin.mk (a.Whole + b.Whole) (a.Fractional + b.Fractional) a.Ticker)
      = (a.Whole + b.Whole) * FracUnit + a.Fractional + b.Fractional := by
    simp only [exactValue]; ring
  rw [hv] at h1 h2
  have habs : |(a.Whole + b.Whole) * FracUnit + a.Fractional + b.Fractional|
        ≤ MaxInt * FracUnit + MaxFrac ↔
      -(MaxInt * FracUnit + MaxFrac) ≤
          (a.Whole + b.Whole) * FracUnit + a.Fractional + b.Fractional ∧
        (a.Whole + b.Whole) * FracUnit + a.Fractional + b.Fractional
          ≤ MaxInt * FracUnit + MaxFrac := abs_le
  refine ⟨h1.trans habs.symm, ?_, ?_⟩
  · intro hok
    obtain ⟨ht', hval, hW, hF, hs⟩ := h2 hok
    refine ⟨ht', ?_, ?_⟩
    · simpa only [exactValue] using hval
    · rw [Coin.validate_eq_none_iff]
      refine ⟨?_, hW, hF, hs⟩
      rw [ht']
      exact hca
  · intro hbig
    have hne : (Coin.normalize
        (Coin.mk (a.Whole + b.Whole) (a.Fractional + b.Fractional) a.Ticker)).2 ≠ none :=
      fun hok => hbig (habs.2 (h1.1 hok))
    exact ⟨ErrInvalidCoin, by rw [h3 hne]⟩

/-- Witness for C1: `(MaxInt, 5, "ABC")` plus `(-MaxInt, -4, "ABC")`, the
first case of `TestCombine`. -/
theorem add_valid_same_ticker_witness :
    (NewCoin MaxInt 5 "ABC").Validate = none ∧
    (NewCoin (-MaxInt) (-4) "ABC").Validate = none ∧
    (NewCoin MaxInt 5 "ABC").Ticker = (NewCoin (-MaxInt) (-4) "ABC").Ticker ∧
    (((NewCoin MaxInt 5 "ABC").Add (NewCoin (-MaxInt) (-4) "ABC")).2 = none ↔
      |((NewCoin MaxInt 5 "ABC").Whole + (NewCoin (-MaxInt) (-4) "ABC").Whole) * FracUnit + (NewCoin MaxInt 5 "ABC").Fractional + (NewCoin (-MaxInt) (-4) "ABC").Fractional|
        ≤ MaxInt * FracUnit + MaxFrac) ∧
    (((NewCoin MaxInt 5 "ABC").Add (NewCoin (-MaxInt) (-4) "ABC")).2 = none →
      ((NewCoin MaxInt 5 "ABC").Add (NewCoin (-MaxInt) (-4) "ABC")).1.Ticker = (NewCoin MaxInt 5 "ABC").Ticker ∧
      ((NewCoin MaxInt 5 "ABC").Add (NewCoin (-MaxInt) (-4) "ABC")).1.Whole * FracUnit + ((NewCoin MaxInt 5 "ABC").Add (NewCoin (-MaxInt) (-4) "ABC")).1.Fractional
        = ((NewCoin MaxInt 5 "ABC").Whole + (NewCoin (-MaxInt) (-4) "ABC").Whole) * FracUnit + (NewCoin MaxInt 5 "ABC").Fractional + (NewCoin (-MaxInt) (-4) "ABC").Fractional ∧
      ((NewCoin MaxInt 5 "ABC").Add (NewCoin (-MaxInt) (-4) "ABC")).1.Validate = none) ∧
    (¬ |((NewCoin MaxInt 5 "ABC").Whole + (NewCoin (-MaxInt) (-4) "ABC").Whole) * FracUnit + (NewCoin MaxInt 5 "ABC").Fractional + (NewCoin (-MaxInt) (-4) "ABC").Fractional|
        ≤ MaxInt * FracUnit + MaxFrac → ∃ e, ((NewCoin MaxInt 5 "ABC").Add (NewCoin (-MaxInt) (-4) "ABC")).2 = some e) :=
  ⟨by decide, by decide, rfl,
    add_valid_same_ticker (NewCoin MaxInt 5 "ABC") (NewCoin (-MaxInt) (-4) "ABC")
      (by decide) (by decide) rfl⟩

end coin

namespace coin

open ErrKind

/-! ## Truncated remainder -/

/-- The remainder of truncated division by a positive number lies strictly
between the negated divisor and the divisor. -/
theorem tmod_bounds_of_pos (a : Int) {b : Int} (hb : 0 < b) :
    -b < Int.tmod a b ∧ Int.tmod a b < b := by
  refine ⟨?_, Int.tmod_lt_of_pos a hb⟩
  rcases le_or_lt 0 a with ha | ha
  · have := Int.tmod_nonneg b ha
    omega
  · have hneg : Int.tmod a b = -Int.tmod (-a) b := by
      rw [Int.tmod_def, Int.tmod_def, Int.neg_tdiv]
      ring
    have := Int.tmod_lt_of_pos (-a) hb
    omega

/-! ## Multiply -/

/-- C2: `Multiply` does not check the coin range.  The valid coin
`(MaxInt, 0, "ADA")` multiplied by 2 has an exact product of magnitude above
`MaxInt * 10^9 + MaxFrac`, yet `Multiply` returns the coin
`(2 * MaxInt, 0, "ADA")` with no error; that coin does not pass `Validate`. -/
theorem multiply_maxInt_by_two_no_error :
    (NewCoin MaxInt 0 "ADA").Validate = none ∧
    |2 * (MaxInt * FracUnit + 0)| > MaxInt * FracUnit + MaxFrac ∧
    (NewCoin MaxInt 0 "ADA").Multiply 2 = (NewCoin 1999999999999998 0 "ADA", none) ∧
    (NewCoin 1999999999999998 0 "ADA").Validate = some ErrInvalidCoin := by
  decide

/-- C3: the division check of `mul64` misses the overflow of
`-1 * MinInt64`.  The valid coin `(-1, 0, "ADA")` multiplied by `-2^63` gives
no error and the coin `(-2^63, 0, "ADA")`, whose exact value `-2^63 * 10^9`
differs from the exact product `2^63 * 10^9`. -/
theorem multiply_minus_one_by_min_int64_wraps :
    (NewCoin (-1) 0 "ADA").Validate = none ∧
    inInt64 (-9223372036854775808) ∧
    mul64 (-1) (-9223372036854775808) = (-9223372036854775808, none) ∧
    (NewCoin (-1) 0 "ADA").Multiply (-9223372036854775808)
      = (NewCoin (-9223372036854775808) 0 "ADA", none) ∧
    ((NewCoin (-1) 0 "ADA").Multiply (-9223372036854775808)).1.Whole * FracUnit
        + ((NewCoin (-1) 0 "ADA").Multiply (-9223372036854775808)).1.Fractional
      ≠ -9223372036854775808 * ((-1) * FracUnit + 0) := by
  decide

/-- C4: the carry of `Multiply` runs only for `frac > FracUnit`.  The valid
coin `(0, 1, "IOV")` multiplied by `10^9` gives no error and the coin
`(0, 10^9, "IOV")`, whose fractional part equals `FracUnit` and so exceeds
`MaxFrac`; the valid coin `(0, -1, "IOV")` multiplied by `2 * 10^9` gives the
fractional part `-2 * 10^9`, below `-MaxFrac`. -/
theorem multiply_result_not_normalized :
    (NewCoin 0 1 "IOV").Validate = none ∧
    (NewCoin 0 1 "IOV").Multiply 1000000000 = (NewCoin 0 1000000000 "IOV", none) ∧
    ¬ ((NewCoin 0 1 "IOV").Multiply 1000000000).1.Fractional ≤ MaxFrac ∧
    (NewCoin 0 (-1) "IOV").Validate = none ∧
    (NewCoin 0 (-1) "IOV").Multiply 2000000000 = (NewCoin 0 (-2000000000) "IOV", none) ∧
    ¬ MinFrac ≤ ((NewCoin 0 (-1) "IOV").Multiply 2000000000).1.Fractional := by
  decide

/-! ## Divide -/

/-- C5: `Divide` folds the whole-part leftover into the fractional part with
an unchecked 64-bit multiplication.  For the valid coin `(10^10, 0, "IOV")`
and `pieces = 10^10 + 1` the leftover `10^10` times `FracUnit` wraps, and the
returned piece and rest do not reconstruct the coin. -/
theorem divide_leftover_wraps :
    (NewCoin 10000000000 0 "IOV").Validate = none ∧
    (NewCoin 10000000000 0 "IOV").Divide 10000000001
      = (NewCoin 0 (-844674407) "IOV", NewCoin 0 (-2864877209) "IOV", none) ∧
    10000000001 * (((NewCoin 10000000000 0 "IOV").Divide 10000000001).1.Whole * FracUnit
        + ((NewCoin 10000000000 0 "IOV").Divide 10000000001).1.Fractional)
      + (((NewCoin 10000000000 0 "IOV").Divide 10000000001).2.1.Whole * FracUnit
        + ((NewCoin 10000000000 0 "IOV").Divide 10000000001).2.1.Fractional)
      ≠ 10000000000 * FracUnit + 0 := by
  decide

/-- C6: `Divide` fails exactly for `pieces <= 0`: then it returns the
`ErrHuman` error and twice the zero coin of the receiver's ticker; for
`pieces > 0` it returns no error. -/
theorem divide_error_iff_nonpositive (c : Coin) (pieces : Int) :
    (pieces ≤ 0 →
      (c.Divide pieces).2.2 = some ErrHuman ∧
      (c.Divide pieces).1 = { Whole := 0, Fractional := 0, Ticker := c.Ticker } ∧
      (c.Divide pieces).2.1 = { Whole := 0, Fractional := 0, Ticker := c.Ticker }) ∧
    (0 < pieces → (c.Divide pieces).2.2 = none) := by
  constructor
  · intro h
    simp [Coin.Divide, h]
  · intro h
    have h' : ¬ pieces ≤ 0 := not_le.mpr h
    simp [Coin.Divide, h']

/-- Witness for C6: 4 EUR split into 0 pieces and
into 3 pieces. -/
theorem divide_error_iff_nonpositive_witness :
    ((0 : Int) ≤ 0 ∧
      ((NewCoin 4 0 "EUR").Divide 0).2.2 = some ErrHuman ∧
      ((NewCoin 4 0 "EUR").Divide 0).1 = { Whole := 0, Fractional := 0, Ticker := "EUR" } ∧
      ((NewCoin 4 0 "EUR").Divide 0).2.1
        = { Whole := 0, Fractional := 0, Ticker := "EUR" }) ∧
    ((0 : Int) < 3 ∧ ((NewCoin 4 0 "EUR").Divide 3).2.2 = none) :=
  ⟨⟨by decide, (divide_error_iff_nonpositive (NewCoin 4 0 "EUR") 0).1 (by decide)⟩,
    ⟨by decide, (divide_error_iff_nonpositive (NewCoin 4 0 "EUR") 3).2 (by decide)⟩⟩

/-- C7: for `pieces > 0` the rest returned by `Divide` has a zero whole part,
the receiver's ticker and a fractional part of magnitude below `pieces`. -/
theorem divide_rest_is_fractional_leftover (c : Coin) (pieces : Int) (h : 0 < pieces) :
    (c.Divide pieces).2.1.Whole = 0 ∧
    (c.Divide pieces).2.1.Ticker = c.Ticker ∧
    |(c.Divide pieces).2.1.Fractional| < pieces := by
  have h' : ¬ pieces ≤ 0 := not_le.mpr h
  simp only [Coin.Divide, h', if_false, true_and]
  rw [abs_lt]
  exact tmod_bounds_of_pos _ h

/-- Witness for C7: 4 EUR split into 3
pieces. -/
theorem divide_rest_is_fractional_leftover_witness :
    (0 : Int) < 3 ∧
    ((NewCoin 4 0 "EUR").Divide 3).2.1.Whole = 0 ∧
    ((NewCoin 4 0 "EUR").Divide 3).2.1.Ticker = (NewCoin 4 0 "EUR").Ticker ∧
    |((NewCoin 4 0 "EUR").Divide 3).2.1.Fractional| < 3 :=
  ⟨by decide, divide_rest_is_fractional_leftover (NewCoin 4 0 "EUR") 3 (by decide)⟩

/-! ## Add -/

/-- C8: the zero coin with an empty ticker is a two-sided identity of `Add`,
for every coin `x`, valid or not. -/
theorem add_empty_zero_identity (x : Coin) :
    Coin.Add { Whole := 0, Fractional := 0, Ticker := "" } x = (x, none) ∧
    Coin.Add x { Whole := 0, Fractional := 0, Ticker := "" } = (x, none) := by
  constructor
  · simp [Coin.Add, Coin.IsZero]
  · unfold Coin.Add Coin.IsZero
    by_cases hx : (x.Ticker == "" && (x.Whole == 0 && x.Fractional == 0)) = true
    · rw [if_pos hx]
      simp only [Bool.and_eq_true, beq_iff_eq] at hx
      obtain ⟨ht, hw, hf⟩ := hx
      cases x
      simp_all
    · rw [if_neg hx]
      simp

end coin

namespace Coin

open coin coin.ErrKind

/-- `Add` does not depend on the order of its operands, in the coin returned
and in the kind of error. -/
theorem Add_swap (a b : Coin) : a.Add b = b.Add a := by
  unfold Add SameType IsZero
  by_cases ha : (a.Ticker == "" && (a.Whole == 0 && a.Fractional == 0)) = true
  · by_cases hb : (b.Ticker == "" && (b.Whole == 0 && b.Fractional == 0)) = true
    · rw [if_pos ha, if_pos hb]
      simp only [Bool.and_eq_true, beq_iff_eq] at ha hb
      obtain ⟨hta, hwa, hfa⟩ := ha
      obtain ⟨htb, hwb, hfb⟩ := hb
      cases a
      cases b
      simp_all
    · rw [if_pos ha, if_neg hb, if_pos ha]
  · by_cases hb : (b.Ticker == "" && (b.Whole == 0 && b.Fractional == 0)) = true
    · rw [if_neg ha, if_pos hb, if_pos hb]
    · rw [if_neg ha, if_neg hb, if_neg hb, if_neg ha]
      by_cases ht : a.Ticker = b.Ticker
      · have ht' : b.Ticker = a.Ticker := ht.symm
        simp only [ht, beq_self_eq_true, Bool.not_true, Bool.false_eq_true, if_false]
        rw [Int.add_comm b.Whole a.Whole, Int.add_comm b.Fractional a.Fractional]
      · have ht' : ¬ b.Ticker = a.Ticker := fun h => ht h.symm
        simp [ht, ht']

end Coin

namespace coin

open ErrKind

/-- C9: `Add` is commutative: `a.Add(b)` and `b.Add(a)` either both fail with
the same kind of error or both succeed with equal coins. -/
theorem add_commutative (a b : Coin) :
    (∃ e, (a.Add b).2 = some e ∧ (b.Add a).2 = some e) ∨
    ((a.Add b).2 = none ∧ (b.Add a).2 = none ∧ (a.Add b).1 = (b.Add a).1) := by
  rw [Coin.Add_swap b a]
  cases h : (a.Add b).2 with
  | none => exact Or.inr ⟨rfl, rfl, rfl⟩
  | some e => exact Or.inl ⟨e, rfl, rfl⟩

/-- C10: for coins with different tickers, neither of them the zero coin with
an empty ticker, `Add` fails with the invalid-currency error and returns the
empty coin. -/
theorem add_ticker_mismatch (a b : Coin) (ht : a.Ticker ≠ b.Ticker)
    (ha : ¬ (a.Ticker = "" ∧ a.Whole = 0 ∧ a.Fractional = 0))
    (hb : ¬ (b.Ticker = "" ∧ b.Whole = 0 ∧ b.Fractional = 0)) :
    a.Add b = (emptyCoin, some ErrInvalidCurrency) := by
  unfold Coin.Add Coin.SameType Coin.IsZero
  have ha' : ¬ (a.Ticker == "" && (a.Whole == 0 && a.Fractional == 0)) = true := by
    simpa only [Bool.and_eq_true, beq_iff_eq] using ha
  have hb' : ¬ (b.Ticker == "" && (b.Whole == 0 && b.Fractional == 0)) = true := by
    simpa only [Bool.and_eq_true, beq_iff_eq] using hb
  rw [if_neg ha', if_neg hb']
  simp [ht]

/-- Witness for C10: 1 BTC plus 1 ETH. -/
theorem add_ticker_mismatch_witness :
    (NewCoin 1 0 "BTC").Ticker ≠ (NewCoin 1 0 "ETH").Ticker ∧
    ¬ ((NewCoin 1 0 "BTC").Ticker = "" ∧ (NewCoin 1 0 "BTC").Whole = 0 ∧
        (NewCoin 1 0 "BTC").Fractional = 0) ∧
    ¬ ((NewCoin 1 0 "ETH").Ticker = "" ∧ (NewCoin 1 0 "ETH").Whole = 0 ∧
        (NewCoin 1 0 "ETH").Fractional = 0) ∧
    (NewCoin 1 0 "BTC").Add (NewCoin 1 0 "ETH") = (emptyCoin, some ErrInvalidCurrency) :=
  ⟨by decide, by decide, by decide,
    add_ticker_mismatch (NewCoin 1 0 "BTC") (NewCoin 1 0 "ETH")
      (by decide) (by decide) (by decide)⟩

end coin

/-! ## How far `Divide` and `Multiply` are exact

The two results below bound the defects shown above: `Divide` reconstructs the
coin whenever the folded leftover fits in 64 bits, and `Multiply` returns the
exact product whenever it reports no error and the factor is not `MinInt64`. -/

namespace coin

/-- Truncated division of an `int64` value by a positive number stays in the
`int64` range. -/
theorem tdiv_inInt64_of_pos {a : Int} (ha : inInt64 a) {b : Int} (hb : 0 < b) :
    inInt64 (Int.tdiv a b) := by
  unfold inInt64 at *
  rcases le_or_lt 0 a with h | h
  · rw [Int.tdiv_eq_ediv h (le_of_lt hb)]
    have h1 : 0 ≤ a / b := Int.ediv_nonneg h (le_of_lt hb)
    have h2 : a / b ≤ a := Int.ediv_le_self b h
    omega
  · have hq : Int.tdiv a b = -((-a) / b) := by
      rw [← Int.tdiv_eq_ediv (by omega) (le_of_lt hb), Int.neg_tdiv, neg_neg]
    have h1 : 0 ≤ (-a) / b := Int.ediv_nonneg (by omega) (le_of_lt hb)
    have h2 : (-a) / b ≤ -a := Int.ediv_le_self b (by omega)
    omega

end coin

namespace Coin

open coin coin.ErrKind

/-- When the leftover of the whole part, scaled by `FracUnit` and added to the
fractional part, stays within `int64`, the piece and the rest returned by
`Divide` reconstruct the coin exactly. -/
theorem Divide_reconstructs_of_no_wrap (c : Coin) (pieces : Int) (hp : 0 < pieces)
    (hW : inInt64 c.Whole)
    (h1 : inInt64 (Int.tmod c.Whole pieces * FracUnit))
    (h2 : inInt64 (c.Fractional + Int.tmod c.Whole pieces * FracUnit)) :
    pieces * ((c.Divide pieces).1.Whole * FracUnit + (c.Divide pieces).1.Fractional)
      + ((c.Divide pieces).2.1.Whole * FracUnit + (c.Divide pieces).2.1.Fractional)
      = c.Whole * FracUnit + c.Fractional := by
  have hp' : ¬ pieces ≤ 0 := not_le.mpr hp
  have hfr : (if goMod c.Whole pieces ≠ 0 then
        wrap64 (c.Fractional + wrap64 (goMod c.Whole pieces * FracUnit))
      else c.Fractional) = c.Fractional + Int.tmod c.Whole pieces * FracUnit := by
    unfold goMod
    split_ifs with h0
    · rw [wrap64_of_inInt64 h1, wrap64_of_inInt64 h2]
    · rw [not_not] at h0
      rw [h0]
      ring
  simp only [Divide, hp', if_false, hfr]
  unfold goDiv goMod
  rw [wrap64_of_inInt64 (tdiv_inInt64_of_pos hW hp),
    wrap64_of_inInt64 (tdiv_inInt64_of_pos h2 hp)]
  have e1 := Int.tdiv_add_tmod c.Whole pieces
  have e2 := Int.tdiv_add_tmod (c.Fractional + Int.tmod c.Whole pieces * FracUnit) pieces
  linear_combination FracUnit * e1 + e2

end Coin

namespace coin

open ErrKind

/-- The remainder of truncated division by a number is smaller in magnitude
than the divisor, whatever the sign of the divisor. -/
theorem tmod_bounds_of_sign (a b : Int) :
    (0 < b → -b < Int.tmod a b ∧ Int.tmod a b < b) ∧
    (b < 0 → b < Int.tmod a b ∧ Int.tmod a b < -b) := by
  constructor
  · intro h
    exact tmod_bounds_of_pos a h
  · intro h
    have := tmod_bounds_of_pos a (show 0 < -b by omega)
    rw [Int.tmod_neg] at this
    omega

/-- Truncated division of an `int64` value by a non-zero `int64` value leaves
the `int64` range only for `MinInt64 / -1`. -/
theorem tdiv_inInt64_or_corner {c a : Int} (hc : inInt64 c) (ha : a ≠ 0) :
    inInt64 (Int.tdiv c a) ∨ (c = -9223372036854775808 ∧ a = -1) := by
  rcases lt_or_gt_of_ne ha with hneg | hpos
  · have hq := tdiv_inInt64_of_pos hc (show 0 < -a by omega)
    rw [Int.tdiv_neg] at hq
    have hr := tmod_bounds_of_pos c (show 0 < -a by omega)
    have he := Int.tdiv_add_tmod c (-a)
    rw [Int.tdiv_neg] at he
    rw [Int.tmod_neg] at hr he
    unfold inInt64 at *
    by_cases hq' : Int.tdiv c a = 9223372036854775808
    · right
      rw [hq'] at he
      have hmul : -a * -(9223372036854775808 : Int) = a * 9223372036854775808 := by ring
      rw [hmul] at he
      omega
    · left
      omega
  · exact Or.inl (tdiv_inInt64_of_pos hc hpos)

/-- Apart from `-1 * MinInt64`, a `mul64` that reports no error returns the
exact product of its `int64` operands. -/
theorem mul64_exact_of_no_error (a b : Int) (ha : inInt64 a)
    (hcorner : ¬ (a = -1 ∧ b = -9223372036854775808))
    (h : (mul64 a b).2 = none) : (mul64 a b).1 = a * b := by
  unfold mul64 at *
  by_cases h0 : a = 0 ∨ b = 0
  · rw [if_pos h0]
    rcases h0 with h0 | h0 <;> simp [h0]
  · rw [if_neg h0] at h ⊢
    have ha0 : a ≠ 0 := fun e => h0 (Or.inl e)
    simp only at h ⊢
    by_cases hd : goDiv (wrap64 (a * b)) a ≠ b
    · rw [if_pos hd] at h
      simp at h
    · rw [if_neg hd]
      simp only
      rw [not_not] at hd
      have hc := wrap64_inInt64 (a * b)
      have hk : wrap64 (a * b) = a * b -
          18446744073709551616 * ((a * b + 9223372036854775808) / 18446744073709551616) := by
        unfold wrap64
        have := Int.emod_add_ediv (a * b + 9223372036854775808) 18446744073709551616
        omega
      have he := Int.tdiv_add_tmod (wrap64 (a * b)) a
      have hr := tmod_bounds_of_sign (wrap64 (a * b)) a
      unfold goDiv at hd
      rcases tdiv_inInt64_or_corner hc ha0 with hq | ⟨hc1, ha1⟩
      · rw [wrap64_of_inInt64 hq] at hd
        rw [hd] at he
        unfold inInt64 at *
        omega
      · exfalso
        apply hcorner
        refine ⟨ha1, ?_⟩
        rw [hc1, ha1] at hd
        rw [← hd]
        decide

end coin

namespace coin

/-- The number returned by `mul64` is always an `int64` value. -/
theorem mul64_fst_inInt64 (a b : Int) : inInt64 (mul64 a b).1 := by
  unfold mul64
  by_cases h0 : a = 0 ∨ b = 0
  · rw [if_pos h0]
    decide
  · rw [if_neg h0]
    simp only
    split_ifs <;> exact wrap64_inInt64 _

end coin

namespace Coin

open coin coin.ErrKind

/-- For a factor other than `MinInt64`, a `Multiply` that reports no error
returns a coin of the same ticker whose exact value is the exact product. -/
theorem Multiply_exact_of_no_error (c : Coin) (n : Int)
    (hW : inInt64 c.Whole) (hF : inInt64 c.Fractional)
    (hn : n ≠ -9223372036854775808) (h : (c.Multiply n).2 = none) :
    (c.Multiply n).1.Ticker = c.Ticker ∧
    (c.Multiply n).1.Whole * FracUnit + (c.Multiply n).1.Fractional
      = n * (c.Whole * FracUnit + c.Fractional) := by
  unfold Multiply at h ⊢
  by_cases hz : n = 0 ∨ (c.Whole = 0 ∧ c.Fractional = 0)
  · rw [if_pos hz]
    rcases hz with hz | ⟨hz1, hz2⟩
    · simp [hz]
    · simp [hz1, hz2]
  · rw [if_neg hz] at h ⊢
    have e1 := mul64_exact_of_no_error c.Whole n hW (fun hc => hn hc.2)
    have e2 := mul64_exact_of_no_error c.Fractional n hF (fun hc => hn hc.2)
    have i1 : inInt64 (mul64 c.Whole n).1 := mul64_fst_inInt64 _ _
    have i2 : inInt64 (mul64 c.Fractional n).1 := mul64_fst_inInt64 _ _
    rcases hm1 : mul64 c.Whole n with ⟨w, _ | err1⟩
    · rw [hm1] at e1 i1 h
      rcases hm2 : mul64 c.Fractional n with ⟨f, _ | err2⟩
      · rw [hm2] at e2 i2 h
        simp only at e1 e2 i1 i2 h ⊢
        have e1' := e1 trivial
        have e2' := e2 trivial
        by_cases hcarry : f > FracUnit
        · rw [if_pos hcarry] at h ⊢
          have hq := tdiv_inInt64_of_pos i2 (show (0 : Int) < FracUnit by decide)
          have hd : goDiv f FracUnit = Int.tdiv f FracUnit := wrap64_of_inInt64 hq
          have hqpos : 0 < Int.tdiv f FracUnit := by
            have := Int.lt_tdiv_add_one_mul_self f (show (0 : Int) < FracUnit by decide)
            unfold FracUnit at *
            omega
          have hdm := Int.tdiv_add_tmod f FracUnit
          rw [hd] at h ⊢
          by_cases hlt : wrap64 (w + Int.tdiv f FracUnit) < w
          · rw [if_pos hlt] at h
            simp at h
          · rw [if_neg hlt]
            have hsum : wrap64 (w + Int.tdiv f FracUnit) = w + Int.tdiv f FracUnit := by
              unfold inInt64 at i1 hq
              unfold wrap64 at hlt ⊢
              omega
            simp only [hsum, goMod, true_and]
            rw [e1', e2'] at *
            linear_combination hdm
        · rw [if_neg hcarry]
          simp only [true_and]
          rw [e1', e2']
          ring
      · rw [hm2] at h
        simp at h
    · rw [hm1] at h
      simp at h

end Coin

/-! ## `normalize` on arbitrary `int64` coins -/

namespace coin

/-- Wrapping is compatible with addition: an inner wrap can be dropped. -/
theorem wrap64_add_wrap64 (x y : Int) : wrap64 (wrap64 x + y) = wrap64 (x + y) := by
  unfold wrap64
  omega

/-- The remainder of truncated division has the sign of the dividend. -/
theorem tmod_sign (a b : Int) :
    (0 ≤ a → 0 ≤ Int.tmod a b) ∧ (a ≤ 0 → Int.tmod a b ≤ 0) := by
  constructor
  · intro ha
    exact Int.tmod_nonneg b ha
  · intro ha
    have hneg : Int.tmod a b = -Int.tmod (-a) b := by
      rw [Int.tmod_def, Int.tmod_def, Int.neg_tdiv]
      ring
    have := Int.tmod_nonneg b (show 0 ≤ -a by omega)
    omega

end coin

namespace Coin

open coin coin.ErrKind

/-- The first loop of `normalize` on an `int64` coin, in closed form: it runs
some number `k` of iterations, each moving one unit from the whole part (with
wraparound) to the fractional part, and stops with the fractional part in
`[MinFrac, 0]` when it ran at all. -/
theorem raiseFrac_spec (n : Nat) : ∀ c : Coin, isInt64Coin c →
    (MinFrac - c.Fractional).toNat ≤ n →
    ∃ k : Int, 0 ≤ k ∧
      (raiseFrac n c).Ticker = c.Ticker ∧
      (raiseFrac n c).Whole = wrap64 (c.Whole - k) ∧
      (raiseFrac n c).Fractional = c.Fractional + k * FracUnit ∧
      (c.Fractional < MinFrac →
        1 ≤ k ∧ MinFrac ≤ c.Fractional + k * FracUnit ∧ c.Fractional + k * FracUnit ≤ 0) ∧
      (¬ c.Fractional < MinFrac → k = 0) := by
  induction n with
  | zero =>
    intro c hc h
    have hge : ¬ c.Fractional < MinFrac := by omega
    refine ⟨0, le_refl 0, rfl, ?_, ?_, fun hlt => absurd hlt hge, fun _ => rfl⟩
    · simp only [raiseFrac, sub_zero]
      exact (wrap64_of_inInt64 hc.1).symm
    · simp only [raiseFrac]
      omega
  | succ m ih =>
    intro c hc h
    by_cases hlt : c.Fractional < MinFrac
    · rw [raiseFrac_succ_of_lt m c hlt]
      have hf : wrap64 (c.Fractional + FracUnit) = c.Fractional + FracUnit := by
        have := hc.2
        unfold inInt64 at this
        apply wrap64_eq_of_bounds <;> (unfold MinFrac MaxFrac FracUnit at *; omega)
      have hc' : isInt64Coin { c with Whole := wrap64 (c.Whole - 1),
                                      Fractional := wrap64 (c.Fractional + FracUnit) } :=
        ⟨wrap64_inInt64 _, wrap64_inInt64 _⟩
      obtain ⟨k, hk0, ht, hw, hfr, hlo, hzero⟩ := ih _ hc' (by
        simp only [hf]
        unfold MinFrac MaxFrac FracUnit at *
        omega)
      simp only [hf] at ht hw hfr hlo hzero ⊢
      refine ⟨k + 1, by omega, ht, ?_, ?_, ?_, fun h' => absurd hlt h'⟩
      · rw [hw]
        unfold wrap64
        omega
      · rw [hfr]
        ring
      · intro _
        by_cases h2 : c.Fractional + FracUnit < MinFrac
        · obtain ⟨h1k, hlow, hhigh⟩ := hlo h2
          refine ⟨by omega, ?_, ?_⟩
          · rw [show c.Fractional + (k + 1) * FracUnit
                = c.Fractional + FracUnit + k * FracUnit by ring]
            exact hlow
          · rw [show c.Fractional + (k + 1) * FracUnit
                = c.Fractional + FracUnit + k * FracUnit by ring]
            exact hhigh
        · have hk : k = 0 := hzero h2
          subst hk
          unfold MinFrac MaxFrac FracUnit at *
          omega
    · rw [raiseFrac_of_not_lt _ c hlt]
      exact ⟨0, le_refl 0, rfl, by rw [sub_zero]; exact (wrap64_of_inInt64 hc.1).symm,
        by omega, fun h' => absurd h' hlt, fun _ => rfl⟩

end Coin

namespace Coin

open coin coin.ErrKind

/-- The second loop of `normalize` on an `int64` coin, in closed form: it runs
some number `k` of iterations, each moving one unit from the fractional part
to the whole part (with wraparound), and stops with the fractional part in
`[0, MaxFrac]` when it ran at all. -/
theorem lowerFrac_spec (n : Nat) : ∀ c : Coin, isInt64Coin c →
    (c.Fractional - MaxFrac).toNat ≤ n →
    ∃ k : Int, 0 ≤ k ∧
      (lowerFrac n c).Ticker = c.Ticker ∧
      (lowerFrac n c).Whole = wrap64 (c.Whole + k) ∧
      (lowerFrac n c).Fractional = c.Fractional - k * FracUnit ∧
      (c.Fractional > MaxFrac →
        1 ≤ k ∧ 0 ≤ c.Fractional - k * FracUnit ∧ c.Fractional - k * FracUnit ≤ MaxFrac) ∧
      (¬ c.Fractional > MaxFrac → k = 0) := by
  induction n with
  | zero =>
    intro c hc h
    have hle : ¬ c.Fractional > MaxFrac := by omega
    refine ⟨0, le_refl 0, rfl, ?_, ?_, fun hgt => absurd hgt hle, fun _ => rfl⟩
    · simp only [lowerFrac, add_zero]
      exact (wrap64_of_inInt64 hc.1).symm
    · simp only [lowerFrac]
      omega
  | succ m ih =>
    intro c hc h
    by_cases hgt : c.Fractional > MaxFrac
    · rw [lowerFrac_succ_of_gt m c hgt]
      have hf : wrap64 (c.Fractional - FracUnit) = c.Fractional - FracUnit := by
        have := hc.2
        unfold inInt64 at this
        apply wrap64_eq_of_bounds <;> (unfold MaxFrac FracUnit at *; omega)
      have hc' : isInt64Coin { c with Whole := wrap64 (c.Whole + 1),
                                      Fractional := wrap64 (c.Fractional - FracUnit) } :=
        ⟨wrap64_inInt64 _, wrap64_inInt64 _⟩
      obtain ⟨k, hk0, ht, hw, hfr, hhi, hzero⟩ := ih _ hc' (by
        simp only [hf]
        unfold MaxFrac FracUnit at *
        omega)
      simp only [hf] at ht hw hfr hhi hzero ⊢
      refine ⟨k + 1, by omega, ht, ?_, ?_, ?_, fun h' => absurd hgt h'⟩
      · rw [hw]
        unfold wrap64
        omega
      · rw [hfr]
        ring
      · intro _
        by_cases h2 : c.Fractional - FracUnit > MaxFrac
        · obtain ⟨h1k, hlow, hhigh⟩ := hhi h2
          refine ⟨by omega, ?_, ?_⟩
          · rw [show c.Fractional - (k + 1) * FracUnit
                = c.Fractional - FracUnit - k * FracUnit by ring]
            exact hlow
          · rw [show c.Fractional - (k + 1) * FracUnit
                = c.Fractional - FracUnit - k * FracUnit by ring]
            exact hhigh
        · have hk : k = 0 := hzero h2
          subst hk
          unfold MaxFrac FracUnit at *
          omega
    · rw [lowerFrac_of_not_gt _ c hgt]
      exact ⟨0, le_refl 0, rfl, by rw [add_zero]; exact (wrap64_of_inInt64 hc.1).symm,
        by omega, fun h' => absurd h' hgt, fun _ => rfl⟩

end Coin

namespace Coin

open coin coin.ErrKind

/-- The two loops of `normalize` on an `int64` coin together: they move a net
number `d` of units between the parts, with wraparound on the whole part, and
leave the fractional part in `[MinFrac, MaxFrac]`. -/
theorem loops_spec (c : Coin) (hc : isInt64Coin c) :
    ∃ d : Int, -9223372037 ≤ d ∧ d ≤ 9223372037 ∧
      (lowerFrac ((raiseFrac (MinFrac - c.Fractional).toNat c).Fractional - MaxFrac).toNat
        (raiseFrac (MinFrac - c.Fractional).toNat c)).Ticker = c.Ticker ∧
      (lowerFrac ((raiseFrac (MinFrac - c.Fractional).toNat c).Fractional - MaxFrac).toNat
        (raiseFrac (MinFrac - c.Fractional).toNat c)).Whole = wrap64 (c.Whole + d) ∧
      (lowerFrac ((raiseFrac (MinFrac - c.Fractional).toNat c).Fractional - MaxFrac).toNat
        (raiseFrac (MinFrac - c.Fractional).toNat c)).Fractional
          = c.Fractional - d * FracUnit ∧
      MinFrac ≤ c.Fractional - d * FracUnit ∧ c.Fractional - d * FracUnit ≤ MaxFrac := by
  obtain ⟨k1, hk1, ht1, hw1, hf1, hlo1, hz1⟩ :=
    raiseFrac_spec (MinFrac - c.Fractional).toNat c hc (le_refl _)
  have hF := hc.2
  unfold inInt64 at hF
  have hc1 : isInt64Coin (raiseFrac (MinFrac - c.Fractional).toNat c) := by
    refine ⟨?_, ?_⟩
    · rw [hw1]
      exact wrap64_inInt64 _
    · rw [hf1]
      unfold inInt64
      by_cases hlt : c.Fractional < MinFrac
      · have := hlo1 hlt
        unfold MinFrac MaxFrac FracUnit at *
        omega
      · have := hz1 hlt
        subst this
        omega
  obtain ⟨k2, hk2, ht2, hw2, hf2, hhi2, hz2⟩ :=
    lowerFrac_spec _ (raiseFrac (MinFrac - c.Fractional).toNat c) hc1 (le_refl _)
  rw [hf1] at hhi2 hz2
  refine ⟨k2 - k1, ?_, ?_, ?_, ?_, ?_, ?_, ?_⟩
  · by_cases hlt : c.Fractional < MinFrac
    · have := hlo1 hlt
      have := hz2 (by unfold MinFrac MaxFrac FracUnit at *; omega)
      unfold MinFrac MaxFrac FracUnit at *
      omega
    · have := hz1 hlt
      omega
  · by_cases hgt : c.Fractional + k1 * FracUnit > MaxFrac
    · have := hhi2 hgt
      by_cases hlt : c.Fractional < MinFrac
      · have := hlo1 hlt
        unfold MinFrac MaxFrac FracUnit at *
        omega
      · have := hz1 hlt
        unfold MinFrac MaxFrac FracUnit at *
        omega
    · have := hz2 hgt
      omega
  · rw [ht2, ht1]
  · rw [hw2, hw1]
    unfold wrap64
    omega
  · rw [hf2, hf1]
    ring
  · by_cases hlt : c.Fractional < MinFrac
    · have := hlo1 hlt
      have := hz2 (by unfold MinFrac MaxFrac FracUnit at *; omega)
      unfold MinFrac MaxFrac FracUnit at *
      omega
    · have := hz1 hlt
      by_cases hgt : c.Fractional + k1 * FracUnit > MaxFrac
      · have := hhi2 hgt
        unfold MinFrac MaxFrac FracUnit at *
        omega
      · have := hz2 hgt
        unfold MinFrac MaxFrac FracUnit at *
        omega
  · by_cases hlt : c.Fractional < MinFrac
    · have := hlo1 hlt
      have := hz2 (by unfold MinFrac MaxFrac FracUnit at *; omega)
      unfold MinFrac MaxFrac FracUnit at *
      omega
    · have := hz1 hlt
      by_cases hgt : c.Fractional + k1 * FracUnit > MaxFrac
      · have := hhi2 hgt
        unfold MinFrac MaxFrac FracUnit at *
        omega
      · have := hz2 hgt
        unfold MinFrac MaxFrac FracUnit at *
        omega

end Coin

namespace Coin

open coin coin.ErrKind

/-- A coin is determined by its three fields. -/
theorem eq_mk_of_fields (x : Coin) {w f : Int} {t : String} (hw : x.Whole = w)
    (hf : x.Fractional = f) (ht : x.Ticker = t) :
    x = { Whole := w, Fractional := f, Ticker := t } := by
  cases x
  simp only at hw hf ht
  subst hw hf ht
  rfl

/-- The function computed by `normalize` on `int64` coins: the exact value
`v = Whole * 10^9 + Fractional` is split by truncated division into
`v / 10^9` whole units and `v % 10^9` fractional units, and the result is
rejected when the whole units leave `[MinInt, MaxInt]`. -/
theorem normalize_int64 (c : Coin) (hc : isInt64Coin c) :
    normalize c =
      if MinInt ≤ Int.tdiv (exactValue c) FracUnit ∧
          Int.tdiv (exactValue c) FracUnit ≤ MaxInt then
        ({ Whole := Int.tdiv (exactValue c) FracUnit,
           Fractional := Int.tmod (exactValue c) FracUnit,
           Ticker := c.Ticker }, none)
      else (emptyCoin, some ErrInvalidCoin) := by
  obtain ⟨d, hd1, hd2, ht, hw, hf, hlo, hhi⟩ := loops_spec c hc
  have hqr := Int.tdiv_add_tmod (exactValue c) FracUnit
  have hrb := tmod_bounds_of_pos (exactValue c) (show (0 : Int) < FracUnit by decide)
  have hrs := tmod_sign (exactValue c) FracUnit
  have hW := hc.1
  have hF := hc.2
  unfold normalize
  simp only
  generalize lowerFrac ((raiseFrac (MinFrac - c.Fractional).toNat c).Fractional - MaxFrac).toNat
    (raiseFrac (MinFrac - c.Fractional).toNat c) = c2 at ht hw hf
  obtain ⟨W2, F2, T2⟩ := c2
  simp only at ht hw hf
  subst ht
  generalize Int.tdiv (exactValue c) FracUnit = q at *
  generalize Int.tmod (exactValue c) FracUnit = r at *
  have hv : exactValue c = c.Whole * 1000000000 + c.Fractional := rfl
  generalize exactValue c = v at *
  unfold inInt64 at hW hF
  have hin : inInt64 W2 := by
    rw [hw]
    exact wrap64_inInt64 _
  unfold inInt64 at hin
  have hw1 : W2 > 0 → wrap64 (W2 - 1) = W2 - 1 := fun _ => by
    apply wrap64_eq_of_bounds <;> omega
  have hw2 : W2 < 0 → wrap64 (W2 + 1) = W2 + 1 := fun _ => by
    apply wrap64_eq_of_bounds <;> omega
  have hf1 : wrap64 (F2 + FracUnit) = F2 + FracUnit := by
    apply wrap64_eq_of_bounds <;> (unfold MinFrac MaxFrac FracUnit at *; omega)
  have hf2 : wrap64 (F2 - FracUnit) = F2 - FracUnit := by
    apply wrap64_eq_of_bounds <;> (unfold MinFrac MaxFrac FracUnit at *; omega)
  unfold fixSigns
  simp only
  rw [hf1, hf2]
  clear hf1 hf2
  unfold MinInt MaxInt MinFrac MaxFrac FracUnit at *
  have hkey : (v = W2 * 1000000000 + F2) ∨
      (W2 > 1000000000000000 ∧ q < -999999999999999) ∨
      (W2 < -1000000000000000 ∧ q > 999999999999999) := by
    have hwrap : W2 = c.Whole + d ∨ W2 = c.Whole + d + 18446744073709551616
        ∨ W2 = c.Whole + d - 18446744073709551616 := by
      rw [hw]
      unfold wrap64
      omega
    clear hw hw1 hw2 hrs
    rcases hwrap with h | h | h
    · left; omega
    · right; left; omega
    · right; right; omega
  clear hw hd1 hd2 hW hF hin
  rw [← hf] at hlo hhi
  clear hf hv
  by_cases h1 : W2 > 0 ∧ F2 < 0
  · rw [if_pos h1, hw1 h1.1]
    clear hw1 hw2
    simp only
    by_cases h2 : W2 - 1 < -999999999999999 ∨ W2 - 1 > 999999999999999
    · rw [if_pos h2, if_neg (by omega)]
    · rw [if_neg h2, if_pos (by omega)]
      have e1 : W2 - 1 = q := by omega
      have e2 : F2 + 1000000000 = r := by omega
      rw [e1, e2]
  · rw [if_neg h1]
    by_cases h4 : W2 < 0 ∧ F2 > 0
    · rw [if_pos h4, hw2 h4.1]
      clear hw1 hw2
      simp only
      by_cases h2 : W2 + 1 < -999999999999999 ∨ W2 + 1 > 999999999999999
      · rw [if_pos h2, if_neg (by omega)]
      · rw [if_neg h2, if_pos (by omega)]
        have e1 : W2 + 1 = q := by omega
        have e2 : F2 - 1000000000 = r := by omega
        rw [e1, e2]
    · rw [if_neg h4]
      clear hw1 hw2
      simp only
      by_cases h2 : W2 < -999999999999999 ∨ W2 > 999999999999999
      · rw [if_pos h2, if_neg (by omega)]
      · rw [if_neg h2, if_pos (by omega)]
        have e1 : W2 = q := by omega
        have e2 : F2 = r := by omega
        rw [e1, e2]

end Coin

namespace Coin

open coin coin.ErrKind

/-- The range and sign checks of `Validate`, without the ticker check: the
fractional part is in `[MinFrac, MaxFrac]` and the two parts do not have
opposite signs. -/
theorem normalize_of_normal (c : Coin)
    (hW : MinInt ≤ c.Whole ∧ c.Whole ≤ MaxInt)
    (hF : MinFrac ≤ c.Fractional ∧ c.Fractional ≤ MaxFrac)
    (hs : (0 < c.Whole → 0 ≤ c.Fractional) ∧ (c.Whole < 0 → c.Fractional ≤ 0)) :
    normalize c = (c, none) := by
  unfold normalize
  simp only
  rw [raiseFrac_of_not_lt _ c (by omega), lowerFrac_of_not_gt _ c (by omega)]
  have h1 : ¬ (c.Whole > 0 ∧ c.Fractional < 0) := by omega
  have h2 : ¬ (c.Whole < 0 ∧ c.Fractional > 0) := by omega
  unfold fixSigns
  rw [if_neg h1, if_neg h2, if_neg (by omega)]

/-- The coin returned by a successful `normalize` on an `int64` coin: same
ticker, same exact value, parts in range and of agreeing signs. -/
theorem normalize_ok_props (c : Coin) (hc : isInt64Coin c) (h : (normalize c).2 = none) :
    (normalize c).1.Ticker = c.Ticker ∧
    exactValue (normalize c).1 = exactValue c ∧
    (MinInt ≤ (normalize c).1.Whole ∧ (normalize c).1.Whole ≤ MaxInt) ∧
    (MinFrac ≤ (normalize c).1.Fractional ∧ (normalize c).1.Fractional ≤ MaxFrac) ∧
    ((0 < (normalize c).1.Whole → 0 ≤ (normalize c).1.Fractional) ∧
      ((normalize c).1.Whole < 0 → (normalize c).1.Fractional ≤ 0)) := by
  rw [normalize_int64 c hc] at h ⊢
  have hqr := Int.tdiv_add_tmod (exactValue c) FracUnit
  have hrb := tmod_bounds_of_pos (exactValue c) (show (0 : Int) < FracUnit by decide)
  have hrs := tmod_sign (exactValue c) FracUnit
  by_cases hq : MinInt ≤ Int.tdiv (exactValue c) FracUnit ∧
      Int.tdiv (exactValue c) FracUnit ≤ MaxInt
  · rw [if_pos hq]
    simp only
    refine ⟨trivial, ?_, hq, ?_, ?_⟩
    · show Int.tdiv (exactValue c) FracUnit * FracUnit + Int.tmod (exactValue c) FracUnit
        = exactValue c
      rw [Int.mul_comm]
      exact hqr
    · unfold MinFrac MaxFrac FracUnit at *
      omega
    · generalize Int.tdiv (exactValue c) FracUnit = q at *
      generalize Int.tmod (exactValue c) FracUnit = r at *
      generalize exactValue c = v at *
      unfold FracUnit at *
      omega
  · rw [if_neg hq] at h
    simp at h

end Coin

namespace coin

open ErrKind

/-- C11: for every coin `c`, `c.Add(c.Negative())` succeeds and its result is
zero (`Whole = 0` and `Fractional = 0`); equivalently `c.Subtract(c)` succeeds
with a zero amount. -/
theorem add_negative_is_zero (c : Coin) (hc : isInt64Coin c) :
    (c.Add c.Negative).2 = none ∧
    (c.Add c.Negative).1.IsZero = true ∧
    (c.Add c.Negative).1.Whole = 0 ∧ (c.Add c.Negative).1.Fractional = 0 ∧
    (c.Subtract c).2 = none ∧ (c.Subtract c).1.IsZero = true := by
  have hW := hc.1
  have hF := hc.2
  unfold inInt64 at hW hF
  have key : (c.Add c.Negative).2 = none ∧
      (c.Add c.Negative).1.Whole = 0 ∧ (c.Add c.Negative).1.Fractional = 0 := by
    unfold Coin.Add Coin.SameType Coin.IsZero Coin.Negative
    simp only
    by_cases h1 : (c.Ticker == "" && (c.Whole == 0 && c.Fractional == 0)) = true
    · rw [if_pos h1]
      simp only [Bool.and_eq_true, beq_iff_eq] at h1
      obtain ⟨-, hw0, hf0⟩ := h1
      rw [hw0, hf0]
      refine ⟨rfl, ?_, ?_⟩ <;> (simp only; decide)
    · rw [if_neg h1]
      have h2 : ¬ (c.Ticker == "" && (wrap64 (-1 * c.Whole) == 0
          && wrap64 (-1 * c.Fractional) == 0)) = true := by
        intro h2
        apply h1
        simp only [Bool.and_eq_true, beq_iff_eq] at h2 ⊢
        obtain ⟨ht, hw0, hf0⟩ := h2
        unfold wrap64 at hw0 hf0
        refine ⟨ht, ?_, ?_⟩ <;> omega
      rw [if_neg h2]
      simp only [beq_self_eq_true, Bool.not_true, Bool.false_eq_true, if_false]
      have e1 : wrap64 (c.Whole + wrap64 (-1 * c.Whole)) = 0 := by
        unfold wrap64
        omega
      have e2 : wrap64 (c.Fractional + wrap64 (-1 * c.Fractional)) = 0 := by
        unfold wrap64
        omega
      rw [e1, e2, Coin.normalize_of_normal _ (by simp only; decide) (by simp only; decide)
        (by simp only; decide)]
      exact ⟨rfl, rfl, rfl⟩
  obtain ⟨k1, k2, k3⟩ := key
  have hz : (c.Add c.Negative).1.IsZero = true := by
    unfold Coin.IsZero
    rw [k2, k3]
    rfl
  exact ⟨k1, hz, k2, k3, k1, hz⟩

/-- Witness for C11: the coin `(MaxInt, 5, "ABC")`. -/
theorem add_negative_is_zero_witness :
    isInt64Coin (NewCoin MaxInt 5 "ABC") ∧
    ((NewCoin MaxInt 5 "ABC").Add (NewCoin MaxInt 5 "ABC").Negative).2 = none ∧
    ((NewCoin MaxInt 5 "ABC").Add (NewCoin MaxInt 5 "ABC").Negative).1.IsZero = true ∧
    ((NewCoin MaxInt 5 "ABC").Add (NewCoin MaxInt 5 "ABC").Negative).1.Whole = 0 ∧
    ((NewCoin MaxInt 5 "ABC").Add (NewCoin MaxInt 5 "ABC").Negative).1.Fractional = 0 ∧
    ((NewCoin MaxInt 5 "ABC").Subtract (NewCoin MaxInt 5 "ABC")).2 = none ∧
    ((NewCoin MaxInt 5 "ABC").Subtract (NewCoin MaxInt 5 "ABC")).1.IsZero = true :=
  ⟨by decide, add_negative_is_zero (NewCoin MaxInt 5 "ABC") (by decide)⟩

/-- C12: `normalize` is idempotent: when `normalize` succeeds on a coin with
result `n`, `normalize` applied to `n` succeeds and returns `n` again. -/
theorem normalize_idempotent (a : Coin) (ha : isInt64Coin a)
    (h : (Coin.normalize a).2 = none) :
    Coin.normalize (Coin.normalize a).1 = ((Coin.normalize a).1, none) := by
  obtain ⟨-, -, hW, hF, hs⟩ := Coin.normalize_ok_props a ha h
  exact Coin.normalize_of_normal _ hW hF hs

/-- Witness for C12: the coin `(3, -2500000000, "IOV")`, which `normalize`
turns into `(0, 500000000, "IOV")`. -/
theorem normalize_idempotent_witness :
    isInt64Coin (NewCoin 3 (-2500000000) "IOV") ∧
    (Coin.normalize (NewCoin 3 (-2500000000) "IOV")).2 = none ∧
    Coin.normalize (Coin.normalize (NewCoin 3 (-2500000000) "IOV")).1
      = ((Coin.normalize (NewCoin 3 (-2500000000) "IOV")).1, none) :=
  ⟨by decide, by decide,
    normalize_idempotent (NewCoin 3 (-2500000000) "IOV") (by decide) (by decide)⟩

end coin

namespace coin

open ErrKind

/-- C13: on every coin, `normalize` returns either the out-of-range error or a
coin with the same ticker and the same exact value, a fractional part in
`[-(10^9-1), 10^9-1]`, a whole part in `[-MaxInt, MaxInt]` and agreeing signs;
the error is returned exactly when the exact value truncated to whole units
lies outside `[-MaxInt, MaxInt]`; a coin that already passes the range and
sign checks of `Validate` is returned unchanged. -/
theorem normalize_spec (c : Coin) (hc : isInt64Coin c) :
    ((Coin.normalize c).2 = some ErrInvalidCoin ∨
      ((Coin.normalize c).2 = none ∧
        (Coin.normalize c).1.Ticker = c.Ticker ∧
        (Coin.normalize c).1.Whole * 1000000000 + (Coin.normalize c).1.Fractional
          = c.Whole * 1000000000 + c.Fractional ∧
        (-(1000000000 - 1) ≤ (Coin.normalize c).1.Fractional ∧
          (Coin.normalize c).1.Fractional ≤ 1000000000 - 1) ∧
        (-MaxInt ≤ (Coin.normalize c).1.Whole ∧ (Coin.normalize c).1.Whole ≤ MaxInt) ∧
        ((0 < (Coin.normalize c).1.Whole → 0 ≤ (Coin.normalize c).1.Fractional) ∧
          ((Coin.normalize c).1.Whole < 0 → (Coin.normalize c).1.Fractional ≤ 0)))) ∧
    ((Coin.normalize c).2 = some ErrInvalidCoin ↔
      (Int.tdiv (c.Whole * 1000000000 + c.Fractional) 1000000000 < -MaxInt ∨
        Int.tdiv (c.Whole * 1000000000 + c.Fractional) 1000000000 > MaxInt)) ∧
    ((-MaxInt ≤ c.Whole ∧ c.Whole ≤ MaxInt) →
      (-(1000000000 - 1) ≤ c.Fractional ∧ c.Fractional ≤ 1000000000 - 1) →
      ¬ (c.Whole ≠ 0 ∧ c.Fractional ≠ 0 ∧ ((c.Whole > 0) ≠ (c.Fractional > 0))) →
      Coin.normalize c = (c, none)) := by
  have herr : (Coin.normalize c).2 = some ErrInvalidCoin ↔
      (Int.tdiv (c.Whole * 1000000000 + c.Fractional) 1000000000 < -MaxInt ∨
        Int.tdiv (c.Whole * 1000000000 + c.Fractional) 1000000000 > MaxInt) := by
    rw [Coin.normalize_int64 c hc]
    show _ ↔ (Int.tdiv (exactValue c) FracUnit < MinInt ∨
      Int.tdiv (exactValue c) FracUnit > MaxInt)
    by_cases hq : MinInt ≤ Int.tdiv (exactValue c) FracUnit ∧
        Int.tdiv (exactValue c) FracUnit ≤ MaxInt
    · rw [if_pos hq]
      simp only [reduceCtorEq, false_iff]
      omega
    · rw [if_neg hq]
      simp only [true_iff]
      omega
  refine ⟨?_, herr, ?_⟩
  · cases hres : (Coin.normalize c).2 with
    | none =>
      right
      obtain ⟨ht, hv, hW, hF, hs⟩ := Coin.normalize_ok_props c hc hres
      exact ⟨rfl, ht, hv, hF, hW, hs⟩
    | some e =>
      left
      rw [Coin.normalize_int64 c hc] at hres
      split_ifs at hres
      simp only [Option.some.injEq] at hres
      rw [← hres]
  · intro hW hF hs
    apply Coin.normalize_of_normal c hW hF
    have hs' : ¬ (c.Whole ≠ 0 ∧ c.Fractional ≠ 0 ∧ ¬ (c.Whole > 0 ↔ c.Fractional > 0)) := by
      simpa only [ne_eq, eq_iff_iff] using hs
    omega

/-- Witness for C13: the coin `(3, -2500000000, "IOV")` is normalized to
`(0, 500000000, "IOV")`, and the coin `(1, 5, "IOV")` is returned unchanged. -/
theorem normalize_spec_witness :
    isInt64Coin (NewCoin 3 (-2500000000) "IOV") ∧
    isInt64Coin (NewCoin 1 5 "IOV") ∧
    ((Coin.normalize (NewCoin 3 (-2500000000) "IOV")).2 = some ErrInvalidCoin ↔
      (Int.tdiv ((NewCoin 3 (-2500000000) "IOV").Whole * 1000000000
            + (NewCoin 3 (-2500000000) "IOV").Fractional) 1000000000 < -MaxInt ∨
        Int.tdiv ((NewCoin 3 (-2500000000) "IOV").Whole * 1000000000
            + (NewCoin 3 (-2500000000) "IOV").Fractional) 1000000000 > MaxInt)) ∧
    Coin.normalize (NewCoin 1 5 "IOV") = (NewCoin 1 5 "IOV", none) :=
  ⟨by decide, by decide,
    (normalize_spec (NewCoin 3 (-2500000000) "IOV") (by decide)).2.1,
    (normalize_spec (NewCoin 1 5 "IOV") (by decide)).2.2 (by decide) (by decide)
      (by decide)⟩

/-- The ticker test `IsCC`, spelled out. -/
theorem IsCC_iff (s : String) :
    IsCC s = true ↔
      (s.length = 3 ∨ s.length = 4) ∧ ∀ ch ∈ s.data, 'A' ≤ ch ∧ ch ≤ 'Z' := by
  unfold IsCC
  simp only [Bool.and_eq_true, Bool.or_eq_true, beq_iff_eq, List.all_eq_true,
    decide_eq_true_eq]

/-- C14: `Validate` returns nil if and only if the ticker consists of 3 or 4
characters each in `'A'..'Z'`, `Whole` is in `[-MaxInt, MaxInt]`, `Fractional`
is in `[-MaxFrac, MaxFrac]` and the two parts do not have opposite signs; a bad
ticker is reported as invalid currency, whatever the numbers, and the other
failures as invalid coin.  The tickers `"AL2"` and `""` and the whole value
`MaxInt + 3` are rejected. -/
theorem validate_spec (c : Coin) :
    (c.Validate = none ↔
      ((c.Ticker.length = 3 ∨ c.Ticker.length = 4) ∧
        ∀ ch ∈ c.Ticker.data, 'A' ≤ ch ∧ ch ≤ 'Z') ∧
      (-MaxInt ≤ c.Whole ∧ c.Whole ≤ MaxInt) ∧
      (-MaxFrac ≤ c.Fractional ∧ c.Fractional ≤ MaxFrac) ∧
      ¬ ((c.Whole > 0 ∧ c.Fractional < 0) ∨ (c.Whole < 0 ∧ c.Fractional > 0))) ∧
    (¬ ((c.Ticker.length = 3 ∨ c.Ticker.length = 4) ∧
        ∀ ch ∈ c.Ticker.data, 'A' ≤ ch ∧ ch ≤ 'Z') →
      c.Validate = some ErrInvalidCurrency) ∧
    (((c.Ticker.length = 3 ∨ c.Ticker.length = 4) ∧
        ∀ ch ∈ c.Ticker.data, 'A' ≤ ch ∧ ch ≤ 'Z') →
      c.Validate ≠ none → c.Validate = some ErrInvalidCoin) ∧
    (NewCoin 1 2 "AL2").Validate = some ErrInvalidCurrency ∧
    (NewCoin 1 2 "").Validate = some ErrInvalidCurrency ∧
    (NewCoin (MaxInt + 3) 2 "AND").Validate = some ErrInvalidCoin := by
  refine ⟨?_, ?_, ?_, by decide, by decide, by decide⟩
  · rw [Coin.validate_eq_none_iff, IsCC_iff]
    unfold MinInt MinFrac
    constructor
    · rintro ⟨h1, h2, h3, h4⟩
      exact ⟨h1, h2, h3, by omega⟩
    · rintro ⟨h1, h2, h3, h4⟩
      exact ⟨h1, h2, h3, by omega⟩
  · intro h
    rw [← IsCC_iff] at h
    unfold Coin.Validate
    simp [h]
  · intro h hne
    rw [← IsCC_iff] at h
    unfold Coin.Validate at hne ⊢
    simp only [h, Bool.not_true, Bool.false_eq_true, if_false] at hne ⊢
    split_ifs at hne ⊢ <;> first | rfl | exact absurd rfl hne

/-- Witness for C14: the bad ticker of `(1, 2, "AL2")` and the out-of-range
whole part of `(MaxInt + 3, 2, "AND")`. -/
theorem validate_spec_witness :
    ¬ (((NewCoin 1 2 "AL2").Ticker.length = 3 ∨ (NewCoin 1 2 "AL2").Ticker.length = 4) ∧
        ∀ ch ∈ (NewCoin 1 2 "AL2").Ticker.data, 'A' ≤ ch ∧ ch ≤ 'Z') ∧
    (NewCoin 1 2 "AL2").Validate = some ErrInvalidCurrency ∧
    (((NewCoin (MaxInt + 3) 2 "AND").Ticker.length = 3 ∨
        (NewCoin (MaxInt + 3) 2 "AND").Ticker.length = 4) ∧
      ∀ ch ∈ (NewCoin (MaxInt + 3) 2 "AND").Ticker.data, 'A' ≤ ch ∧ ch ≤ 'Z') ∧
    (NewCoin (MaxInt + 3) 2 "AND").Validate ≠ none ∧
    (NewCoin (MaxInt + 3) 2 "AND").Validate = some ErrInvalidCoin :=
  ⟨by decide,
    (validate_spec (NewCoin 1 2 "AL2")).2.1 (by decide),
    by decide, by decide,
    (validate_spec (NewCoin (MaxInt + 3) 2 "AND")).2.2.1 (by decide) (by decide)⟩

end coin

namespace coin

open ErrKind

/-- C15: for normalized coins `a` and `b` (each with `|Fractional| <= MaxFrac`
and agreeing signs), `a.Compare(b)` is 1 when the exact value of `a` is larger
than that of `b`, -1 when it is smaller and 0 when they are equal; the result
does not depend on the tickers. -/
theorem compare_orders_exact_values (a b : Coin)
    (haF : |a.Fractional| ≤ MaxFrac) (hbF : |b.Fractional| ≤ MaxFrac)
    (has : (0 < a.Whole → 0 ≤ a.Fractional) ∧ (a.Whole < 0 → a.Fractional ≤ 0))
    (hbs : (0 < b.Whole → 0 ≤ b.Fractional) ∧ (b.Whole < 0 → b.Fractional ≤ 0)) :
    (a.Whole * FracUnit + a.Fractional > b.Whole * FracUnit + b.Fractional →
      a.Compare b = 1) ∧
    (a.Whole * FracUnit + a.Fractional < b.Whole * FracUnit + b.Fractional →
      a.Compare b = -1) ∧
    (a.Whole * FracUnit + a.Fractional = b.Whole * FracUnit + b.Fractional →
      a.Compare b = 0) ∧
    (∀ s t : String,
      Coin.Compare { a with Ticker := s } { b with Ticker := t } = a.Compare b) := by
  rw [abs_le] at haF hbF
  unfold Coin.Compare
  unfold MaxFrac FracUnit at *
  refine ⟨?_, ?_, ?_, fun _ _ => rfl⟩
  · intro h
    split_ifs <;> first | rfl | (exfalso; omega)
  · intro h
    split_ifs <;> first | rfl | (exfalso; omega)
  · intro h
    split_ifs <;> first | rfl | (exfalso; omega)

/-- Witness for C15: `(1, 5, "ABC")` against `(0, 999999999, "XYZ")`. -/
theorem compare_orders_exact_values_witness :
    |(NewCoin 1 5 "ABC").Fractional| ≤ MaxFrac ∧
    |(NewCoin 0 999999999 "XYZ").Fractional| ≤ MaxFrac ∧
    (NewCoin 1 5 "ABC").Whole * FracUnit + (NewCoin 1 5 "ABC").Fractional
      > (NewCoin 0 999999999 "XYZ").Whole * FracUnit
        + (NewCoin 0 999999999 "XYZ").Fractional ∧
    (NewCoin 1 5 "ABC").Compare (NewCoin 0 999999999 "XYZ") = 1 :=
  ⟨by decide, by decide, by decide,
    (compare_orders_exact_values (NewCoin 1 5 "ABC") (NewCoin 0 999999999 "XYZ")
      (by decide) (by decide) (by decide) (by decide)).1 (by decide)⟩

/-- C16: `c.IsGTE(o)` is true if and only if `c` and `o` have the same ticker
and `c.Compare(o) >= 0`; hence for normalized coins `IsGTE` holds exactly when
the tickers match and the exact value of `c` is at least that of `o`. -/
theorem isGTE_iff_same_ticker_and_compare (c o : Coin) :
    (c.IsGTE o = true ↔ c.Ticker = o.Ticker ∧ c.Compare o ≥ 0) ∧
    (|c.Fractional| ≤ MaxFrac → |o.Fractional| ≤ MaxFrac →
      ((0 < c.Whole → 0 ≤ c.Fractional) ∧ (c.Whole < 0 → c.Fractional ≤ 0)) →
      ((0 < o.Whole → 0 ≤ o.Fractional) ∧ (o.Whole < 0 → o.Fractional ≤ 0)) →
      (c.IsGTE o = true ↔
        c.Ticker = o.Ticker ∧
          c.Whole * FracUnit + c.Fractional ≥ o.Whole * FracUnit + o.Fractional)) := by
  have h1 : c.IsGTE o = true ↔ c.Ticker = o.Ticker ∧
      ¬ c.Whole < o.Whole ∧ ¬ (c.Whole = o.Whole ∧ c.Fractional < o.Fractional) := by
    unfold Coin.IsGTE Coin.SameType
    by_cases ht : c.Ticker = o.Ticker
    · by_cases hw : c.Whole < o.Whole
      · simp [ht, hw]
      · by_cases hf : c.Whole = o.Whole ∧ c.Fractional < o.Fractional
        · simp [ht, hf.1, hf.2]
        · have hf' : ¬ (c.Whole = o.Whole ∧ c.Fractional < o.Fractional) := hf
          rw [not_and] at hf
          simp only [ht, beq_self_eq_true, Bool.not_true, hw, decide_False, Bool.or_self,
            Bool.false_eq_true, if_false, Bool.and_eq_true, beq_iff_eq, decide_eq_true_eq,
            hf', not_false_eq_true, and_self]
    · simp [ht]
  have h2 : c.Compare o ≥ 0 ↔
      ¬ c.Whole < o.Whole ∧ ¬ (c.Whole = o.Whole ∧ c.Fractional < o.Fractional) := by
    unfold Coin.Compare
    split_ifs <;> omega
  refine ⟨?_, ?_⟩
  · rw [h1, h2]
  · intro hcF hoF hcs hos
    rw [h1]
    rw [abs_le] at hcF hoF
    unfold MaxFrac FracUnit at *
    constructor
    · rintro ⟨ht, hw⟩
      exact ⟨ht, by omega⟩
    · rintro ⟨ht, hv⟩
      exact ⟨ht, by omega⟩

/-- Witness for C16: `(1, 5, "IOV")` against `(0, 999999999, "IOV")`. -/
theorem isGTE_iff_same_ticker_and_compare_witness :
    |(NewCoin 1 5 "IOV").Fractional| ≤ MaxFrac ∧
    |(NewCoin 0 999999999 "IOV").Fractional| ≤ MaxFrac ∧
    ((NewCoin 1 5 "IOV").IsGTE (NewCoin 0 999999999 "IOV") = true ↔
      (NewCoin 1 5 "IOV").Ticker = (NewCoin 0 999999999 "IOV").Ticker ∧
        (NewCoin 1 5 "IOV").Whole * FracUnit + (NewCoin 1 5 "IOV").Fractional
          ≥ (NewCoin 0 999999999 "IOV").Whole * FracUnit
            + (NewCoin 0 999999999 "IOV").Fractional) :=
  ⟨by decide, by decide,
    (isGTE_iff_same_ticker_and_compare (NewCoin 1 5 "IOV")
      (NewCoin 0 999999999 "IOV")).2 (by decide) (by decide) (by decide) (by decide)⟩

/-- C17: for a coin that passes `Validate`, the sign predicates agree with the
sign of the exact value `v = Whole * 10^9 + Fractional`: `IsPositive` iff
`v > 0`, `IsNonNegative` iff `v >= 0`, `IsZero` iff `v = 0`, and so
`IsPositive` iff `IsNonNegative` and not `IsZero`. -/
theorem sign_predicates_of_valid (c : Coin) (hv : c.Validate = none) :
    (c.IsPositive = true ↔ c.Whole * FracUnit + c.Fractional > 0) ∧
    (c.IsNonNegative = true ↔ c.Whole * FracUnit + c.Fractional ≥ 0) ∧
    (c.IsZero = true ↔ c.Whole * FracUnit + c.Fractional = 0) ∧
    (c.IsPositive = true ↔ (c.IsNonNegative = true ∧ ¬ c.IsZero = true)) := by
  obtain ⟨-, hW, hF, hs⟩ := (Coin.validate_eq_none_iff c).1 hv
  unfold Coin.IsPositive Coin.IsNonNegative Coin.IsZero
  simp only [Bool.or_eq_true, Bool.and_eq_true, decide_eq_true_eq, beq_iff_eq]
  unfold MinInt MaxInt MinFrac MaxFrac FracUnit at *
  refine ⟨?_, ?_, ?_, ?_⟩ <;> omega

/-- Witness for C17: the coin `(-20, -3, "FIN")`. -/
theorem sign_predicates_of_valid_witness :
    (NewCoin (-20) (-3) "FIN").Validate = none ∧
    ((NewCoin (-20) (-3) "FIN").IsPositive = true ↔
      (NewCoin (-20) (-3) "FIN").Whole * FracUnit + (NewCoin (-20) (-3) "FIN").Fractional > 0) ∧
    ((NewCoin (-20) (-3) "FIN").IsNonNegative = true ↔
      (NewCoin (-20) (-3) "FIN").Whole * FracUnit
        + (NewCoin (-20) (-3) "FIN").Fractional ≥ 0) ∧
    ((NewCoin (-20) (-3) "FIN").IsZero = true ↔
      (NewCoin (-20) (-3) "FIN").Whole * FracUnit
        + (NewCoin (-20) (-3) "FIN").Fractional = 0) ∧
    ((NewCoin (-20) (-3) "FIN").IsPositive = true ↔
      ((NewCoin (-20) (-3) "FIN").IsNonNegative = true ∧
        ¬ (NewCoin (-20) (-3) "FIN").IsZero = true)) :=
  ⟨by decide, sign_predicates_of_valid (NewCoin (-20) (-3) "FIN") (by decide)⟩

end coin

/-! # Fee decorator -/

namespace cash

open coin coin.ErrKind weave

/-- With an empty fee, `extractFee` depends only on the minimal fee. -/
theorem extractFee_of_empty {Ctx Store Tx : Type} (env : Deps Ctx Store Tx)
    (d : FeeDecorator Ctx Store) (ctx : Ctx) (tx : Tx) (store : Store)
    (hempty : coin.IsEmpty (GetFees (feeInfoOf env d ctx tx)) = true) :
    d.extractFee env ctx tx store =
      if (env.gconfCoin store GconfMinimalFee).IsZero then
        some (feeInfoOf env d ctx tx, none)
      else some (none, some ErrInsufficientAmount) := by
  unfold FeeDecorator.extractFee
  simp only [hempty, if_true]

/-- With a non-empty fee `f` of the fee info `fi`, `extractFee` runs the
validation and then the minimal-fee checks on `f`. -/
theorem extractFee_of_nonempty {Ctx Store Tx : Type} (env : Deps Ctx Store Tx)
    (d : FeeDecorator Ctx Store) (ctx : Ctx) (tx : Tx) (store : Store)
    (fi : FeeInfo) (f : Coin) (hfi : feeInfoOf env d ctx tx = some fi)
    (hf : fi.Fees = some f) (hne : f.IsZero = false) :
    d.extractFee env ctx tx store =
      match env.Validate (some fi) with
      | some err => some (none, some err)
      | none =>
        if (env.gconfCoin store GconfMinimalFee).IsZero then some (some fi, none)
        else if (env.gconfCoin store GconfMinimalFee).Ticker == "" then
          some (none, some ErrInvalidCurrency)
        else if !f.SameType (env.gconfCoin store GconfMinimalFee) then
          some (none, some ErrInvalidCurrency)
        else if !f.IsGTE (env.gconfCoin store GconfMinimalFee) then
          some (none, some ErrInsufficientAmount)
        else some (some fi, none) := by
  unfold FeeDecorator.extractFee
  simp only [hfi, GetFees, hf, coin.IsEmpty, hne, Bool.false_eq_true, if_false]

/-- C18: when the transaction declares no fee or an empty fee, `Check` and
`Deliver` proceed if and only if the configured minimal fee is zero: if it is
zero they make exactly one call, to the next handler on the store they were
given, and return its result and error unchanged; if it is not zero they fail
with the insufficient-amount error and make no call. -/
theorem fee_empty_proceeds_iff_no_minimal_fee {Ctx Store Tx : Type}
    (env : Deps Ctx Store Tx) (d : FeeDecorator Ctx Store) (ctx : Ctx) (store : Store)
    (tx : Tx) (hempty : coin.IsEmpty (GetFees (feeInfoOf env d ctx tx)) = true) :
    (∀ next : Checker Ctx Store Tx,
      ((env.gconfCoin store GconfMinimalFee).IsZero = true →
        d.Check env ctx store tx next =
          some { res := (next ctx store tx).2.1, err := (next ctx store tx).2.2,
                 store := (next ctx store tx).1, calls := [Call.Next store] }) ∧
      ((env.gconfCoin store GconfMinimalFee).IsZero = false →
        d.Check env ctx store tx next =
          some { res := CheckResult.zero, err := some ErrInsufficientAmount,
                 store := store, calls := [] })) ∧
    (∀ next : Deliverer Ctx Store Tx,
      ((env.gconfCoin store GconfMinimalFee).IsZero = true →
        d.Deliver env ctx store tx next =
          some { res := (next ctx store tx).2.1, err := (next ctx store tx).2.2,
                 store := (next ctx store tx).1, calls := [Call.Next store] }) ∧
      ((env.gconfCoin store GconfMinimalFee).IsZero = false →
        d.Deliver env ctx store tx next =
          some { res := DeliverResult.zero, err := some ErrInsufficientAmount,
                 store := store, calls := [] })) := by
  have hx := extractFee_of_empty env d ctx tx store hempty
  refine ⟨fun next => ⟨fun hz => ?_, fun hz => ?_⟩, fun next => ⟨fun hz => ?_, fun hz => ?_⟩⟩
  · unfold FeeDecorator.Check
    rw [hx, hz]
    simp only [if_true, hempty]
  · unfold FeeDecorator.Check
    rw [hx, hz]
    simp only [Bool.false_eq_true, if_false]
  · unfold FeeDecorator.Deliver
    rw [hx, hz]
    simp only [if_true, hempty]
  · unfold FeeDecorator.Deliver
    rw [hx, hz]
    simp only [Bool.false_eq_true, if_false]

/-- C19: for a transaction with a non-empty declared fee on which `extractFee`
reports no error, if `HasAddress` is false for the fee payer then `Check` and
`Deliver` fail with the unauthorized error and make no call, neither to
`MoveCoins` nor to the next handler. -/
theorem fee_payer_not_authenticated {Ctx Store Tx : Type}
    (env : Deps Ctx Store Tx) (d : FeeDecorator Ctx Store) (ctx : Ctx) (store : Store)
    (tx : Tx) (fi : FeeInfo) (f : Coin)
    (hfi : feeInfoOf env d ctx tx = some fi) (hf : fi.Fees = some f)
    (hne : f.IsZero = false)
    (hok : ∃ r, d.extractFee env ctx tx store = some (r, none))
    (hauth : d.auth.HasAddress ctx fi.Payer = false) :
    (∀ next : Checker Ctx Store Tx,
      d.Check env ctx store tx next =
        some { res := CheckResult.zero, err := some ErrUnauthorized, store := store,
               calls := [] }) ∧
    (∀ next : Deliverer Ctx Store Tx,
      d.Deliver env ctx store tx next =
        some { res := DeliverResult.zero, err := some ErrUnauthorized, store := store,
               calls := [] }) := by
  have hx := extractFee_of_nonempty env d ctx tx store fi f hfi hf hne
  obtain ⟨r, hr⟩ := hok
  have hr' : d.extractFee env ctx tx store = some (some fi, none) := by
    rw [hr] at hx ⊢
    cases hv : env.Validate (some fi) with
    | some err =>
      rw [hv] at hx
      simp at hx
    | none =>
      rw [hv] at hx
      simp only at hx
      split_ifs at hx <;> first | exact hx | (simp at hx)
  constructor
  · intro next
    unfold FeeDecorator.Check
    rw [hr']
    simp only [GetFees, hf, coin.IsEmpty, hne, Bool.false_eq_true, if_false, hauth, Bool.not_false,
      if_true]
  · intro next
    unfold FeeDecorator.Deliver
    rw [hr']
    simp only [GetFees, hf, coin.IsEmpty, hne, Bool.false_eq_true, if_false, hauth, Bool.not_false,
      if_true]

/-- C20: with a non-zero minimal fee that has a ticker and a non-empty, valid
declared fee, `extractFee` accepts the fee if and only if the fee has the
ticker of the minimal fee and `fee.IsGTE(minimal)`; a different ticker is
rejected with the invalid-currency error and a same-ticker fee below the
minimum with the insufficient-amount error.  With a zero minimal fee every
non-empty valid fee is accepted. -/
theorem extractFee_minimal_fee_check {Ctx Store Tx : Type}
    (env : Deps Ctx Store Tx) (d : FeeDecorator Ctx Store) (ctx : Ctx) (store : Store)
    (tx : Tx) (fi : FeeInfo) (f : Coin)
    (hfi : feeInfoOf env d ctx tx = some fi) (hf : fi.Fees = some f)
    (hne : f.IsZero = false) (hvalid : env.Validate (some fi) = none) :
    ((env.gconfCoin store GconfMinimalFee).IsZero = false →
      (env.gconfCoin store GconfMinimalFee).Ticker ≠ "" →
      ((d.extractFee env ctx tx store = some (some fi, none) ↔
          f.Ticker = (env.gconfCoin store GconfMinimalFee).Ticker ∧
            f.IsGTE (env.gconfCoin store GconfMinimalFee) = true) ∧
        (f.Ticker ≠ (env.gconfCoin store GconfMinimalFee).Ticker →
          d.extractFee env ctx tx store = some (none, some ErrInvalidCurrency)) ∧
        (f.Ticker = (env.gconfCoin store GconfMinimalFee).Ticker →
          f.IsGTE (env.gconfCoin store GconfMinimalFee) = false →
          d.extractFee env ctx tx store = some (none, some ErrInsufficientAmount)))) ∧
    ((env.gconfCoin store GconfMinimalFee).IsZero = true →
      d.extractFee env ctx tx store = some (some fi, none)) := by
  have hx := extractFee_of_nonempty env d ctx tx store fi f hfi hf hne
  rw [hvalid] at hx
  simp only at hx
  rw [hx]
  generalize env.gconfCoin store GconfMinimalFee = cmp
  constructor
  · intro hz ht
    have ht' : (cmp.Ticker == "") = false := by simpa using ht
    simp only [hz, ht', Bool.false_eq_true, if_false, Coin.SameType]
    by_cases hs : f.Ticker = cmp.Ticker
    · cases hg : f.IsGTE cmp <;> simp [hs]
    · simp [hs]
  · intro hz
    simp only [hz, if_true]

end cash

namespace cash

open coin coin.ErrKind weave

/-- Witness for C18: with no declared fee, a minimal fee of 1 IOV makes
`Check` fail, and no minimal fee lets `Check` and `Deliver` call the next
handler. -/
theorem fee_empty_proceeds_iff_no_minimal_fee_witness :
    coin.IsEmpty (GetFees (feeInfoOf demoDeps (demoDecorator []) () none)) = true ∧
    (demoDeps.gconfCoin (NewCoin 1 0 "IOV") GconfMinimalFee).IsZero = false ∧
    (demoDecorator []).Check demoDeps () (NewCoin 1 0 "IOV") none demoChecker =
      some { res := CheckResult.zero, err := some ErrInsufficientAmount,
             store := NewCoin 1 0 "IOV", calls := [] } ∧
    (demoDeps.gconfCoin emptyCoin GconfMinimalFee).IsZero = true ∧
    (demoDecorator []).Check demoDeps () emptyCoin none demoChecker =
      some { res := (demoChecker () emptyCoin none).2.1,
             err := (demoChecker () emptyCoin none).2.2,
             store := (demoChecker () emptyCoin none).1, calls := [Call.Next emptyCoin] } ∧
    (demoDecorator []).Deliver demoDeps () emptyCoin none demoDeliverer =
      some { res := (demoDeliverer () emptyCoin none).2.1,
             err := (demoDeliverer () emptyCoin none).2.2,
             store := (demoDeliverer () emptyCoin none).1,
             calls := [Call.Next emptyCoin] } :=
  ⟨by decide, by decide,
    ((fee_empty_proceeds_iff_no_minimal_fee demoDeps (demoDecorator []) ()
      (NewCoin 1 0 "IOV") none (by decide)).1 demoChecker).2 (by decide),
    by decide,
    ((fee_empty_proceeds_iff_no_minimal_fee demoDeps (demoDecorator []) ()
      emptyCoin none (by decide)).1 demoChecker).1 (by decide),
    ((fee_empty_proceeds_iff_no_minimal_fee demoDeps (demoDecorator []) ()
      emptyCoin none (by decide)).2 demoDeliverer).1 (by decide)⟩

/-- Witness for C19: a fee of `(0, 5, "IOV")` declared with payer `[7]`, who
is not authenticated. -/
theorem fee_payer_not_authenticated_witness :
    feeInfoOf demoDeps (demoDecorator []) ()
        (some { Payer := [7], Fees := some (NewCoin 0 5 "IOV") })
      = some { Payer := [7], Fees := some (NewCoin 0 5 "IOV") } ∧
    (NewCoin 0 5 "IOV").IsZero = false ∧
    (demoDecorator []).extractFee demoDeps ()
        (some { Payer := [7], Fees := some (NewCoin 0 5 "IOV") }) emptyCoin
      = some (some { Payer := [7], Fees := some (NewCoin 0 5 "IOV") }, none) ∧
    (demoDecorator []).auth.HasAddress () [7] = false ∧
    (demoDecorator []).Check demoDeps () emptyCoin
        (some { Payer := [7], Fees := some (NewCoin 0 5 "IOV") }) demoChecker
      = some { res := CheckResult.zero, err := some ErrUnauthorized, store := emptyCoin,
               calls := [] } ∧
    (demoDecorator []).Deliver demoDeps () emptyCoin
        (some { Payer := [7], Fees := some (NewCoin 0 5 "IOV") }) demoDeliverer
      = some { res := DeliverResult.zero, err := some ErrUnauthorized, store := emptyCoin,
               calls := [] } :=
  ⟨by decide, by decide, by decide, by decide,
    (fee_payer_not_authenticated demoDeps (demoDecorator []) () emptyCoin
      (some { Payer := [7], Fees := some (NewCoin 0 5 "IOV") })
      { Payer := [7], Fees := some (NewCoin 0 5 "IOV") } (NewCoin 0 5 "IOV")
      (by decide) rfl (by decide)
      ⟨some { Payer := [7], Fees := some (NewCoin 0 5 "IOV") }, by decide⟩ (by decide)).1 demoChecker,
    (fee_payer_not_authenticated demoDeps (demoDecorator []) () emptyCoin
      (some { Payer := [7], Fees := some (NewCoin 0 5 "IOV") })
      { Payer := [7], Fees := some (NewCoin 0 5 "IOV") } (NewCoin 0 5 "IOV")
      (by decide) rfl (by decide)
      ⟨some { Payer := [7], Fees := some (NewCoin 0 5 "IOV") }, by decide⟩ (by decide)).2 demoDeliverer⟩

/-- Witness for C20: against a minimal fee of `(0, 10, "IOV")`, the fee
`(0, 5, "IOV")` is insufficient and the fee `(0, 50, "ETH")` has the wrong
currency; with no minimal fee the fee `(0, 5, "IOV")` is accepted. -/
theorem extractFee_minimal_fee_check_witness :
    (demoDeps.gconfCoin (NewCoin 0 10 "IOV") GconfMinimalFee).IsZero = false ∧
    (demoDeps.gconfCoin (NewCoin 0 10 "IOV") GconfMinimalFee).Ticker ≠ "" ∧
    (NewCoin 0 5 "IOV").Ticker = (demoDeps.gconfCoin (NewCoin 0 10 "IOV") GconfMinimalFee).Ticker ∧
    (NewCoin 0 5 "IOV").IsGTE (demoDeps.gconfCoin (NewCoin 0 10 "IOV") GconfMinimalFee) = false ∧
    (demoDecorator []).extractFee demoDeps ()
        (some { Payer := [7], Fees := some (NewCoin 0 5 "IOV") }) (NewCoin 0 10 "IOV")
      = some (none, some ErrInsufficientAmount) ∧
    (NewCoin 0 50 "ETH").Ticker
      ≠ (demoDeps.gconfCoin (NewCoin 0 10 "IOV") GconfMinimalFee).Ticker ∧
    (demoDecorator []).extractFee demoDeps ()
        (some { Payer := [7], Fees := some (NewCoin 0 50 "ETH") }) (NewCoin 0 10 "IOV")
      = some (none, some ErrInvalidCurrency) ∧
    (demoDeps.gconfCoin emptyCoin GconfMinimalFee).IsZero = true ∧
    (demoDecorator []).extractFee demoDeps ()
        (some { Payer := [7], Fees := some (NewCoin 0 5 "IOV") }) emptyCoin
      = some (some { Payer := [7], Fees := some (NewCoin 0 5 "IOV") }, none) :=
  ⟨by decide, by decide, by decide, by decide,
    ((extractFee_minimal_fee_check demoDeps (demoDecorator []) () (NewCoin 0 10 "IOV")
      (some { Payer := [7], Fees := some (NewCoin 0 5 "IOV") })
      { Payer := [7], Fees := some (NewCoin 0 5 "IOV") } (NewCoin 0 5 "IOV")
      (by decide) rfl (by decide) rfl).1 (by decide) (by decide)).2.2 (by decide) (by decide),
    by decide,
    ((extractFee_minimal_fee_check demoDeps (demoDecorator []) () (NewCoin 0 10 "IOV")
      (some { Payer := [7], Fees := some (NewCoin 0 50 "ETH") })
      { Payer := [7], Fees := some (NewCoin 0 50 "ETH") } (NewCoin 0 50 "ETH")
      (by decide) rfl (by decide) rfl).1 (by decide) (by decide)).2.1 (by decide),
    by decide,
    (extractFee_minimal_fee_check demoDeps (demoDecorator []) () emptyCoin
      (some { Payer := [7], Fees := some (NewCoin 0 5 "IOV") })
      { Payer := [7], Fees := some (NewCoin 0 5 "IOV") } (NewCoin 0 5 "IOV")
      (by decide) rfl (by decide) rfl).2 (by decide)⟩

end cash

namespace cash

open coin coin.ErrKind weave

/-- When `extractFee` reports no error, the fee info it returns is the one it
extracted. -/
theorem extractFee_ok_eq {Ctx Store Tx : Type} (env : Deps Ctx Store Tx)
    (d : FeeDecorator Ctx Store) (ctx : Ctx) (tx : Tx) (store : Store)
    (fi : FeeInfo) (f : Coin) (hfi : feeInfoOf env d ctx tx = some fi)
    (hf : fi.Fees = some f) (hne : f.IsZero = false)
    (hok : ∃ r, d.extractFee env ctx tx store = some (r, none)) :
    d.extractFee env ctx tx store = some (some fi, none) := by
  have hx := extractFee_of_nonempty env d ctx tx store fi f hfi hf hne
  obtain ⟨r, hr⟩ := hok
  rw [hr] at hx ⊢
  cases hv : env.Validate (some fi) with
  | some err =>
    rw [hv] at hx
    simp at hx
  | none =>
    rw [hv] at hx
    simp only at hx
    split_ifs at hx <;> first | exact hx | (simp at hx)

/-- C21, as stated, fails: the next handler also runs when no `MoveCoins` has
been called.  With no minimal fee, a transaction that declares no fee and a
transaction that declares the zero fee `(0, 0, "IOV")` both reach the next
handler, in `Check` and in `Deliver`, and the next handler is the only call
made. -/
theorem next_runs_without_MoveCoins :
    ((demoDecorator [[7]]).Check demoDeps () emptyCoin none demoChecker
        = some { res := CheckResult.zero, err := none, store := emptyCoin,
                 calls := [Call.Next emptyCoin] } ∧
      (demoDecorator [[7]]).Deliver demoDeps () emptyCoin none demoDeliverer
        = some { res := DeliverResult.zero, err := none, store := emptyCoin,
                 calls := [Call.Next emptyCoin] }) ∧
    ((demoDecorator [[7]]).Check demoDeps () emptyCoin
          (some { Payer := [7], Fees := some (NewCoin 0 0 "IOV") }) demoChecker
        = some { res := CheckResult.zero, err := none, store := emptyCoin,
                 calls := [Call.Next emptyCoin] } ∧
      (demoDecorator [[7]]).Deliver demoDeps () emptyCoin
          (some { Payer := [7], Fees := some (NewCoin 0 0 "IOV") }) demoDeliverer
        = some { res := DeliverResult.zero, err := none, store := emptyCoin,
                 calls := [Call.Next emptyCoin] }) :=
  ⟨⟨rfl, rfl⟩, ⟨rfl, rfl⟩⟩

/-- C21, amended: if `MoveCoins` from the payer to the collector returns an
error, `Check` and `Deliver` return that same error with an empty result and
never call the next handler; when the declared fee is not empty, the next
handler is called only after `MoveCoins` of exactly the declared fee, from the
payer to the collector, has returned no error. -/
theorem fee_transfer_failure_stops {Ctx Store Tx : Type} (env : Deps Ctx Store Tx)
    (d : FeeDecorator Ctx Store) (ctx : Ctx) (store : Store) (tx : Tx)
    (fi : FeeInfo) (f : Coin) (hfi : feeInfoOf env d ctx tx = some fi)
    (hf : fi.Fees = some f) (hne : f.IsZero = false) :
    (∀ e, (∃ r, d.extractFee env ctx tx store = some (r, none)) →
      d.auth.HasAddress ctx fi.Payer = true →
      (d.ctrl.MoveCoins store fi.Payer
        (env.gconfAddress store GconfCollectorAddress) f).2 = some e →
      (∀ next : Checker Ctx Store Tx,
        d.Check env ctx store tx next =
          some { res := CheckResult.zero, err := some e,
                 store := (d.ctrl.MoveCoins store fi.Payer
                    (env.gconfAddress store GconfCollectorAddress) f).1,
                 calls := [Call.MoveCoins store fi.Payer
                    (env.gconfAddress store GconfCollectorAddress) f] }) ∧
      (∀ next : Deliverer Ctx Store Tx,
        d.Deliver env ctx store tx next =
          some { res := DeliverResult.zero, err := some e,
                 store := (d.ctrl.MoveCoins store fi.Payer
                    (env.gconfAddress store GconfCollectorAddress) f).1,
                 calls := [Call.MoveCoins store fi.Payer
                    (env.gconfAddress store GconfCollectorAddress) f] })) ∧
    (∀ (next : Checker Ctx Store Tx) (o : Outcome Store CheckResult),
      d.Check env ctx store tx next = some o → (∃ s, Call.Next s ∈ o.calls) →
      (d.ctrl.MoveCoins store fi.Payer
        (env.gconfAddress store GconfCollectorAddress) f).2 = none ∧
      o.calls = [Call.MoveCoins store fi.Payer
          (env.gconfAddress store GconfCollectorAddress) f,
        Call.Next (d.ctrl.MoveCoins store fi.Payer
          (env.gconfAddress store GconfCollectorAddress) f).1]) ∧
    (∀ (next : Deliverer Ctx Store Tx) (o : Outcome Store DeliverResult),
      d.Deliver env ctx store tx next = some o → (∃ s, Call.Next s ∈ o.calls) →
      (d.ctrl.MoveCoins store fi.Payer
        (env.gconfAddress store GconfCollectorAddress) f).2 = none ∧
      o.calls = [Call.MoveCoins store fi.Payer
          (env.gconfAddress store GconfCollectorAddress) f,
        Call.Next (d.ctrl.MoveCoins store fi.Payer
          (env.gconfAddress store GconfCollectorAddress) f).1]) := by
  refine ⟨fun e hok hauth hmove => ⟨fun next => ?_, fun next => ?_⟩, ?_, ?_⟩
  · have hx := extractFee_ok_eq env d ctx tx store fi f hfi hf hne hok
    unfold FeeDecorator.Check
    rw [hx]
    simp only [GetFees, hf, coin.IsEmpty, hne, Bool.false_eq_true, if_false, hauth,
      Bool.not_true, hmove]
  · have hx := extractFee_ok_eq env d ctx tx store fi f hfi hf hne hok
    unfold FeeDecorator.Deliver
    rw [hx]
    simp only [GetFees, hf, coin.IsEmpty, hne, Bool.false_eq_true, if_false, hauth,
      Bool.not_true, hmove]
  · intro next o ho hnext
    obtain ⟨s, hs⟩ := hnext
    cases hex : d.extractFee env ctx tx store with
    | none =>
      unfold FeeDecorator.Check at ho
      rw [hex] at ho
      simp at ho
    | some p =>
      obtain ⟨r, oe⟩ := p
      cases oe with
      | some err =>
        unfold FeeDecorator.Check at ho
        rw [hex] at ho
        simp only [Option.some.injEq] at ho
        rw [← ho] at hs
        simp at hs
      | none =>
        have hx := extractFee_ok_eq env d ctx tx store fi f hfi hf hne ⟨r, hex⟩
        unfold FeeDecorator.Check at ho
        rw [hx] at ho
        simp only [GetFees, hf, coin.IsEmpty, hne, Bool.false_eq_true, if_false] at ho
        cases hauth : d.auth.HasAddress ctx fi.Payer with
        | false =>
          simp only [hauth, Bool.not_false, if_true, Option.some.injEq] at ho
          rw [← ho] at hs
          simp at hs
        | true =>
          simp only [hauth, Bool.not_true, Bool.false_eq_true, if_false] at ho
          cases hmove : (d.ctrl.MoveCoins store fi.Payer
              (env.gconfAddress store GconfCollectorAddress) f).2 with
          | some e =>
            simp only [hmove, Option.some.injEq] at ho
            rw [← ho] at hs
            simp at hs
          | none =>
            simp only [hmove, Option.some.injEq] at ho
            rw [← ho]
            exact ⟨rfl, rfl⟩
  · intro next o ho hnext
    obtain ⟨s, hs⟩ := hnext
    cases hex : d.extractFee env ctx tx store with
    | none =>
      unfold FeeDecorator.Deliver at ho
      rw [hex] at ho
      simp at ho
    | some p =>
      obtain ⟨r, oe⟩ := p
      cases oe with
      | some err =>
        unfold FeeDecorator.Deliver at ho
        rw [hex] at ho
        simp only [Option.some.injEq] at ho
        rw [← ho] at hs
        simp at hs
      | none =>
        have hx := extractFee_ok_eq env d ctx tx store fi f hfi hf hne ⟨r, hex⟩
        unfold FeeDecorator.Deliver at ho
        rw [hx] at ho
        simp only [GetFees, hf, coin.IsEmpty, hne, Bool.false_eq_true, if_false] at ho
        cases hauth : d.auth.HasAddress ctx fi.Payer with
        | false =>
          simp only [hauth, Bool.not_false, if_true, Option.some.injEq] at ho
          rw [← ho] at hs
          simp at hs
        | true =>
          simp only [hauth, Bool.not_true, Bool.false_eq_true, if_false] at ho
          cases hmove : (d.ctrl.MoveCoins store fi.Payer
              (env.gconfAddress store GconfCollectorAddress) f).2 with
          | some e =>
            simp only [hmove, Option.some.injEq] at ho
            rw [← ho] at hs
            simp at hs
          | none =>
            simp only [hmove, Option.some.injEq] at ho
            rw [← ho]
            exact ⟨rfl, rfl⟩

/-- After a non-empty fee has been paid, `Check` returns the result of the next
handler with `GasPayment` increased by `toPayment(fee)` in `int64` arithmetic,
so exactly whenever the sum is an `int64`, and every other field unchanged;
`Deliver` returns the result of the next handler unchanged. -/
theorem fee_scored_in_check_only {Ctx Store Tx : Type} (env : Deps Ctx Store Tx)
    (d : FeeDecorator Ctx Store) (ctx : Ctx) (store : Store) (tx : Tx)
    (fi : FeeInfo) (f : Coin) (hfi : feeInfoOf env d ctx tx = some fi)
    (hf : fi.Fees = some f) (hne : f.IsZero = false)
    (hok : ∃ r, d.extractFee env ctx tx store = some (r, none))
    (hauth : d.auth.HasAddress ctx fi.Payer = true)
    (hmove : (d.ctrl.MoveCoins store fi.Payer
        (env.gconfAddress store GconfCollectorAddress) f).2 = none) :
    (∀ next : Checker Ctx Store Tx, ∃ o, d.Check env ctx store tx next = some o ∧
      o.res.GasPayment = wrap64 ((next ctx (d.ctrl.MoveCoins store fi.Payer
          (env.gconfAddress store GconfCollectorAddress) f).1 tx).2.1.GasPayment
        + toPayment f) ∧
      (inInt64 ((next ctx (d.ctrl.MoveCoins store fi.Payer
          (env.gconfAddress store GconfCollectorAddress) f).1 tx).2.1.GasPayment
        + toPayment f) →
        o.res.GasPayment = (next ctx (d.ctrl.MoveCoins store fi.Payer
          (env.gconfAddress store GconfCollectorAddress) f).1 tx).2.1.GasPayment
          + toPayment f) ∧
      o.res.Data = (next ctx (d.ctrl.MoveCoins store fi.Payer
          (env.gconfAddress store GconfCollectorAddress) f).1 tx).2.1.Data ∧
      o.res.Log = (next ctx (d.ctrl.MoveCoins store fi.Payer
          (env.gconfAddress store GconfCollectorAddress) f).1 tx).2.1.Log ∧
      o.res.RequiredFee = (next ctx (d.ctrl.MoveCoins store fi.Payer
          (env.gconfAddress store GconfCollectorAddress) f).1 tx).2.1.RequiredFee ∧
      o.res.GasAllocated = (next ctx (d.ctrl.MoveCoins store fi.Payer
          (env.gconfAddress store GconfCollectorAddress) f).1 tx).2.1.GasAllocated ∧
      o.err = (next ctx (d.ctrl.MoveCoins store fi.Payer
          (env.gconfAddress store GconfCollectorAddress) f).1 tx).2.2) ∧
    (∀ next : Deliverer Ctx Store Tx, ∃ o, d.Deliver env ctx store tx next = some o ∧
      o.res = (next ctx (d.ctrl.MoveCoins store fi.Payer
          (env.gconfAddress store GconfCollectorAddress) f).1 tx).2.1 ∧
      o.err = (next ctx (d.ctrl.MoveCoins store fi.Payer
          (env.gconfAddress store GconfCollectorAddress) f).1 tx).2.2) := by
  have hx := extractFee_ok_eq env d ctx tx store fi f hfi hf hne hok
  constructor
  · intro next
    unfold FeeDecorator.Check
    rw [hx]
    simp only [GetFees, hf, coin.IsEmpty, hne, Bool.false_eq_true, if_false, hauth,
      Bool.not_true, hmove]
    exact ⟨_, rfl, rfl, fun h => wrap64_of_inInt64 h, rfl, rfl, rfl, rfl, rfl⟩
  · intro next
    unfold FeeDecorator.Deliver
    rw [hx]
    simp only [GetFees, hf, coin.IsEmpty, hne, Bool.false_eq_true, if_false, hauth,
      Bool.not_true, hmove]
    exact ⟨_, rfl, rfl, rfl⟩

end cash

namespace cash

open coin coin.ErrKind weave

/-- Witness for C21: a fee of `(0, 5, "IOV")` from payer `[7]`, authenticated.
With a coin mover that reports insufficient funds `Check` returns that error
after the one call of `MoveCoins`; with a coin mover that succeeds the next
handler is called after `MoveCoins` of the fee. -/
theorem fee_transfer_failure_stops_witness :
    feeInfoOf demoDeps (brokeDecorator [[7]]) ()
        (some { Payer := [7], Fees := some (NewCoin 0 5 "IOV") })
      = some { Payer := [7], Fees := some (NewCoin 0 5 "IOV") } ∧
    (NewCoin 0 5 "IOV").IsZero = false ∧
    (brokeDecorator [[7]]).auth.HasAddress () [7] = true ∧
    ((brokeDecorator [[7]]).ctrl.MoveCoins emptyCoin [7]
        (demoDeps.gconfAddress emptyCoin GconfCollectorAddress) (NewCoin 0 5 "IOV")).2
      = some ErrInsufficientAmount ∧
    (brokeDecorator [[7]]).Check demoDeps () emptyCoin
        (some { Payer := [7], Fees := some (NewCoin 0 5 "IOV") }) demoChecker
      = some { res := CheckResult.zero, err := some ErrInsufficientAmount,
               store := ((brokeDecorator [[7]]).ctrl.MoveCoins emptyCoin [7]
                  (demoDeps.gconfAddress emptyCoin GconfCollectorAddress)
                  (NewCoin 0 5 "IOV")).1,
               calls := [Call.MoveCoins emptyCoin [7]
                  (demoDeps.gconfAddress emptyCoin GconfCollectorAddress)
                  (NewCoin 0 5 "IOV")] } ∧
    (∀ o, (demoDecorator [[7]]).Check demoDeps () emptyCoin
        (some { Payer := [7], Fees := some (NewCoin 0 5 "IOV") }) demoChecker = some o →
      (∃ s, Call.Next s ∈ o.calls) →
      o.calls = [Call.MoveCoins emptyCoin [7] [9] (NewCoin 0 5 "IOV"),
        Call.Next emptyCoin]) ∧
    (∃ o, (demoDecorator [[7]]).Check demoDeps () emptyCoin
        (some { Payer := [7], Fees := some (NewCoin 0 5 "IOV") }) demoChecker = some o ∧
      ∃ s, Call.Next s ∈ o.calls) :=
  ⟨by decide, by decide, by decide, by decide,
    ((fee_transfer_failure_stops demoDeps (brokeDecorator [[7]]) () emptyCoin
      (some { Payer := [7], Fees := some (NewCoin 0 5 "IOV") })
      { Payer := [7], Fees := some (NewCoin 0 5 "IOV") } (NewCoin 0 5 "IOV")
      (by decide) rfl (by decide)).1
        ErrInsufficientAmount
        ⟨some { Payer := [7], Fees := some (NewCoin 0 5 "IOV") }, by decide⟩
        (by decide) (by decide)).1 demoChecker,
    fun o ho hn =>
      ((fee_transfer_failure_stops demoDeps (demoDecorator [[7]]) () emptyCoin
        (some { Payer := [7], Fees := some (NewCoin 0 5 "IOV") })
        { Payer := [7], Fees := some (NewCoin 0 5 "IOV") } (NewCoin 0 5 "IOV")
        (by decide) rfl (by decide)).2.1 demoChecker o ho hn).2,
    ⟨_, rfl, emptyCoin, List.mem_cons_of_mem _ (List.mem_singleton.mpr rfl)⟩⟩

/-- An instance of `fee_scored_in_check_only`: a fee of `(0, 5, "IOV")` from
payer `[7]`, authenticated and paid; the zero result of the next handler gets
a `GasPayment` of 5 in `Check` and is returned as it is in `Deliver`. -/
theorem fee_scored_in_check_only_witness :
    feeInfoOf demoDeps (demoDecorator [[7]]) ()
        (some { Payer := [7], Fees := some (NewCoin 0 5 "IOV") })
      = some { Payer := [7], Fees := some (NewCoin 0 5 "IOV") } ∧
    (NewCoin 0 5 "IOV").IsZero = false ∧
    (demoDecorator [[7]]).auth.HasAddress () [7] = true ∧
    ((demoDecorator [[7]]).ctrl.MoveCoins emptyCoin [7]
        (demoDeps.gconfAddress emptyCoin GconfCollectorAddress) (NewCoin 0 5 "IOV")).2
      = none ∧
    (∃ o, (demoDecorator [[7]]).Check demoDeps () emptyCoin
        (some { Payer := [7], Fees := some (NewCoin 0 5 "IOV") }) demoChecker = some o ∧
      o.res.GasPayment = 5) ∧
    (∃ o, (demoDecorator [[7]]).Deliver demoDeps () emptyCoin
        (some { Payer := [7], Fees := some (NewCoin 0 5 "IOV") }) demoDeliverer = some o ∧
      o.res = (demoDeliverer () ((demoDecorator [[7]]).ctrl.MoveCoins emptyCoin [7]
          (demoDeps.gconfAddress emptyCoin GconfCollectorAddress)
          (NewCoin 0 5 "IOV")).1
          (some { Payer := [7], Fees := some (NewCoin 0 5 "IOV") })).2.1 ∧
      o.err = (demoDeliverer () ((demoDecorator [[7]]).ctrl.MoveCoins emptyCoin [7]
          (demoDeps.gconfAddress emptyCoin GconfCollectorAddress)
          (NewCoin 0 5 "IOV")).1
          (some { Payer := [7], Fees := some (NewCoin 0 5 "IOV") })).2.2) :=
  ⟨by decide, by decide, by decide, by decide,
    (by
      obtain ⟨o, ho, hg, _⟩ :=
        (fee_scored_in_check_only demoDeps (demoDecorator [[7]]) () emptyCoin
          (some { Payer := [7], Fees := some (NewCoin 0 5 "IOV") })
          { Payer := [7], Fees := some (NewCoin 0 5 "IOV") } (NewCoin 0 5 "IOV")
          (by decide) rfl (by decide)
          ⟨some { Payer := [7], Fees := some (NewCoin 0 5 "IOV") }, by decide⟩
          (by decide) (by decide)).1 demoChecker
      exact ⟨o, ho, hg.trans (by decide)⟩),
    (fee_scored_in_check_only demoDeps (demoDecorator [[7]]) () emptyCoin
      (some { Payer := [7], Fees := some (NewCoin 0 5 "IOV") })
      { Payer := [7], Fees := some (NewCoin 0 5 "IOV") } (NewCoin 0 5 "IOV")
      (by decide) rfl (by decide)
      ⟨some { Payer := [7], Fees := some (NewCoin 0 5 "IOV") }, by decide⟩
      (by decide) (by decide)).2 demoDeliverer⟩

/-- C22: `Check` does not always increase `GasPayment` by exactly
`toPayment(fee)`.  The fee `(9223372036, 854775807, "IOV")` passes `Validate`
and `toPayment` of it is its exact value `9223372036854775807`, the largest
`int64`; it is paid by the authenticated payer `[7]`.  When the next handler
returns a `GasPayment` of 1, `res.GasPayment += paid` wraps and `Check`
returns a `GasPayment` of `-9223372036854775808`, not
`1 + 9223372036854775807`. -/
theorem gas_payment_wraps_for_valid_fee :
    (NewCoin 9223372036 854775807 "IOV").Validate = none ∧
    (NewCoin 9223372036 854775807 "IOV").IsZero = false ∧
    toPayment (NewCoin 9223372036 854775807 "IOV") = 9223372036854775807 ∧
    toPayment (NewCoin 9223372036 854775807 "IOV")
      = exactValue (NewCoin 9223372036 854775807 "IOV") ∧
    (payingChecker 1 () emptyCoin
      (some { Payer := [7], Fees := some (NewCoin 9223372036 854775807 "IOV") })).2.1.GasPayment
      = 1 ∧
    ((demoDecorator [[7]]).Check demoDeps () emptyCoin
        (some { Payer := [7], Fees := some (NewCoin 9223372036 854775807 "IOV") })
        (payingChecker 1)).map (fun o => (o.res.GasPayment, o.err))
      = some (-9223372036854775808, none) ∧
    ((demoDecorator [[7]]).Check demoDeps () emptyCoin
        (some { Payer := [7], Fees := some (NewCoin 9223372036 854775807 "IOV") })
        (payingChecker 1)).map (fun o => o.res.GasPayment)
      ≠ some (1 + toPayment (NewCoin 9223372036 854775807 "IOV")) := by
  decide

end cash

/-! # Decorator chains -/

namespace bcpd

open app app.Stage

/-- C27: the decorator chain built by `Chain` in the bcpd application lists
its stages in the fixed order logging, panic recovery, key tagging,
check-phase savepoint, signature authentication, multisig authentication, fee
enforcement, hashlock authentication, batch expansion, deliver-phase
savepoint, and `Stack` appends the router after the last stage. -/
theorem bcpd_chain_has_fixed_order :
    Chain =
      [ Logging, Recovery, KeyTagger, SavepointOnCheck, SigsDecorator, MultisigDecorator,
        FeeDecorator, HashlockDecorator, BatchDecorator, SavepointOnDeliver ] ∧
    Stack = Chain ++ [Router] ∧
    Stack =
      [ Logging, Recovery, KeyTagger, SavepointOnCheck, SigsDecorator, MultisigDecorator,
        FeeDecorator, HashlockDecorator, BatchDecorator, SavepointOnDeliver, Router ] := by
  refine ⟨rfl, rfl, rfl⟩

end bcpd

namespace bnsd

open app app.Stage

/-- C28, as stated, fails: the chain of the bnsd application is not the fixed
ten-stage chain; it has no batch expansion and no deliver-phase savepoint, and
in `Stack` the router comes immediately after hashlock authentication. -/
theorem bnsd_chain_lacks_batch_and_deliver_savepoint :
    Chain ≠
      [ Logging, Recovery, KeyTagger, SavepointOnCheck, SigsDecorator, MultisigDecorator,
        DynamicFeeDecorator, HashlockDecorator, BatchDecorator, SavepointOnDeliver ] ∧
    Chain ≠ bcpd.Chain ∧
    BatchDecorator ∉ Stack ∧ SavepointOnDeliver ∉ Stack ∧
    Stack.getLast? = some Router ∧ Stack.dropLast.getLast? = some HashlockDecorator := by
  decide

/-- C28, amended: the decorator chain built by `Chain` in the bnsd application
contains, in this order, logging, panic recovery, key tagging, check-phase
savepoint, signature authentication, multisig authentication, fee enforcement
by the dynamic fee decorator and hashlock authentication, and nothing else;
`Stack` appends the router immediately after hashlock authentication. -/
theorem bnsd_chain_has_eight_stages :
    Chain =
      [ Logging, Recovery, KeyTagger, SavepointOnCheck, SigsDecorator, MultisigDecorator,
        DynamicFeeDecorator, HashlockDecorator ] ∧
    Stack = Chain ++ [Router] ∧
    Stack =
      [ Logging, Recovery, KeyTagger, SavepointOnCheck, SigsDecorator, MultisigDecorator,
        DynamicFeeDecorator, HashlockDecorator, Router ] := by
  refine ⟨rfl, rfl, rfl⟩

end bnsd

/-! # Responses at the consensus boundary -/

namespace weave

open coin

/-- C29: translating a successful result never signals failure and copies the
payload: `c.ToABCI()` has `Code = 0`, `Data = c.Data`, `Log = c.Log` and
`GasWanted = c.GasAllocated`; `d.ToABCI()` has `Code = 0`, `Data = d.Data`,
`Log = d.Log` and `Tags = d.Tags`; `NewCheck(gas, log).ToABCI()` has
`Log = log`, `GasWanted = gas` and empty `Data`; `CheckOrError` and
`DeliverOrError` return exactly this translation when the error is nil. -/
theorem result_translation (c : CheckResult) (d : DeliverResult) (gas : Int) (log : String)
    {E : Type} (P : errors.Pkg E) (debug : Bool) :
    (c.ToABCI.Code = 0 ∧ c.ToABCI.Data = c.Data ∧ c.ToABCI.Log = c.Log ∧
      c.ToABCI.GasWanted = c.GasAllocated) ∧
    (d.ToABCI.Code = 0 ∧ d.ToABCI.Data = d.Data ∧ d.ToABCI.Log = d.Log ∧
      d.ToABCI.Tags = d.Tags) ∧
    ((NewCheck gas log).ToABCI.Log = log ∧ (NewCheck gas log).ToABCI.GasWanted = gas ∧
      (NewCheck gas log).ToABCI.Data = []) ∧
    CheckOrError P c none debug = c.ToABCI ∧
    DeliverOrError P d none debug = d.ToABCI :=
  ⟨⟨rfl, rfl, rfl, rfl⟩, ⟨rfl, rfl, rfl, rfl⟩, ⟨rfl, rfl, rfl⟩, rfl, rfl⟩

/-- C30: the debug flag influences only the log text of an error response:
for every error `e`, `DeliverTxError(e, true)` and `DeliverTxError(e, false)`
have the same code, and so have `CheckTxError(e, true)` and
`CheckTxError(e, false)`, whatever package `errors` does; and with the wrapping
of the specification, which keeps the kind, the deliver and the check response
of the same `e` carry the same code. -/
theorem error_code_independent_of_debug :
    (∀ (E : Type) (P : errors.Pkg E) (e : E),
      (DeliverTxError P e true).Code = (DeliverTxError P e false).Code ∧
      (CheckTxError P e true).Code = (CheckTxError P e false).Code ∧
      (DeliverTxError P e true).Data = (DeliverTxError P e false).Data ∧
      (DeliverTxError P e true).Tags = (DeliverTxError P e false).Tags ∧
      (CheckTxError P e true).Data = (CheckTxError P e false).Data ∧
      (CheckTxError P e true).GasWanted = (CheckTxError P e false).GasWanted) ∧
    (∀ (codeOf : ErrKind → Nat) (detail : errors.Error → String) (e : errors.Error)
        (d1 d2 : Bool),
      (DeliverTxError (errors.specPkg codeOf detail) e d1).Code
        = (CheckTxError (errors.specPkg codeOf detail) e d2).Code) := by
  refine ⟨fun E P e => ⟨rfl, rfl, rfl, rfl, rfl, rfl⟩, fun codeOf detail e d1 d2 => rfl⟩

end weave

/-! # Multisig decorator -/

namespace multisig

open coin coin.ErrKind weave

/-- C23: for a stored contract and a transaction that names it, the multisig
decorator authorizes if and only if the number of distinct contract
participants with an authenticated condition is at least the activation
threshold; on success `Check` and `Deliver` hand over to the next handler with
`MultiSigCondition(contractID)` contributed to the context, and on failure
they return `ErrUnauthorizedMultiSig(contractID)`. -/
theorem authorizes_iff_activation_threshold {Store Tx : Type} (env : Deps Store Tx)
    (auth : cash.Authenticator Context) (ctx : Context) (store : Store) (tx : Tx)
    (id : ContractID) (contract : Contract)
    (hid : env.GetMultisig tx = some id) (hne : id ≠ [])
    (hc : env.getContract store id = some contract) :
    ((authorize env auth ctx store tx).2 = none ↔
      ((contract.participants.dedup.filter (fun p => auth.HasAddress ctx p)).length
        ≥ contract.activationThreshold)) ∧
    ((contract.participants.dedup.filter (fun p => auth.HasAddress ctx p)).length
        ≥ contract.activationThreshold →
      (∀ next : cash.Checker Context Store Tx,
        Check env auth ctx store tx next = next (withMultisig ctx id) store tx) ∧
      (∀ next : cash.Deliverer Context Store Tx,
        Deliver env auth ctx store tx next = next (withMultisig ctx id) store tx) ∧
      GetConditions (withMultisig ctx id) = GetConditions ctx ++ [MultiSigCondition id] ∧
      (ctx.contracts = [] → GetConditions (withMultisig ctx id) = [MultiSigCondition id])) ∧
    ((contract.participants.dedup.filter (fun p => auth.HasAddress ctx p)).length
        < contract.activationThreshold →
      (∀ next : cash.Checker Context Store Tx,
        Check env auth ctx store tx next
          = (store, CheckResult.zero, some (ErrUnauthorizedMultiSig id))) ∧
      (∀ next : cash.Deliverer Context Store Tx,
        Deliver env auth ctx store tx next
          = (store, DeliverResult.zero, some (ErrUnauthorizedMultiSig id)))) := by
  have hauth : authorize env auth ctx store tx =
      if (contract.participants.dedup.filter (fun p => auth.HasAddress ctx p)).length
          ≥ contract.activationThreshold
      then (withMultisig ctx id, none) else (ctx, some (ErrUnauthorizedMultiSig id)) := by
    unfold authorize countAuthenticated
    simp only [hid, hne, if_false, hc]
  refine ⟨?_, ?_, ?_⟩
  · rw [hauth]
    split_ifs with h
    · simp [h]
    · simp [h]
  · intro h
    refine ⟨fun next => ?_, fun next => ?_, ?_, ?_⟩
    · unfold Check
      rw [hauth, if_pos h]
    · unfold Deliver
      rw [hauth, if_pos h]
    · simp [GetConditions, withMultisig]
    · intro h0
      simp [GetConditions, withMultisig, h0]
  · intro h
    have h' : ¬ (contract.participants.dedup.filter (fun p => auth.HasAddress ctx p)).length
        ≥ contract.activationThreshold := by omega
    refine ⟨fun next => ?_, fun next => ?_⟩
    · unfold Check
      rw [hauth, if_neg h']
    · unfold Deliver
      rw [hauth, if_neg h']

/-- Witness for C23: participants `[1]`, `[2]`, `[3]` with activation
threshold 2 and admin threshold 3 authorize with signers `[1]`, `[2]` and
reject with the signer `[1]` alone. -/
theorem authorizes_iff_activation_threshold_witness :
    demoDeps.GetMultisig (some [42]) = some [42] ∧
    ([42] : ContractID) ≠ [] ∧
    demoDeps.getContract () [42]
      = some { participants := [[1], [2], [3]], activationThreshold := 2,
               adminThreshold := 3 } ∧
    (authorize demoDeps (demoAuth [[1], [2]]) { signers := [], contracts := [] } ()
        (some [42])).2 = none ∧
    GetConditions (authorize demoDeps (demoAuth [[1], [2]])
        { signers := [], contracts := [] } () (some [42])).1 = [MultiSigCondition [42]] ∧
    Check demoDeps (demoAuth [[1]]) { signers := [], contracts := [] } () (some [42])
        demoChecker
      = ((), CheckResult.zero, some (ErrUnauthorizedMultiSig [42])) ∧
    Deliver demoDeps (demoAuth [[1]]) { signers := [], contracts := [] } () (some [42])
        demoDeliverer
      = ((), DeliverResult.zero, some (ErrUnauthorizedMultiSig [42])) :=
  ⟨rfl, by decide, rfl,
    (authorizes_iff_activation_threshold demoDeps (demoAuth [[1], [2]])
      { signers := [], contracts := [] } () (some [42]) [42]
      { participants := [[1], [2], [3]], activationThreshold := 2, adminThreshold := 3 }
      rfl (by decide) rfl).1.2 (by decide),
    by decide,
    ((authorizes_iff_activation_threshold demoDeps (demoAuth [[1]])
      { signers := [], contracts := [] } () (some [42]) [42]
      { participants := [[1], [2], [3]], activationThreshold := 2, adminThreshold := 3 }
      rfl (by decide) rfl).2.2 (by decide)).1 demoChecker,
    ((authorizes_iff_activation_threshold demoDeps (demoAuth [[1]])
      { signers := [], contracts := [] } () (some [42]) [42]
      { participants := [[1], [2], [3]], activationThreshold := 2, adminThreshold := 3 }
      rfl (by decide) rfl).2.2 (by decide)).2 demoDeliverer⟩

/-- C24: a transaction that does not have the multisig shape, or has it with an
empty multisig id, passes through the multisig decorator unchanged in `Check`
and `Deliver`: the decorator returns no error of its own, the next handler is
called, and its context is the one given, with no multisig condition added. -/
theorem pass_through_without_multisig {Store Tx : Type} (env : Deps Store Tx)
    (auth : cash.Authenticator Context) (ctx : Context) (store : Store) (tx : Tx)
    (h : env.GetMultisig tx = none ∨ env.GetMultisig tx = some []) :
    authorize env auth ctx store tx = (ctx, none) ∧
    (∀ next : cash.Checker Context Store Tx,
      Check env auth ctx store tx next = next ctx store tx) ∧
    (∀ next : cash.Deliverer Context Store Tx,
      Deliver env auth ctx store tx next = next ctx store tx) := by
  have hauth : authorize env auth ctx store tx = (ctx, none) := by
    unfold authorize
    rcases h with h | h
    · simp only [h]
    · simp only [h, if_true]
  refine ⟨hauth, fun next => ?_, fun next => ?_⟩
  · unfold Check
    rw [hauth]
  · unfold Deliver
    rw [hauth]

/-- Witness for C24: a transaction without the multisig shape and one with an
empty multisig id, both with signer `[1]`; the next handler sees no multisig
condition. -/
theorem pass_through_without_multisig_witness :
    (demoDeps.GetMultisig none = none ∨ demoDeps.GetMultisig none = some []) ∧
    Check demoDeps (demoAuth [[1]]) { signers := [], contracts := [] } () none demoChecker
      = demoChecker { signers := [], contracts := [] } () none ∧
    (demoDeps.GetMultisig (some []) = none ∨ demoDeps.GetMultisig (some []) = some []) ∧
    Deliver demoDeps (demoAuth [[1]]) { signers := [], contracts := [] } () (some [])
        demoDeliverer
      = demoDeliverer { signers := [], contracts := [] } () (some []) ∧
    GetConditions { signers := [], contracts := [] } = [] :=
  ⟨Or.inl rfl,
    (pass_through_without_multisig demoDeps (demoAuth [[1]])
      { signers := [], contracts := [] } () none (Or.inl rfl)).2.1 demoChecker,
    Or.inr rfl,
    (pass_through_without_multisig demoDeps (demoAuth [[1]])
      { signers := [], contracts := [] } () (some []) (Or.inr rfl)).2.2 demoDeliverer,
    rfl⟩

end multisig

/-! # Normalized coin sets -/

namespace coin

open ErrKind

/-! ## The order of tickers -/

theorem lexLT_irrefl (a : List Char) : lexLT a a = false := by
  induction a with
  | nil => rfl
  | cons x xs ih => simp [lexLT, ih]

theorem lexLT_trans : ∀ (a b c : List Char), lexLT a b = true → lexLT b c = true →
    lexLT a c = true := by
  intro a
  induction a with
  | nil =>
    intro b c hab hbc
    cases b with
    | nil => simp [lexLT] at hab
    | cons y ys =>
      cases c with
      | nil => simp [lexLT] at hbc
      | cons z zs => simp [lexLT]
  | cons x xs ih =>
    intro b c hab hbc
    cases b with
    | nil => simp [lexLT] at hab
    | cons y ys =>
      cases c with
      | nil => simp [lexLT] at hbc
      | cons z zs =>
        simp only [lexLT, Bool.or_eq_true, decide_eq_true_eq, Bool.and_eq_true,
          beq_iff_eq] at hab hbc ⊢
        rcases hab with hxy | ⟨hxy, hxs⟩
        · rcases hbc with hyz | ⟨hyz, -⟩
          · exact Or.inl (lt_trans hxy hyz)
          · exact Or.inl (hyz ▸ hxy)
        · rcases hbc with hyz | ⟨hyz, hys⟩
          · exact Or.inl (hxy ▸ hyz)
          · exact Or.inr ⟨hxy.trans hyz, ih ys zs hxs hys⟩

theorem lexLT_connex : ∀ (a b : List Char), lexLT a b = false → lexLT b a = false →
    a = b := by
  intro a
  induction a with
  | nil =>
    intro b hab _
    cases b with
    | nil => rfl
    | cons y ys => simp [lexLT] at hab
  | cons x xs ih =>
    intro b hab hba
    cases b with
    | nil => simp [lexLT] at hba
    | cons y ys =>
      simp only [lexLT, Bool.or_eq_false_iff, decide_eq_false_iff_not, Bool.and_eq_false_imp,
        beq_iff_eq, not_lt] at hab hba
      have hxy : x = y := le_antisymm hba.1 hab.1
      subst hxy
      rw [ih ys (hab.2 rfl) (hba.2 rfl)]

theorem tickerLT_irrefl (s : String) : tickerLT s s = false := lexLT_irrefl _

theorem tickerLT_trans {s t u : String} (h1 : tickerLT s t = true) (h2 : tickerLT t u = true) :
    tickerLT s u = true := lexLT_trans _ _ _ h1 h2

theorem tickerLT_asymm {s t : String} (h : tickerLT s t = true) : tickerLT t s = false := by
  cases h2 : tickerLT t s with
  | false => rfl
  | true =>
    have := tickerLT_trans h h2
    rw [tickerLT_irrefl] at this
    exact absurd this (by decide)

theorem ticker_eq_of_not_lt {s t : String} (h1 : tickerLT s t = false)
    (h2 : tickerLT t s = false) : s = t := by
  have := lexLT_connex _ _ h1 h2
  cases s
  cases t
  simp only at this
  rw [this]

theorem tickerLE_total (s t : String) : tickerLE s t = true ∨ tickerLE t s = true := by
  unfold tickerLE
  cases h : tickerLT t s with
  | false => exact Or.inl rfl
  | true => exact Or.inr (by rw [tickerLT_asymm h]; rfl)

theorem tickerLE_trans {s t u : String} (h1 : tickerLE s t = true) (h2 : tickerLE t u = true) :
    tickerLE s u = true := by
  unfold tickerLE at *
  simp only [Bool.not_eq_true', ] at *
  cases h : tickerLT u s with
  | false => rfl
  | true =>
    exfalso
    cases hst : tickerLT s t with
    | false =>
      have hs : s = t := ticker_eq_of_not_lt hst h1
      subst hs
      rw [h] at h2
      exact absurd h2 (by decide)
    | true =>
      have := tickerLT_trans h hst
      rw [h2] at this
      exact absurd this (by decide)

theorem tickerLE_antisymm {s t : String} (h1 : tickerLE s t = true) (h2 : tickerLE t s = true) :
    s = t := by
  unfold tickerLE at *
  simp only [Bool.not_eq_true'] at *
  exact ticker_eq_of_not_lt h2 h1

theorem tickerLT_of_le_of_ne {s t : String} (h1 : tickerLE s t = true) (h2 : s ≠ t) :
    tickerLT s t = true := by
  unfold tickerLE at h1
  simp only [Bool.not_eq_true'] at h1
  cases h : tickerLT s t with
  | true => rfl
  | false => exact absurd (ticker_eq_of_not_lt h h1) h2

theorem tickerLE_of_lt {s t : String} (h : tickerLT s t = true) : tickerLE s t = true := by
  unfold tickerLE
  rw [tickerLT_asymm h]
  rfl

/-! ## The sorted tickers of a list of coins -/

theorem mem_sortedTickers (cs : List Coin) (t : String) :
    t ∈ sortedTickers cs ↔ t ∈ cs.map Coin.Ticker := by
  unfold sortedTickers
  rw [(List.perm_insertionSort _ _).mem_iff, List.mem_dedup]

theorem sortedTickers_nodup (cs : List Coin) : (sortedTickers cs).Nodup := by
  unfold sortedTickers
  rw [(List.perm_insertionSort _ _).nodup_iff]
  exact List.nodup_dedup _

theorem sortedTickers_sorted_le (cs : List Coin) :
    List.Sorted (fun s t => tickerLE s t = true) (sortedTickers cs) :=
  @List.sorted_insertionSort _ (fun s t => tickerLE s t = true) _
    ⟨tickerLE_total⟩ ⟨fun _ _ _ h1 h2 => tickerLE_trans h1 h2⟩ _

theorem sortedTickers_sorted_lt (cs : List Coin) :
    List.Pairwise (fun s t => tickerLT s t = true) (sortedTickers cs) := by
  have h1 : List.Pairwise (fun s t => tickerLE s t = true) (sortedTickers cs) :=
    sortedTickers_sorted_le cs
  have h2 : List.Pairwise (fun s t => s ≠ t) (sortedTickers cs) := sortedTickers_nodup cs
  exact (h1.and h2).imp (fun h => tickerLT_of_le_of_ne h.1 h.2)

theorem sortedTickers_perm {cs cs' : List Coin} (h : cs'.Perm cs) :
    sortedTickers cs' = sortedTickers cs := by
  have hp : (sortedTickers cs').Perm (sortedTickers cs) := by
    unfold sortedTickers
    exact ((List.perm_insertionSort _ _).trans ((h.map _).dedup)).trans
      (List.perm_insertionSort _ _).symm
  exact @List.eq_of_perm_of_sorted _ (fun s t => tickerLE s t = true)
    ⟨fun _ _ h1 h2 => tickerLE_antisymm h1 h2⟩ _ _ hp
    (sortedTickers_sorted_le cs') (sortedTickers_sorted_le cs)

end coin

namespace Coin

open coin coin.ErrKind

/-! ## `Add` keeps the ticker -/

theorem raiseFrac_ticker (n : Nat) : ∀ c : Coin, (raiseFrac n c).Ticker = c.Ticker := by
  induction n with
  | zero => intro c; rfl
  | succ k ih =>
    intro c
    unfold raiseFrac
    split_ifs
    · rw [ih]
    · rfl

theorem lowerFrac_ticker (n : Nat) : ∀ c : Coin, (lowerFrac n c).Ticker = c.Ticker := by
  induction n with
  | zero => intro c; rfl
  | succ k ih =>
    intro c
    unfold lowerFrac
    split_ifs
    · rw [ih]
    · rfl

theorem fixSigns_ticker (c : Coin) : (fixSigns c).Ticker = c.Ticker := by
  unfold fixSigns
  split_ifs <;> rfl

theorem normalize_ticker (c : Coin) (h : (normalize c).2 = none) :
    (normalize c).1.Ticker = c.Ticker := by
  unfold normalize at h ⊢
  simp only at h ⊢
  by_cases hr : (fixSigns (lowerFrac ((raiseFrac (MinFrac - c.Fractional).toNat c).Fractional
      - MaxFrac).toNat (raiseFrac (MinFrac - c.Fractional).toNat c))).Whole < MinInt ∨
      (fixSigns (lowerFrac ((raiseFrac (MinFrac - c.Fractional).toNat c).Fractional
      - MaxFrac).toNat (raiseFrac (MinFrac - c.Fractional).toNat c))).Whole > MaxInt
  · rw [if_pos hr] at h
    simp at h
  · rw [if_neg hr]
    simp only
    rw [fixSigns_ticker, lowerFrac_ticker, raiseFrac_ticker]

theorem Add_ticker (a b : Coin) (ht : a.Ticker = b.Ticker) (h : (a.Add b).2 = none) :
    (a.Add b).1.Ticker = a.Ticker := by
  unfold Add SameType at h ⊢
  by_cases h1 : (a.Ticker == "" && a.IsZero) = true
  · rw [if_pos h1]
    exact ht.symm
  · rw [if_neg h1] at h ⊢
    by_cases h2 : (b.Ticker == "" && b.IsZero) = true
    · rw [if_pos h2]
    · rw [if_neg h2] at h ⊢
      have h3 : ¬ (!(a.Ticker == b.Ticker)) = true := by simp [ht]
      rw [if_neg h3] at h ⊢
      rw [normalize_ticker _ h]

end Coin

namespace coin

open ErrKind

theorem addFrom_ticker : ∀ (rest : List Coin) (acc : Coin),
    (∀ c ∈ rest, c.Ticker = acc.Ticker) → (addFrom acc rest).2 = none →
    (addFrom acc rest).1.Ticker = acc.Ticker := by
  intro rest
  induction rest with
  | nil => intro acc _ _; rfl
  | cons x xs ih =>
    intro acc hall h
    have hx : acc.Ticker = x.Ticker := (hall x (List.mem_cons_self _ _)).symm
    rcases hadd : acc.Add x with ⟨s, _ | err⟩
    · simp only [addFrom, hadd] at h ⊢
      have hs : s.Ticker = acc.Ticker := by
        have := Coin.Add_ticker acc x hx (by rw [hadd])
        rw [hadd] at this
        exact this
      rw [ih s (fun c hc => by rw [hs]; exact hall c (List.mem_cons_of_mem _ hc)) h, hs]
    · simp [addFrom, hadd] at h

/-- The sum of the entries of a ticker that occurs in the list has that
ticker. -/
theorem sumTicker_ticker (t : String) (cs : List Coin) (ht : t ∈ cs.map Coin.Ticker)
    (h : (sumTicker t cs).2 = none) : (sumTicker t cs).1.Ticker = t := by
  unfold sumTicker at h ⊢
  have hall : ∀ c ∈ cs.filter (fun c => c.Ticker == t), c.Ticker = t := by
    intro c hc
    have := (List.mem_filter.1 hc).2
    simpa using this
  have hne : cs.filter (fun c => c.Ticker == t) ≠ [] := by
    obtain ⟨c, hc, hct⟩ := List.mem_map.1 ht
    intro hnil
    have : c ∈ cs.filter (fun c => c.Ticker == t) :=
      List.mem_filter.2 ⟨hc, by simp [hct]⟩
    rw [hnil] at this
    exact absurd this (List.not_mem_nil _)
  cases hfl : cs.filter (fun c => c.Ticker == t) with
  | nil => exact absurd hfl hne
  | cons c rest =>
    rw [hfl] at h hall
    simp only at h ⊢
    have hc : c.Ticker = t := hall c (List.mem_cons_self _ _)
    rw [addFrom_ticker rest c
      (fun x hx => by rw [hc]; exact hall x (List.mem_cons_of_mem _ hx)) h, hc]

/-! ## What `collectSums` returns -/

/-- When `collectSums` succeeds, every ticker was summed without error, the
output is the list of the non-zero sums in the order of the tickers. -/
theorem collectSums_ok : ∀ (ts : List String) (cs : List Coin),
    (collectSums ts cs).2 = none →
    (∀ t ∈ ts, (sumTicker t cs).2 = none) ∧
    (collectSums ts cs).1 =
      (ts.map (fun t => (sumTicker t cs).1)).filter (fun s => !s.IsZero) := by
  intro ts
  induction ts with
  | nil =>
    intro cs _
    exact ⟨fun t ht => absurd ht (List.not_mem_nil _), rfl⟩
  | cons t ts ih =>
    intro cs h
    rcases hs : sumTicker t cs with ⟨s, _ | err⟩
    · rcases hr : collectSums ts cs with ⟨rest, _ | err2⟩
      · obtain ⟨ih1, ih2⟩ := ih cs (by rw [hr])
        rw [hr] at ih2
        simp only at ih2
        refine ⟨?_, ?_⟩
        · intro u hu
          rcases List.mem_cons.1 hu with hu | hu
          · rw [hu, hs]
          · exact ih1 u hu
        · simp only [collectSums, hs, hr, List.map_cons, List.filter_cons]
          cases hz : s.IsZero with
          | true => simp [ih2]
          | false => simp [ih2]
      · simp [collectSums, hs, hr] at h
    · simp [collectSums, hs] at h

/-- `collectSums` succeeds as soon as every ticker can be summed. -/
theorem collectSums_of_all_ok : ∀ (ts : List String) (cs : List Coin),
    (∀ t ∈ ts, (sumTicker t cs).2 = none) →
    collectSums ts cs =
      ((ts.map (fun t => (sumTicker t cs).1)).filter (fun s => !s.IsZero), none) := by
  intro ts
  induction ts with
  | nil => intro cs _; rfl
  | cons t ts ih =>
    intro cs h
    have ht := h t (List.mem_cons_self _ _)
    have hrest := ih cs (fun u hu => h u (List.mem_cons_of_mem _ hu))
    rcases hs : sumTicker t cs with ⟨s, e⟩
    rw [hs] at ht
    simp only at ht
    subst ht
    simp only [collectSums, hs, hrest, List.map_cons, List.filter_cons]
    cases hz : s.IsZero <;> simp

end coin

namespace coin

open ErrKind

/-! ## The output of `NormalizeCoins` -/

theorem NormalizeCoins_ok_eq (cs : List Coin) (h : (NormalizeCoins cs).2 = none) :
    (∀ t ∈ sortedTickers cs, (sumTicker t cs).2 = none) ∧
    (NormalizeCoins cs).1 =
      ((sortedTickers cs).map (fun t => (sumTicker t cs).1)).filter (fun s => !s.IsZero) :=
  collectSums_ok (sortedTickers cs) cs h

/-- A coin is in the output exactly when it is the non-zero sum of the entries
of its ticker. -/
theorem mem_NormalizeCoins (cs : List Coin) (h : (NormalizeCoins cs).2 = none) (c : Coin) :
    c ∈ (NormalizeCoins cs).1 ↔
      (c.Ticker ∈ cs.map Coin.Ticker ∧ sumTicker c.Ticker cs = (c, none) ∧
        c.IsZero = false) := by
  obtain ⟨hall, heq⟩ := NormalizeCoins_ok_eq cs h
  rw [heq, List.mem_filter, List.mem_map]
  constructor
  · rintro ⟨⟨t, ht, hc⟩, hz⟩
    have htk : (sumTicker t cs).1.Ticker = t :=
      sumTicker_ticker t cs ((mem_sortedTickers cs t).1 ht) (hall t ht)
    have hct : c.Ticker = t := by rw [← hc]; exact htk
    refine ⟨by rw [hct]; exact (mem_sortedTickers cs t).1 ht, ?_, by simpa using hz⟩
    rw [hct]
    exact Prod.ext hc (hall t ht)
  · rintro ⟨ht, hs, hz⟩
    exact ⟨⟨c.Ticker, (mem_sortedTickers cs _).2 ht, by rw [hs]⟩, by simp [hz]⟩

/-- The output is sorted strictly ascending by ticker. -/
theorem NormalizeCoins_sorted (cs : List Coin) (h : (NormalizeCoins cs).2 = none) :
    List.Pairwise (fun a b : Coin => tickerLT a.Ticker b.Ticker = true)
      (NormalizeCoins cs).1 := by
  obtain ⟨hall, heq⟩ := NormalizeCoins_ok_eq cs h
  rw [heq]
  apply List.Pairwise.sublist (List.filter_sublist _)
  rw [List.pairwise_map]
  apply List.Pairwise.imp_of_mem _ (sortedTickers_sorted_lt cs)
  intro t u ht hu htu
  rw [sumTicker_ticker t cs ((mem_sortedTickers cs t).1 ht) (hall t ht),
    sumTicker_ticker u cs ((mem_sortedTickers cs u).1 hu) (hall u hu)]
  exact htu

/-- A list of coins that is sorted strictly ascending by ticker has no ticker
twice. -/
theorem nodup_tickers_of_sorted {l : List Coin}
    (h : List.Pairwise (fun a b : Coin => tickerLT a.Ticker b.Ticker = true) l) :
    (l.map Coin.Ticker).Nodup := by
  unfold List.Nodup
  rw [List.pairwise_map]
  apply h.imp
  intro a b hab he
  rw [he, tickerLT_irrefl] at hab
  exact absurd hab (by decide)

/-- A list of coins that is sorted strictly ascending by ticker and has no
zero coin satisfies `isNormalized`. -/
theorem isNormalizedFrom_of_sorted : ∀ (l : List Coin) (prev : Option String),
    List.Pairwise (fun a b : Coin => tickerLT a.Ticker b.Ticker = true) l →
    (∀ c ∈ l, c.IsZero = false) →
    (∀ p, prev = some p → ∀ c ∈ l, tickerLT p c.Ticker = true) →
    isNormalizedFrom prev (l.map some) = true := by
  intro l
  induction l with
  | nil => intro prev _ _ _; rfl
  | cons x xs ih =>
    intro prev hs hz hp
    rw [List.pairwise_cons] at hs
    have hx : x.IsZero = false := hz x (List.mem_cons_self _ _)
    have hrest := ih (some x.Ticker) hs.2 (fun c hc => hz c (List.mem_cons_of_mem _ hc))
      (fun p hpe c hc => by
        cases hpe
        exact hs.1 c hc)
    simp only [List.map_cons, isNormalizedFrom, hx, Bool.not_false, Bool.true_and, hrest,
      Bool.and_true]
    cases prev with
    | none => rfl
    | some p => exact hp p rfl x (List.mem_cons_self _ _)

/-- Adding up zero coins of one ticker gives a zero coin and no error. -/
theorem addFrom_zero : ∀ (rest : List Coin) (acc : Coin),
    acc.IsZero = true → (∀ c ∈ rest, c.IsZero = true ∧ c.Ticker = acc.Ticker) →
    (addFrom acc rest).2 = none ∧ (addFrom acc rest).1.IsZero = true := by
  intro rest
  induction rest with
  | nil => intro acc h _; exact ⟨rfl, h⟩
  | cons x xs ih =>
    intro acc hacc hall
    obtain ⟨hxz, hxt⟩ := hall x (List.mem_cons_self _ _)
    have hadd : acc.Add x = (x, none) ∨
        acc.Add x = ({ Whole := 0, Fractional := 0, Ticker := acc.Ticker }, none) := by
      unfold Coin.IsZero at hacc hxz
      simp only [Bool.and_eq_true, beq_iff_eq] at hacc hxz
      unfold Coin.Add Coin.SameType Coin.IsZero
      by_cases h1 : (acc.Ticker == "" && (acc.Whole == 0 && acc.Fractional == 0)) = true
      · left
        rw [if_pos h1]
      · rw [if_neg h1]
        by_cases h2 : (x.Ticker == "" && (x.Whole == 0 && x.Fractional == 0)) = true
        · exfalso
          apply h1
          simp only [Bool.and_eq_true, beq_iff_eq] at h2 ⊢
          exact ⟨by rw [← hxt]; exact h2.1, hacc⟩
        · rw [if_neg h2]
          right
          simp only [hxt, beq_self_eq_true, Bool.not_true, Bool.false_eq_true, if_false,
            hacc.1, hacc.2, hxz.1, hxz.2]
          rw [Coin.normalize_of_normal _ (by simp only; decide) (by simp only; decide)
            (by simp only; decide)]
          simp only [Int.add_zero]
          have hw : wrap64 0 = 0 := by decide
          rw [hw, ← hxt]
    rcases hadd with hadd | hadd
    · simp only [addFrom, hadd]
      exact ih x hxz (fun c hc => by
        rw [hxt]
        exact hall c (List.mem_cons_of_mem _ hc))
    · simp only [addFrom, hadd]
      exact ih _ rfl (fun c hc => hall c (List.mem_cons_of_mem _ hc))

/-- An input of zero coins only is normalized to the empty list. -/
theorem NormalizeCoins_all_zero (cs : List Coin) (hz : ∀ c ∈ cs, c.IsZero = true) :
    NormalizeCoins cs = ([], none) := by
  have hsum : ∀ t ∈ sortedTickers cs,
      (sumTicker t cs).2 = none ∧ (sumTicker t cs).1.IsZero = true := by
    intro t _
    unfold sumTicker
    cases hfl : cs.filter (fun c => c.Ticker == t) with
    | nil => exact ⟨rfl, rfl⟩
    | cons c rest =>
      simp only
      have hmem : ∀ x ∈ c :: rest, x.IsZero = true ∧ x.Ticker = t := by
        intro x hx
        rw [← hfl] at hx
        have := List.mem_filter.1 hx
        exact ⟨hz x this.1, by simpa using this.2⟩
      have hc := hmem c (List.mem_cons_self _ _)
      exact addFrom_zero rest c hc.1 (fun x hx => by
        rw [hc.2]
        exact hmem x (List.mem_cons_of_mem _ hx))
  unfold NormalizeCoins
  rw [collectSums_of_all_ok _ _ (fun t ht => (hsum t ht).1)]
  congr 1
  rw [List.filter_eq_nil_iff]
  intro s hs
  obtain ⟨t, ht, hst⟩ := List.mem_map.1 hs
  rw [← hst, (hsum t ht).2]
  decide

end coin

namespace coin

open ErrKind

/-! ## Normalizing a normalized list -/

theorem filter_ticker_eq_singleton : ∀ (l : List Coin), (l.map Coin.Ticker).Nodup →
    ∀ c ∈ l, l.filter (fun x => x.Ticker == c.Ticker) = [c] := by
  intro l
  induction l with
  | nil => intro _ c hc; exact absurd hc (List.not_mem_nil _)
  | cons x xs ih =>
    intro hnd c hc
    rw [List.map_cons, List.nodup_cons] at hnd
    rcases List.mem_cons.1 hc with hcx | hcx
    · subst hcx
      rw [List.filter_cons_of_pos (by simp)]
      congr 1
      rw [List.filter_eq_nil_iff]
      intro y hy hyc
      apply hnd.1
      have : y.Ticker = c.Ticker := by simpa using hyc
      rw [← this]
      exact List.mem_map_of_mem _ hy
    · have hne : ¬ (x.Ticker == c.Ticker) = true := by
        intro he
        apply hnd.1
        have : x.Ticker = c.Ticker := by simpa using he
        rw [this]
        exact List.mem_map_of_mem _ hcx
      rw [List.filter_cons, if_neg hne]
      exact ih hnd.2 c hcx

/-- A list that is sorted strictly ascending by ticker and has no zero coin is
returned by `NormalizeCoins` as it is. -/
theorem NormalizeCoins_of_normalized (l : List Coin)
    (hs : List.Pairwise (fun a b : Coin => tickerLT a.Ticker b.Ticker = true) l)
    (hz : ∀ c ∈ l, c.IsZero = false) :
    NormalizeCoins l = (l, none) := by
  have hnd : (l.map Coin.Ticker).Nodup := nodup_tickers_of_sorted hs
  have hts : sortedTickers l = l.map Coin.Ticker := by
    unfold sortedTickers
    rw [List.Nodup.dedup hnd]
    apply List.Sorted.insertionSort_eq
    unfold List.Sorted
    rw [List.pairwise_map]
    exact hs.imp (fun h => tickerLE_of_lt h)
  have hsum : ∀ c ∈ l, sumTicker c.Ticker l = (c, none) := by
    intro c hc
    unfold sumTicker
    rw [filter_ticker_eq_singleton l hnd c hc]
    rfl
  unfold NormalizeCoins
  rw [hts, collectSums_of_all_ok _ _ (fun t ht => by
    obtain ⟨c, hc, hct⟩ := List.mem_map.1 ht
    rw [← hct, hsum c hc])]
  congr 1
  rw [List.map_map]
  have hmap : l.map ((fun t => (sumTicker t l).1) ∘ Coin.Ticker) = l := by
    conv_rhs => rw [← List.map_id l]
    apply List.map_congr_left
    intro c hc
    simp only [Function.comp, id, hsum c hc]
  rw [hmap, List.filter_eq_self]
  intro c hc
  simp [hz c hc]

end coin

namespace Coin

open coin coin.ErrKind

/-! ## Sums of valid coins -/

/-- A successful `Add` of two valid coins of one ticker gives a valid coin of
that ticker whose exact value is the sum of the exact values. -/
theorem Add_valid_ok (a b : Coin) (ha : a.Validate = none) (hb : b.Validate = none)
    (ht : a.Ticker = b.Ticker) (h : (a.Add b).2 = none) :
    (a.Add b).1.Validate = none ∧ (a.Add b).1.Ticker = a.Ticker ∧
    exactValue (a.Add b).1 = exactValue a + exactValue b := by
  obtain ⟨hca, ⟨haW1, haW2⟩, ⟨haF1, haF2⟩, -⟩ := (validate_eq_none_iff a).1 ha
  obtain ⟨hcb, ⟨hbW1, hbW2⟩, ⟨hbF1, hbF2⟩, -⟩ := (validate_eq_none_iff b).1 hb
  rw [Add_eq_normalize_of_valid a b ha hb ht] at h ⊢
  obtain ⟨-, h2, -⟩ := normalize_small
    { Whole := a.Whole + b.Whole, Fractional := a.Fractional + b.Fractional,
      Ticker := a.Ticker }
    (by simp only; unfold MinInt MaxInt at *; omega)
    (by simp only; unfold MinInt MaxInt at *; omega)
    (by simp only; unfold MinFrac MaxFrac FracUnit at *; omega)
    (by simp only; unfold MinFrac MaxFrac FracUnit at *; omega)
  obtain ⟨ht', hval, hW, hF, hs⟩ := h2 h
  refine ⟨?_, ht', ?_⟩
  · rw [validate_eq_none_iff]
    refine ⟨?_, hW, hF, hs⟩
    rw [ht']
    exact hca
  · rw [hval]
    simp only [exactValue]
    ring

/-- Two valid coins of one ticker with the same exact value are equal. -/
theorem eq_of_valid_of_exactValue_eq (a b : Coin) (ha : a.Validate = none)
    (hb : b.Validate = none) (ht : a.Ticker = b.Ticker)
    (hv : exactValue a = exactValue b) : a = b := by
  obtain ⟨-, -, ⟨haF1, haF2⟩, has⟩ := (validate_eq_none_iff a).1 ha
  obtain ⟨-, -, ⟨hbF1, hbF2⟩, hbs⟩ := (validate_eq_none_iff b).1 hb
  simp only [exactValue] at hv
  unfold MinFrac MaxFrac FracUnit at *
  cases a
  cases b
  simp only at *
  simp only [Coin.mk.injEq]
  refine ⟨by omega, by omega, ht⟩

/-- A successful `Add` of two coins of one ticker that satisfy the invariants
of a value gives a coin of that ticker that satisfies them too and whose exact
value is the sum of the exact values. -/
theorem Add_normal_ok (a b : Coin) (ha : isNormalCoin a) (hb : isNormalCoin b)
    (ht : a.Ticker = b.Ticker) (h : (a.Add b).2 = none) :
    isNormalCoin (a.Add b).1 ∧ (a.Add b).1.Ticker = a.Ticker ∧
    exactValue (a.Add b).1 = exactValue a + exactValue b := by
  obtain ⟨⟨haW1, haW2⟩, ⟨haF1, haF2⟩, has⟩ := ha
  obtain ⟨⟨hbW1, hbW2⟩, ⟨hbF1, hbF2⟩, hbs⟩ := hb
  by_cases h1 : (a.Ticker == "" && a.IsZero) = true
  · have hadd : a.Add b = (b, none) := by
      unfold Add
      rw [if_pos h1]
    have hz : a.Whole = 0 ∧ a.Fractional = 0 := by
      have hz0 : a.IsZero = true := (Bool.and_eq_true_iff.1 h1).2
      simpa [IsZero] using hz0
    rw [hadd]
    refine ⟨⟨⟨hbW1, hbW2⟩, ⟨hbF1, hbF2⟩, hbs⟩, ht.symm, ?_⟩
    simp only [exactValue, hz.1, hz.2]
    ring
  · by_cases h2 : (b.Ticker == "" && b.IsZero) = true
    · have hadd : a.Add b = (a, none) := by
        unfold Add
        rw [if_neg h1, if_pos h2]
      have hz : b.Whole = 0 ∧ b.Fractional = 0 := by
        have hz0 : b.IsZero = true := (Bool.and_eq_true_iff.1 h2).2
        simpa [IsZero] using hz0
      rw [hadd]
      refine ⟨⟨⟨haW1, haW2⟩, ⟨haF1, haF2⟩, has⟩, rfl, ?_⟩
      simp only [exactValue, hz.1, hz.2]
      ring
    · have hw : wrap64 (a.Whole + b.Whole) = a.Whole + b.Whole := by
        apply wrap64_eq_of_bounds <;> (unfold MinInt MaxInt at *; omega)
      have hf : wrap64 (a.Fractional + b.Fractional) = a.Fractional + b.Fractional := by
        apply wrap64_eq_of_bounds <;> (unfold MinFrac MaxFrac FracUnit at *; omega)
      have hst : (!a.SameType b) = false := by
        simp [SameType, ht]
      have hadd : a.Add b = normalize (Coin.mk (a.Whole + b.Whole)
          (a.Fractional + b.Fractional) a.Ticker) := by
        unfold Add
        rw [if_neg h1, if_neg h2, hst, hw, hf]
        simp
      rw [hadd] at h ⊢
      have hsmall := (normalize_small (Coin.mk (a.Whole + b.Whole)
          (a.Fractional + b.Fractional) a.Ticker)
        (by simp only; unfold MinInt MaxInt at *; omega)
        (by simp only; unfold MinInt MaxInt at *; omega)
        (by simp only; unfold MinFrac MaxFrac FracUnit at *; omega)
        (by simp only; unfold MinFrac MaxFrac FracUnit at *; omega)).2.1 h
      obtain ⟨ht', hval, hW, hF, hs⟩ := hsmall
      refine ⟨⟨hW, hF, hs⟩, ht', ?_⟩
      rw [hval]
      simp only [exactValue]
      ring

/-- Two coins of one ticker that satisfy the invariants of a value and have
the same exact value are equal. -/
theorem eq_of_normal_of_exactValue_eq (a b : Coin) (ha : isNormalCoin a)
    (hb : isNormalCoin b) (ht : a.Ticker = b.Ticker)
    (hv : exactValue a = exactValue b) : a = b := by
  obtain ⟨-, ⟨haF1, haF2⟩, has⟩ := ha
  obtain ⟨-, ⟨hbF1, hbF2⟩, hbs⟩ := hb
  simp only [exactValue] at hv
  unfold MinFrac MaxFrac FracUnit at *
  cases a
  cases b
  simp only at *
  simp only [Coin.mk.injEq]
  refine ⟨by omega, by omega, ht⟩

end Coin

namespace coin

open ErrKind

/-- A successful sum of coins of one ticker that satisfy the invariants of a
value satisfies them too, has that ticker, and its exact value is the sum of
the exact values. -/
theorem addFrom_normal : ∀ (rest : List Coin) (acc : Coin), isNormalCoin acc →
    (∀ c ∈ rest, isNormalCoin c ∧ c.Ticker = acc.Ticker) →
    (addFrom acc rest).2 = none →
    isNormalCoin (addFrom acc rest).1 ∧ (addFrom acc rest).1.Ticker = acc.Ticker ∧
    exactValue (addFrom acc rest).1 = exactValue acc + (rest.map exactValue).sum := by
  intro rest
  induction rest with
  | nil =>
    intro acc hacc _ _
    exact ⟨hacc, rfl, by simp [addFrom]⟩
  | cons x xs ih =>
    intro acc hacc hall h
    obtain ⟨hxv, hxt⟩ := hall x (List.mem_cons_self _ _)
    rcases hadd : acc.Add x with ⟨s, _ | err⟩
    · simp only [addFrom, hadd] at h ⊢
      have hok := Coin.Add_normal_ok acc x hacc hxv hxt.symm (by rw [hadd])
      rw [hadd] at hok
      simp only at hok
      obtain ⟨hsv, hst, hsval⟩ := hok
      obtain ⟨r1, r2, r3⟩ := ih s hsv (fun c hc => by
        rw [hst]
        exact hall c (List.mem_cons_of_mem _ hc)) h
      refine ⟨r1, by rw [r2, hst], ?_⟩
      rw [r3, hsval, List.map_cons, List.sum_cons]
      ring
    · simp [addFrom, hadd] at h

/-- On coins that satisfy the invariants of a value the sum of a ticker does
not depend on the order of the input, as long as it succeeds in both orders. -/
theorem sumTicker_perm_of_normal {cs cs' : List Coin} (hp : cs'.Perm cs)
    (hv : ∀ c ∈ cs, isNormalCoin c) (t : String)
    (h : (sumTicker t cs).2 = none) (h' : (sumTicker t cs').2 = none) :
    sumTicker t cs' = sumTicker t cs := by
  have hv' : ∀ c ∈ cs', isNormalCoin c := fun c hc => hv c (hp.mem_iff.1 hc)
  have hpf : (cs'.filter (fun c => c.Ticker == t)).Perm (cs.filter (fun c => c.Ticker == t)) :=
    hp.filter _
  have hsum : ((cs'.filter (fun c => c.Ticker == t)).map exactValue).sum
      = ((cs.filter (fun c => c.Ticker == t)).map exactValue).sum :=
    (hpf.map _).sum_eq
  have hmem : ∀ (l : List Coin), ∀ x ∈ l.filter (fun c => c.Ticker == t), x.Ticker = t := by
    intro l x hx
    simpa using (List.mem_filter.1 hx).2
  unfold sumTicker at h h' ⊢
  cases hfl : cs.filter (fun c => c.Ticker == t) with
  | nil =>
    rw [hfl] at hpf
    rw [List.Perm.eq_nil hpf]
  | cons c rest =>
    cases hfl' : cs'.filter (fun c => c.Ticker == t) with
    | nil =>
      rw [hfl'] at hpf
      have := List.Perm.eq_nil hpf.symm
      rw [hfl] at this
      exact absurd this (List.cons_ne_nil _ _)
    | cons c' rest' =>
      rw [hfl] at h hsum
      rw [hfl'] at h' hsum
      simp only at h h' ⊢
      have hin : ∀ x ∈ c :: rest, isNormalCoin x ∧ x.Ticker = t := by
        intro x hx
        rw [← hfl] at hx
        exact ⟨hv x (List.mem_filter.1 hx).1, hmem cs x hx⟩
      have hin' : ∀ x ∈ c' :: rest', isNormalCoin x ∧ x.Ticker = t := by
        intro x hx
        rw [← hfl'] at hx
        exact ⟨hv' x (List.mem_filter.1 hx).1, hmem cs' x hx⟩
      have hc := hin c (List.mem_cons_self _ _)
      have hc' := hin' c' (List.mem_cons_self _ _)
      obtain ⟨r1, r2, r3⟩ := addFrom_normal rest c hc.1
        (fun x hx => by
          rw [hc.2]
          exact hin x (List.mem_cons_of_mem _ hx)) h
      obtain ⟨r1', r2', r3'⟩ := addFrom_normal rest' c' hc'.1
        (fun x hx => by
          rw [hc'.2]
          exact hin' x (List.mem_cons_of_mem _ hx)) h'
      rw [List.map_cons, List.sum_cons, List.map_cons, List.sum_cons] at hsum
      have hval : exactValue (addFrom c' rest').1 = exactValue (addFrom c rest).1 := by
        rw [r3, r3', hsum]
      have heq := Coin.eq_of_normal_of_exactValue_eq _ _ r1' r1
        (by rw [r2', r2, hc.2, hc'.2]) hval
      exact Prod.ext heq (by rw [h, h'])

/-- On coins that satisfy the invariants of a value `NormalizeCoins` does not
depend on the order of the input, as long as it succeeds in both orders. -/
theorem NormalizeCoins_perm_of_normal {cs cs' : List Coin} (hp : cs'.Perm cs)
    (hv : ∀ c ∈ cs, isNormalCoin c)
    (h : (NormalizeCoins cs).2 = none) (h' : (NormalizeCoins cs').2 = none) :
    NormalizeCoins cs' = NormalizeCoins cs := by
  obtain ⟨hall, heq⟩ := NormalizeCoins_ok_eq cs h
  obtain ⟨hall', heq'⟩ := NormalizeCoins_ok_eq cs' h'
  have hts := sortedTickers_perm hp
  apply Prod.ext
  · rw [heq, heq', hts]
    congr 1
    apply List.map_congr_left
    intro t ht
    rw [sumTicker_perm_of_normal hp hv t (hall t ht) (hall' t (by rw [hts]; exact ht))]
  · rw [h, h']

end coin

namespace Coin

open coin coin.ErrKind

/-- On two coins of one non-empty ticker `Add` is `normalize` of the wrapped
field-wise sum. -/
theorem Add_eq_normalize_of_ticker (a b : Coin) (hne : a.Ticker ≠ "")
    (ht : a.Ticker = b.Ticker) :
    a.Add b = normalize { Whole := wrap64 (a.Whole + b.Whole),
                          Fractional := wrap64 (a.Fractional + b.Fractional),
                          Ticker := a.Ticker } := by
  have hnb : b.Ticker ≠ "" := ht ▸ hne
  unfold Add SameType
  simp [hne, hnb, ht]

end Coin

namespace coin

open ErrKind

/-- Two successive successful additions. -/
theorem addFrom_pair (a x b c1 c2 : Coin) (h1 : a.Add x = (c1, none))
    (h2 : c1.Add b = (c2, none)) : addFrom a [x, b] = (c2, none) := by
  simp only [addFrom, h1, h2]

/-- The output of `NormalizeCoins` on coins of a single ticker with a non-zero
sum. -/
theorem NormalizeCoins_single_ticker (cs : List Coin) (t : String) (a s : Coin)
    (rest : List Coin) (ht : sortedTickers cs = [t])
    (hf : cs.filter (fun c => c.Ticker == t) = a :: rest)
    (hs : addFrom a rest = (s, none)) (hz : s.IsZero = false) :
    NormalizeCoins cs = ([s], none) := by
  unfold NormalizeCoins
  rw [ht]
  simp only [collectSums, sumTicker, hf, hs, hz, Bool.false_eq_true, if_false]

/-- C25, as stated, fails in its last part.  (1) The valid coins
`(MaxInt, 0, BTC)`, `(-1, 0, BTC)`, `(1, 0, BTC)` are normalized to
`[(MaxInt, 0, BTC)]` in this order, but in the order `(MaxInt, 0, BTC)`,
`(1, 0, BTC)`, `(-1, 0, BTC)` the first `Add` leaves the coin range and
`NormalizeCoins` fails.  For coins that break one of the invariants of a
value and keep the other two, two orders can both succeed with different
outputs.  (2) A fractional part out of range: with `a = (0, 2^63-1, XYZ)` and `x = (0, -854775807, XYZ)`,
the order `a, x, a` gives `[(18446744072, 854775807, XYZ)]` and the order
`a, a, x`, in which the fractional sum wraps, gives `[(0, -854775809, XYZ)]`.
(3) Signs that do not agree: the order `(1, 0, "")`, `(-1, 0, "")`,
`(1, -5, "")` gives `[(1, -5, "")]`, because `Add` returns the second coin as
it is when the first is the empty zero coin, and the order `(1, 0, "")`,
`(1, -5, "")`, `(-1, 0, "")` gives `[(0, 999999995, "")]`.  (4) A whole part
out of range: with `z = (-(2^63-1), -999999995, "")`, `p = (2^63-1, 999999995, "")`
and `q = (-2^63, -5, "")`, the order `z, p, q` gives `[q]` and the order
`z, q, p`, in which the whole sum wraps, gives `[p]`. -/
theorem normalizeCoins_depends_on_order :
    (NormalizeCoins [NewCoin MaxInt 0 "BTC", NewCoin (-1) 0 "BTC", NewCoin 1 0 "BTC"]
      = ([NewCoin MaxInt 0 "BTC"], none) ∧
     (∀ c ∈ [NewCoin MaxInt 0 "BTC", NewCoin (-1) 0 "BTC", NewCoin 1 0 "BTC"],
        c.Validate = none ∧ isNormalCoin c) ∧
     List.Perm [NewCoin MaxInt 0 "BTC", NewCoin 1 0 "BTC", NewCoin (-1) 0 "BTC"]
       [NewCoin MaxInt 0 "BTC", NewCoin (-1) 0 "BTC", NewCoin 1 0 "BTC"] ∧
     NormalizeCoins [NewCoin MaxInt 0 "BTC", NewCoin 1 0 "BTC", NewCoin (-1) 0 "BTC"]
      = ([], some ErrInvalidCoin) ∧
     NormalizeCoins [NewCoin MaxInt 0 "BTC", NewCoin 1 0 "BTC", NewCoin (-1) 0 "BTC"]
      ≠ NormalizeCoins [NewCoin MaxInt 0 "BTC", NewCoin (-1) 0 "BTC", NewCoin 1 0 "BTC"]) ∧
    ((∀ c ∈ [NewCoin 0 9223372036854775807 "XYZ", NewCoin 0 (-854775807) "XYZ",
        NewCoin 0 9223372036854775807 "XYZ"],
        (MinInt ≤ c.Whole ∧ c.Whole ≤ MaxInt) ∧
          ((0 < c.Whole → 0 ≤ c.Fractional) ∧ (c.Whole < 0 → c.Fractional ≤ 0))) ∧
     NormalizeCoins [NewCoin 0 9223372036854775807 "XYZ", NewCoin 0 (-854775807) "XYZ",
        NewCoin 0 9223372036854775807 "XYZ"]
      = ([NewCoin 18446744072 854775807 "XYZ"], none) ∧
     List.Perm [NewCoin 0 9223372036854775807 "XYZ", NewCoin 0 9223372036854775807 "XYZ",
        NewCoin 0 (-854775807) "XYZ"]
       [NewCoin 0 9223372036854775807 "XYZ", NewCoin 0 (-854775807) "XYZ",
        NewCoin 0 9223372036854775807 "XYZ"] ∧
     NormalizeCoins [NewCoin 0 9223372036854775807 "XYZ", NewCoin 0 9223372036854775807 "XYZ",
        NewCoin 0 (-854775807) "XYZ"]
      = ([NewCoin 0 (-854775809) "XYZ"], none)) ∧
    ((∀ c ∈ [NewCoin 1 0 "", NewCoin (-1) 0 "", NewCoin 1 (-5) ""],
        (MinInt ≤ c.Whole ∧ c.Whole ≤ MaxInt) ∧
          (MinFrac ≤ c.Fractional ∧ c.Fractional ≤ MaxFrac)) ∧
     NormalizeCoins [NewCoin 1 0 "", NewCoin (-1) 0 "", NewCoin 1 (-5) ""]
      = ([NewCoin 1 (-5) ""], none) ∧
     List.Perm [NewCoin 1 0 "", NewCoin 1 (-5) "", NewCoin (-1) 0 ""]
       [NewCoin 1 0 "", NewCoin (-1) 0 "", NewCoin 1 (-5) ""] ∧
     NormalizeCoins [NewCoin 1 0 "", NewCoin 1 (-5) "", NewCoin (-1) 0 ""]
      = ([NewCoin 0 999999995 ""], none)) ∧
    ((∀ c ∈ [NewCoin (-9223372036854775807) (-999999995) "",
        NewCoin 9223372036854775807 999999995 "", NewCoin (-9223372036854775808) (-5) ""],
        (MinFrac ≤ c.Fractional ∧ c.Fractional ≤ MaxFrac) ∧
          ((0 < c.Whole → 0 ≤ c.Fractional) ∧ (c.Whole < 0 → c.Fractional ≤ 0))) ∧
     NormalizeCoins [NewCoin (-9223372036854775807) (-999999995) "",
        NewCoin 9223372036854775807 999999995 "", NewCoin (-9223372036854775808) (-5) ""]
      = ([NewCoin (-9223372036854775808) (-5) ""], none) ∧
     List.Perm [NewCoin (-9223372036854775807) (-999999995) "",
        NewCoin (-9223372036854775808) (-5) "", NewCoin 9223372036854775807 999999995 ""]
       [NewCoin (-9223372036854775807) (-999999995) "",
        NewCoin 9223372036854775807 999999995 "", NewCoin (-9223372036854775808) (-5) ""] ∧
     NormalizeCoins [NewCoin (-9223372036854775807) (-999999995) "",
        NewCoin (-9223372036854775808) (-5) "", NewCoin 9223372036854775807 999999995 ""]
      = ([NewCoin 9223372036854775807 999999995 ""], none)) := by
  refine ⟨⟨by decide, by decide, ?_, by decide, by decide⟩, ⟨by decide, ?_, ?_, by decide⟩,
    ⟨by decide, by decide, ?_, by decide⟩, ⟨by decide, by decide, ?_, by decide⟩⟩
  · exact List.Perm.cons _ (List.Perm.swap _ _ _)
  · have h1 : (NewCoin 0 9223372036854775807 "XYZ").Add (NewCoin 0 (-854775807) "XYZ")
        = (NewCoin 9223372036 0 "XYZ", none) := by
      rw [Coin.Add_eq_normalize_of_ticker _ _ (by decide) (by decide),
        Coin.normalize_int64 _ (by decide)]
      decide
    have h2 : (NewCoin 9223372036 0 "XYZ").Add (NewCoin 0 9223372036854775807 "XYZ")
        = (NewCoin 18446744072 854775807 "XYZ", none) := by
      rw [Coin.Add_eq_normalize_of_ticker _ _ (by decide) (by decide),
        Coin.normalize_int64 _ (by decide)]
      decide
    exact NormalizeCoins_single_ticker
      [NewCoin 0 9223372036854775807 "XYZ", NewCoin 0 (-854775807) "XYZ",
        NewCoin 0 9223372036854775807 "XYZ"] "XYZ" (NewCoin 0 9223372036854775807 "XYZ")
      (NewCoin 18446744072 854775807 "XYZ")
      [NewCoin 0 (-854775807) "XYZ", NewCoin 0 9223372036854775807 "XYZ"]
      (by decide) (by decide)
      (addFrom_pair _ _ _ (NewCoin 9223372036 0 "XYZ") _ h1 h2) (by decide)
  · exact List.Perm.cons _ (List.Perm.swap _ _ _)
  · exact List.Perm.cons _ (List.Perm.swap _ _ _)
  · exact List.Perm.cons _ (List.Perm.swap _ _ _)

/-- C25, amended: when `NormalizeCoins` succeeds, the output is sorted strictly
ascending by ticker (so no ticker occurs twice), contains no zero coin, and
holds for each ticker the `Add`-sum of all input coins of that ticker, tickers
with a zero sum being dropped and an all-zero input giving the empty list; the
output satisfies `isNormalized`; and when every input coin satisfies the
invariants of a value (both parts within range, signs agreeing), the output is
the same for every permutation of the input on which `NormalizeCoins` also
succeeds.  `[(1,1,BTC),(2,2,BTC)]` gives `[(3,3,BTC)]`. -/
theorem normalizeCoins_output (cs : List Coin) (h : (NormalizeCoins cs).2 = none) :
    List.Pairwise (fun a b : Coin => tickerLT a.Ticker b.Ticker = true)
      (NormalizeCoins cs).1 ∧
    ((NormalizeCoins cs).1.map Coin.Ticker).Nodup ∧
    (∀ c ∈ (NormalizeCoins cs).1, c.IsZero = false) ∧
    (∀ c, c ∈ (NormalizeCoins cs).1 ↔
      (c.Ticker ∈ cs.map Coin.Ticker ∧ sumTicker c.Ticker cs = (c, none) ∧
        c.IsZero = false)) ∧
    ((∀ c ∈ cs, c.IsZero = true) → (NormalizeCoins cs).1 = []) ∧
    isNormalized ((NormalizeCoins cs).1.map some) = true ∧
    ((∀ c ∈ cs, isNormalCoin c) →
      ∀ cs' : List Coin, cs'.Perm cs → (NormalizeCoins cs').2 = none →
        NormalizeCoins cs' = NormalizeCoins cs) ∧
    NormalizeCoins [NewCoin 1 1 "BTC", NewCoin 2 2 "BTC"] = ([NewCoin 3 3 "BTC"], none) := by
  have hsorted := NormalizeCoins_sorted cs h
  have hnz : ∀ c ∈ (NormalizeCoins cs).1, c.IsZero = false :=
    fun c hc => ((mem_NormalizeCoins cs h c).1 hc).2.2
  refine ⟨hsorted, nodup_tickers_of_sorted hsorted, hnz, mem_NormalizeCoins cs h, ?_, ?_, ?_,
    by decide⟩
  · intro hz
    rw [NormalizeCoins_all_zero cs hz]
  · exact isNormalizedFrom_of_sorted _ none hsorted hnz (fun p hp => by cases hp)
  · intro hv cs' hp h'
    exact NormalizeCoins_perm_of_normal hp hv h h'

/-- Witness for C25: the list `[(1, 0, B), (1, 0, A), (-1, 0, B)]`, which is
normalized to `[(1, 0, A)]`, and its permutation
`[(-1, 0, B), (1, 0, B), (1, 0, A)]`, which has the same output. -/
theorem normalizeCoins_output_witness :
    (NormalizeCoins [NewCoin 1 0 "B", NewCoin 1 0 "A", NewCoin (-1) 0 "B"]).2 = none ∧
    List.Pairwise (fun a b : Coin => tickerLT a.Ticker b.Ticker = true)
      (NormalizeCoins [NewCoin 1 0 "B", NewCoin 1 0 "A", NewCoin (-1) 0 "B"]).1 ∧
    (∀ c ∈ (NormalizeCoins [NewCoin 1 0 "B", NewCoin 1 0 "A", NewCoin (-1) 0 "B"]).1,
      c.IsZero = false) ∧
    isNormalized
      ((NormalizeCoins [NewCoin 1 0 "B", NewCoin 1 0 "A", NewCoin (-1) 0 "B"]).1.map some)
      = true ∧
    NormalizeCoins [NewCoin 1 0 "B", NewCoin 1 0 "A", NewCoin (-1) 0 "B"]
      = ([NewCoin 1 0 "A"], none) ∧
    (∀ c ∈ [NewCoin 1 0 "B", NewCoin 1 0 "A", NewCoin (-1) 0 "B"], isNormalCoin c) ∧
    List.Perm [NewCoin (-1) 0 "B", NewCoin 1 0 "B", NewCoin 1 0 "A"]
      [NewCoin 1 0 "B", NewCoin 1 0 "A", NewCoin (-1) 0 "B"] ∧
    (NormalizeCoins [NewCoin (-1) 0 "B", NewCoin 1 0 "B", NewCoin 1 0 "A"]).2 = none ∧
    NormalizeCoins [NewCoin (-1) 0 "B", NewCoin 1 0 "B", NewCoin 1 0 "A"]
      = NormalizeCoins [NewCoin 1 0 "B", NewCoin 1 0 "A", NewCoin (-1) 0 "B"] :=
  ⟨by decide,
    (normalizeCoins_output [NewCoin 1 0 "B", NewCoin 1 0 "A", NewCoin (-1) 0 "B"]
      (by decide)).1,
    (normalizeCoins_output [NewCoin 1 0 "B", NewCoin 1 0 "A", NewCoin (-1) 0 "B"]
      (by decide)).2.2.1,
    (normalizeCoins_output [NewCoin 1 0 "B", NewCoin 1 0 "A", NewCoin (-1) 0 "B"]
      (by decide)).2.2.2.2.2.1,
    by decide,
    by decide,
    (List.perm_append_comm :
      List.Perm ([NewCoin (-1) 0 "B"] ++ [NewCoin 1 0 "B", NewCoin 1 0 "A"])
        ([NewCoin 1 0 "B", NewCoin 1 0 "A"] ++ [NewCoin (-1) 0 "B"])),
    by decide,
    (normalizeCoins_output [NewCoin 1 0 "B", NewCoin 1 0 "A", NewCoin (-1) 0 "B"]
      (by decide)).2.2.2.2.2.2.1 (by decide)
      [NewCoin (-1) 0 "B", NewCoin 1 0 "B", NewCoin 1 0 "A"]
      (List.perm_append_comm :
        List.Perm ([NewCoin (-1) 0 "B"] ++ [NewCoin 1 0 "B", NewCoin 1 0 "A"])
          ([NewCoin 1 0 "B", NewCoin 1 0 "A"] ++ [NewCoin (-1) 0 "B"]))
      (by decide)⟩

/-- C26: `NormalizeCoins` is idempotent: when `NormalizeCoins` succeeds on a
list with output `n`, `NormalizeCoins(n)` succeeds and returns `n`. -/
theorem normalizeCoins_idempotent (cs : List Coin) (h : (NormalizeCoins cs).2 = none) :
    NormalizeCoins (NormalizeCoins cs).1 = ((NormalizeCoins cs).1, none) :=
  NormalizeCoins_of_normalized _ (NormalizeCoins_sorted cs h)
    (fun c hc => ((mem_NormalizeCoins cs h c).1 hc).2.2)

/-- Witness for C26: the unordered list with split values of
`TestCoinsNormalize`. -/
theorem normalizeCoins_idempotent_witness :
    (NormalizeCoins [NewCoin 1 0 "B", NewCoin 1 0 "C", NewCoin 1 0 "B", NewCoin 1 0 "A",
      NewCoin 1 0 "C", NewCoin 1 0 "C"]).2 = none ∧
    NormalizeCoins (NormalizeCoins [NewCoin 1 0 "B", NewCoin 1 0 "C", NewCoin 1 0 "B",
      NewCoin 1 0 "A", NewCoin 1 0 "C", NewCoin 1 0 "C"]).1
      = ((NormalizeCoins [NewCoin 1 0 "B", NewCoin 1 0 "C", NewCoin 1 0 "B",
      NewCoin 1 0 "A", NewCoin 1 0 "C", NewCoin 1 0 "C"]).1, none) :=
  ⟨by decide,
    normalizeCoins_idempotent [NewCoin 1 0 "B", NewCoin 1 0 "C", NewCoin 1 0 "B",
      NewCoin 1 0 "A", NewCoin 1 0 "C", NewCoin 1 0 "C"] (by decide)⟩

end coin

/-! # Overflow detection, priority score and the algebra of `Add` -/

namespace coin

open ErrKind

/-- Apart from `-1 * MinInt64`, `mul64` reports `ErrOverflow` exactly when the
exact product of its `int64` operands is not an `int64`. -/
theorem mul64_overflow_iff_of_not_corner (a b : Int) (ha : inInt64 a) (hb : inInt64 b)
    (hcorner : ¬ (a = -1 ∧ b = -9223372036854775808)) :
    (mul64 a b).2 = some ErrOverflow ↔ ¬ inInt64 (a * b) := by
  constructor
  · intro h hin
    unfold mul64 at h
    by_cases h0 : a = 0 ∨ b = 0
    · rw [if_pos h0] at h
      simp at h
    · rw [if_neg h0] at h
      simp only at h
      have ha0 : a ≠ 0 := fun e => h0 (Or.inl e)
      have hq : goDiv (wrap64 (a * b)) a = b := by
        unfold goDiv
        rw [wrap64_of_inInt64 hin, Int.mul_comm, Int.mul_tdiv_cancel _ ha0,
          wrap64_of_inInt64 hb]
      rw [if_neg (by simpa using hq)] at h
      simp at h
  · intro hnin
    have hcases : (mul64 a b).2 = none ∨ (mul64 a b).2 = some ErrOverflow := by
      unfold mul64
      by_cases h0 : a = 0 ∨ b = 0
      · rw [if_pos h0]
        exact Or.inl rfl
      · rw [if_neg h0]
        simp only
        by_cases hq : goDiv (wrap64 (a * b)) a ≠ b
        · rw [if_pos hq]
          exact Or.inr rfl
        · rw [if_neg hq]
          exact Or.inl rfl
    rcases hcases with hres | hres
    · exfalso
      apply hnin
      rw [← mul64_exact_of_no_error a b ha hcorner hres]
      exact mul64_fst_inInt64 a b
    · exact hres

/-- C32: `mul64` does not detect every 64-bit overflow.  For the `int64`
operands `-1` and `MinInt64` the exact product `2^63` is not an `int64`, yet
`mul64` returns the wrapped value `MinInt64` with no error. -/
theorem mul64_misses_minus_one_times_min_int64 :
    inInt64 (-1) ∧ inInt64 (-9223372036854775808) ∧
    ¬ inInt64 ((-1) * (-9223372036854775808)) ∧
    mul64 (-1) (-9223372036854775808) = (-9223372036854775808, none) ∧
    (mul64 (-1) (-9223372036854775808)).1 ≠ (-1) * (-9223372036854775808) := by
  decide

end coin

namespace cash

open coin coin.ErrKind

/-- The score `toPayment` computes is the exact value of the fee reduced to 64
bits. -/
theorem toPayment_eq_wrap64_exactValue (fee : Coin) :
    toPayment fee = wrap64 (exactValue fee) := by
  unfold toPayment exactValue
  rw [Int.add_comm, wrap64_add_wrap64]

/-- When the exact value of the fee is an `int64`, `toPayment` is that
value. -/
theorem toPayment_exact_of_inInt64 (fee : Coin) (h : inInt64 (exactValue fee)) :
    toPayment fee = exactValue fee := by
  rw [toPayment_eq_wrap64_exactValue, wrap64_of_inInt64 h]

/-- C33: `toPayment` is not the exact value of every valid non-negative fee.
The fee `(9223372037, 0, "IOV")` passes `Validate` and is non-negative, its
exact value is `9223372037000000000`, more than the largest `int64`, and
`toPayment` wraps to `-9223372036709551616`: the fee is at least as large as
`(1, 0, "IOV")` and gets a smaller score. -/
theorem toPayment_wraps_for_valid_fee :
    (NewCoin 9223372037 0 "IOV").Validate = none ∧
    (NewCoin 9223372037 0 "IOV").IsNonNegative = true ∧
    exactValue (NewCoin 9223372037 0 "IOV") = 9223372037000000000 ∧
    toPayment (NewCoin 9223372037 0 "IOV") = -9223372036709551616 ∧
    toPayment (NewCoin 9223372037 0 "IOV") ≠ exactValue (NewCoin 9223372037 0 "IOV") ∧
    (NewCoin 9223372037 0 "IOV").IsGTE (NewCoin 1 0 "IOV") = true ∧
    toPayment (NewCoin 9223372037 0 "IOV") < toPayment (NewCoin 1 0 "IOV") := by
  decide

end cash

namespace Coin

open coin coin.ErrKind

/-- The negative of a valid coin is valid, of the same ticker and of the
negated exact value, and nothing wraps. -/
theorem Negative_valid (b : Coin) (hb : b.Validate = none) :
    b.Negative = { Whole := -b.Whole, Fractional := -b.Fractional, Ticker := b.Ticker } ∧
    b.Negative.Validate = none ∧ b.Negative.Ticker = b.Ticker ∧
    exactValue b.Negative = - exactValue b := by
  obtain ⟨hcb, ⟨hW1, hW2⟩, ⟨hF1, hF2⟩, hs1, hs2⟩ := (validate_eq_none_iff b).1 hb
  have e1 : wrap64 (-1 * b.Whole) = -b.Whole := by
    unfold wrap64 MinInt MaxInt at *
    omega
  have e2 : wrap64 (-1 * b.Fractional) = -b.Fractional := by
    unfold wrap64 MinFrac MaxFrac FracUnit at *
    omega
  have hn : b.Negative
      = { Whole := -b.Whole, Fractional := -b.Fractional, Ticker := b.Ticker } := by
    unfold Negative
    rw [e1, e2]
  refine ⟨hn, ?_, ?_, ?_⟩
  · rw [hn, validate_eq_none_iff]
    refine ⟨hcb, ?_, ?_, ?_, ?_⟩ <;>
      (simp only; unfold MinInt MaxInt MinFrac MaxFrac FracUnit at *; omega)
  · rw [hn]
  · rw [hn]
    simp only [exactValue]
    ring

end Coin

namespace coin

open ErrKind

/-- C34: `Subtract` undoes `Add`: for coins `a` and `b` that pass `Validate`
and share a ticker, if `a.Add(b)` succeeds with sum `s`, then `s.Subtract(b)`
succeeds and returns exactly `a`. -/
theorem subtract_undoes_add (a b : Coin) (ha : a.Validate = none) (hb : b.Validate = none)
    (ht : a.Ticker = b.Ticker) (h : (a.Add b).2 = none) :
    (a.Add b).1.Subtract b = (a, none) := by
  obtain ⟨hsv, hst, hsval⟩ := Coin.Add_valid_ok a b ha hb ht h
  obtain ⟨-, hnv, hnt, hnval⟩ := Coin.Negative_valid b hb
  have htn : (a.Add b).1.Ticker = b.Negative.Ticker := by rw [hst, hnt, ht]
  obtain ⟨hca, ⟨haW1, haW2⟩, ⟨haF1, haF2⟩, has1, has2⟩ := (Coin.validate_eq_none_iff a).1 ha
  obtain ⟨-, ⟨hsW1, hsW2⟩, ⟨hsF1, hsF2⟩, -⟩ :=
    (Coin.validate_eq_none_iff (a.Add b).1).1 hsv
  obtain ⟨-, ⟨hnW1, hnW2⟩, ⟨hnF1, hnF2⟩, -⟩ :=
    (Coin.validate_eq_none_iff b.Negative).1 hnv
  unfold Coin.Subtract
  rw [Coin.Add_eq_normalize_of_valid _ _ hsv hnv htn]
  have hv : exactValue (Coin.mk ((a.Add b).1.Whole + b.Negative.Whole)
      ((a.Add b).1.Fractional + b.Negative.Fractional) (a.Add b).1.Ticker)
      = exactValue a := by
    have e1 : exactValue (a.Add b).1 + exactValue b.Negative = exactValue a := by
      rw [hsval, hnval]
      ring
    rw [← e1]
    simp only [exactValue]
    ring
  rw [Coin.normalize_int64 _ (by
    constructor <;>
      (simp only [inInt64]; unfold MinInt MaxInt MinFrac MaxFrac FracUnit at *; omega)), hv]
  have hqr := Int.tdiv_add_tmod (exactValue a) FracUnit
  have hrb := tmod_bounds_of_pos (exactValue a) (show (0 : Int) < FracUnit by decide)
  have hrs := tmod_sign (exactValue a) FracUnit
  simp only [exactValue] at hqr hrb hrs
  have hq : Int.tdiv (a.Whole * FracUnit + a.Fractional) FracUnit = a.Whole := by
    unfold MinFrac MaxFrac FracUnit at *
    omega
  have hr : Int.tmod (a.Whole * FracUnit + a.Fractional) FracUnit = a.Fractional := by
    rw [hq] at hqr
    unfold FracUnit at *
    omega
  simp only [exactValue]
  rw [hq, hr, if_pos ⟨haW1, haW2⟩, hst]

/-- Witness for C34: `(1, 999999999, "IOV")` plus `(2, 1, "IOV")` is
`(4, 0, "IOV")`, and subtracting `(2, 1, "IOV")` again gives
`(1, 999999999, "IOV")`. -/
theorem subtract_undoes_add_witness :
    (NewCoin 1 999999999 "IOV").Add (NewCoin 2 1 "IOV") = (NewCoin 4 0 "IOV", none) ∧
    ((NewCoin 1 999999999 "IOV").Add (NewCoin 2 1 "IOV")).1.Subtract (NewCoin 2 1 "IOV")
      = (NewCoin 1 999999999 "IOV", none) :=
  ⟨by decide,
    subtract_undoes_add (NewCoin 1 999999999 "IOV") (NewCoin 2 1 "IOV") (by decide)
      (by decide) (by decide) (by decide)⟩

/-- C35: `Add` is associative whenever no intermediate result leaves the coin
range: for coins `a`, `b`, `c` that pass `Validate` and share a ticker, if
`a.Add(b)`, `(a+b).Add(c)`, `b.Add(c)` and `a.Add(b+c)` all succeed, then
`(a+b).Add(c)` and `a.Add(b+c)` return equal coins. -/
theorem add_associative (a b c : Coin) (ha : a.Validate = none) (hb : b.Validate = none)
    (hc : c.Validate = none) (hab : a.Ticker = b.Ticker) (hbc : b.Ticker = c.Ticker)
    (h1 : (a.Add b).2 = none) (h2 : ((a.Add b).1.Add c).2 = none)
    (h3 : (b.Add c).2 = none) (h4 : (a.Add (b.Add c).1).2 = none) :
    (a.Add b).1.Add c = a.Add (b.Add c).1 := by
  obtain ⟨v1, t1, e1⟩ := Coin.Add_valid_ok a b ha hb hab h1
  obtain ⟨v2, t2, e2⟩ := Coin.Add_valid_ok _ c v1 hc (by rw [t1, hab, hbc]) h2
  obtain ⟨v3, t3, e3⟩ := Coin.Add_valid_ok b c hb hc hbc h3
  obtain ⟨v4, t4, e4⟩ := Coin.Add_valid_ok a _ ha v3 (by rw [t3, hab]) h4
  have hcoin : ((a.Add b).1.Add c).1 = (a.Add (b.Add c).1).1 :=
    Coin.eq_of_valid_of_exactValue_eq _ _ v2 v4 (by rw [t2, t1, t4])
      (by rw [e2, e1, e4, e3]; ring)
  exact Prod.ext hcoin (by rw [h2, h4])

/-- Witness for C35: `(1, 600000000)`, `(2, 700000000)` and `(-3, -900000000)`
in `IOV`; both groupings give `(0, 400000000, "IOV")`. -/
theorem add_associative_witness :
    ((NewCoin 1 600000000 "IOV").Add (NewCoin 2 700000000 "IOV")).1.Add
        (NewCoin (-3) (-900000000) "IOV") = (NewCoin 0 400000000 "IOV", none) ∧
    ((NewCoin 1 600000000 "IOV").Add (NewCoin 2 700000000 "IOV")).1.Add
        (NewCoin (-3) (-900000000) "IOV")
      = (NewCoin 1 600000000 "IOV").Add
          ((NewCoin 2 700000000 "IOV").Add (NewCoin (-3) (-900000000) "IOV")).1 :=
  ⟨by decide,
    add_associative (NewCoin 1 600000000 "IOV") (NewCoin 2 700000000 "IOV")
      (NewCoin (-3) (-900000000) "IOV") (by decide) (by decide) (by decide) (by decide)
      (by decide) (by decide) (by decide) (by decide) (by decide)⟩

end coin

/-! # Validity of the coins returned by `Divide` -/

namespace coin

open ErrKind

/-- Truncated division by a positive number keeps the sign and does not
increase the magnitude. -/
theorem tdiv_sign_of_pos (a : Int) {b : Int} (hb : 0 < b) :
    (0 ≤ a → 0 ≤ Int.tdiv a b ∧ Int.tdiv a b ≤ a) ∧
    (a ≤ 0 → a ≤ Int.tdiv a b ∧ Int.tdiv a b ≤ 0) := by
  constructor
  · intro h
    rw [Int.tdiv_eq_ediv h (le_of_lt hb)]
    exact ⟨Int.ediv_nonneg h (le_of_lt hb), Int.ediv_le_self b h⟩
  · intro h
    have hq : Int.tdiv a b = -((-a) / b) := by
      rw [← Int.tdiv_eq_ediv (by omega) (le_of_lt hb), Int.neg_tdiv, neg_neg]
    have h1 : 0 ≤ (-a) / b := Int.ediv_nonneg (by omega) (le_of_lt hb)
    have h2 : (-a) / b ≤ -a := Int.ediv_le_self b (by omega)
    omega

/-- A dividend of magnitude below `k * b` has a truncated quotient of
magnitude below `k`. -/
theorem tdiv_abs_lt_of_abs_lt_mul (a k : Int) {b : Int} (hb : 0 < b)
    (h1 : -(k * b) < a) (h2 : a < k * b) :
    -k < Int.tdiv a b ∧ Int.tdiv a b < k := by
  rcases le_or_lt 0 a with h | h
  · rw [Int.tdiv_eq_ediv h (le_of_lt hb)]
    have h3 : 0 ≤ a / b := Int.ediv_nonneg h (le_of_lt hb)
    have h4 : a / b < k := Int.ediv_lt_of_lt_mul hb h2
    omega
  · have hq : Int.tdiv a b = -((-a) / b) := by
      rw [← Int.tdiv_eq_ediv (by omega) (le_of_lt hb), Int.neg_tdiv, neg_neg]
    have h3 : 0 ≤ (-a) / b := Int.ediv_nonneg (by omega) (le_of_lt hb)
    have h4 : (-a) / b < k := Int.ediv_lt_of_lt_mul hb (by omega)
    omega

end coin

namespace Coin

open coin coin.ErrKind

/-- For at most `FracUnit` pieces, both coins returned by `Divide` on a valid
coin pass `Validate`. -/
theorem Divide_valid_of_pieces_le_FracUnit (c : Coin) (pieces : Int)
    (hc : c.Validate = none) (hp : 0 < pieces) (hle : pieces ≤ FracUnit) :
    (c.Divide pieces).1.Validate = none ∧ (c.Divide pieces).2.1.Validate = none := by
  obtain ⟨hcc, ⟨hW1, hW2⟩, ⟨hF1, hF2⟩, hs1, hs2⟩ := (validate_eq_none_iff c).1 hc
  have hLb := tmod_bounds_of_pos c.Whole hp
  have hLs := tmod_sign c.Whole pieces
  have hQs := tdiv_sign_of_pos c.Whole hp
  have hp' : ¬ pieces ≤ 0 := not_le.mpr hp
  obtain ⟨fr, hfr, hfrv⟩ : ∃ fr, (if goMod c.Whole pieces ≠ 0
      then wrap64 (c.Fractional + wrap64 (goMod c.Whole pieces * FracUnit))
      else c.Fractional) = fr ∧ fr = c.Fractional + Int.tmod c.Whole pieces * FracUnit := by
    refine ⟨_, rfl, ?_⟩
    unfold goMod
    by_cases h0 : Int.tmod c.Whole pieces ≠ 0
    · rw [if_pos h0]
      have e1 : wrap64 (Int.tmod c.Whole pieces * FracUnit)
          = Int.tmod c.Whole pieces * FracUnit := by
        apply wrap64_eq_of_bounds <;> (unfold FracUnit at *; omega)
      rw [e1]
      apply wrap64_eq_of_bounds <;> (unfold MinFrac MaxFrac FracUnit at *; omega)
    · rw [if_neg h0]
      have : Int.tmod c.Whole pieces = 0 := not_not.mp h0
      rw [this]
      ring
  have hfrb : -(FracUnit * pieces) < fr ∧ fr < FracUnit * pieces := by
    rw [hfrv]
    unfold MinFrac MaxFrac FracUnit at *
    omega
  have hfrs : (0 < c.Whole → 0 ≤ fr) ∧ (c.Whole < 0 → fr ≤ 0) := by
    rw [hfrv]
    unfold MinFrac MaxFrac FracUnit at *
    omega
  have hq := tdiv_abs_lt_of_abs_lt_mul fr FracUnit hp hfrb.1 hfrb.2
  have hqs := tdiv_sign_of_pos fr hp
  have hrb := tmod_bounds_of_pos fr hp
  have hone : (c.Divide pieces).1
      = Coin.mk (Int.tdiv c.Whole pieces) (Int.tdiv fr pieces) c.Ticker := by
    simp only [Divide, hp', if_false, hfr]
    unfold goDiv
    rw [wrap64_eq_of_bounds (x := Int.tdiv c.Whole pieces)
        (by unfold MinInt MaxInt at *; omega) (by unfold MinInt MaxInt at *; omega),
      wrap64_eq_of_bounds (x := Int.tdiv fr pieces)
        (by unfold FracUnit at *; omega) (by unfold FracUnit at *; omega)]
  have hrest : (c.Divide pieces).2.1 = Coin.mk 0 (Int.tmod fr pieces) c.Ticker := by
    simp only [Divide, hp', if_false, hfr]
    rfl
  rw [hone, hrest, validate_eq_none_iff, validate_eq_none_iff]
  refine ⟨⟨hcc, ?_, ?_, ?_, ?_⟩, ⟨hcc, ?_, ?_, ?_, ?_⟩⟩ <;>
    (simp only; unfold MinInt MaxInt MinFrac MaxFrac FracUnit at *; omega)

end Coin

namespace coin

open ErrKind

/-- C36: `Divide` does not preserve validity.  The valid coin `(1, 0, "IOV")`
divided into `2 * 10^9` pieces gives the rest `(0, 1000000000, "IOV")`, whose
fractional part is `FracUnit`, above `MaxFrac`; and the valid coin
`(19999999999, 0, "IOV")` divided into `10^10` pieces gives the piece
`(1, -844674407, "IOV")`, of mismatched signs, because the leftover times
`FracUnit` wraps.  Both are rejected by `Validate`. -/
theorem divide_returns_invalid_coins :
    ((NewCoin 1 0 "IOV").Validate = none ∧ (0 : Int) < 2000000000 ∧
      (NewCoin 1 0 "IOV").Divide 2000000000
        = (NewCoin 0 0 "IOV", NewCoin 0 1000000000 "IOV", none) ∧
      ((NewCoin 1 0 "IOV").Divide 2000000000).2.1.Validate = some ErrInvalidCoin) ∧
    ((NewCoin 19999999999 0 "IOV").Validate = none ∧ (0 : Int) < 10000000000 ∧
      ((NewCoin 19999999999 0 "IOV").Divide 10000000000).1 = NewCoin 1 (-844674407) "IOV" ∧
      ((NewCoin 19999999999 0 "IOV").Divide 10000000000).1.Validate
        = some ErrInvalidCoin) := by
  decide

end coin

/-! # The fee rule in the two phases -/

namespace cash

open coin coin.ErrKind weave

/-- The calls, error and store of `Check` and of `Deliver` on the same input:
either both are a nil dereference, or both return and agree on the calls made
and on the store left by the decorator's own calls; when the last call is not
to the next handler, they also agree on the error. -/
theorem Check_Deliver_agree {Ctx Store Tx : Type} (env : Deps Ctx Store Tx)
    (d : FeeDecorator Ctx Store) (ctx : Ctx) (store : Store) (tx : Tx)
    (nextC : Checker Ctx Store Tx) (nextD : Deliverer Ctx Store Tx) :
    (d.Check env ctx store tx nextC = none ∧ d.Deliver env ctx store tx nextD = none) ∨
    (∃ oc od, d.Check env ctx store tx nextC = some oc ∧
      d.Deliver env ctx store tx nextD = some od ∧ oc.calls = od.calls ∧
      ((∀ s, Call.Next s ∉ oc.calls) →
        oc.err = od.err ∧ oc.store = od.store ∧ oc.res = CheckResult.zero ∧
        od.res = DeliverResult.zero)) := by
  unfold FeeDecorator.Check FeeDecorator.Deliver
  rcases hx : d.extractFee env ctx tx store with _ | ⟨finfo, _ | err⟩
  · exact Or.inl ⟨rfl, rfl⟩
  · right
    simp only
    by_cases he : coin.IsEmpty (GetFees finfo) = true
    · rw [if_pos he, if_pos he]
      refine ⟨_, _, rfl, rfl, rfl, ?_⟩
      intro h
      exact absurd (List.mem_singleton.2 rfl) (h store)
    · rw [if_neg he, if_neg he]
      cases finfo with
      | none => simp [GetFees, coin.IsEmpty] at he
      | some fi =>
        cases hf : fi.Fees with
        | none => simp [GetFees, coin.IsEmpty, hf] at he
        | some f =>
          simp only [GetFees, hf]
          by_cases ha : (!d.auth.HasAddress ctx fi.Payer) = true
          · rw [if_pos ha, if_pos ha]
            exact ⟨_, _, rfl, rfl, rfl, fun _ => ⟨rfl, rfl, rfl, rfl⟩⟩
          · rw [if_neg ha, if_neg ha]
            cases hm : (d.ctrl.MoveCoins store fi.Payer
                (env.gconfAddress store GconfCollectorAddress) f).2 with
            | some e =>
              exact ⟨_, _, rfl, rfl, rfl, fun _ => ⟨rfl, rfl, rfl, rfl⟩⟩
            | none =>
              refine ⟨_, _, rfl, rfl, rfl, ?_⟩
              intro h
              exact absurd (List.mem_cons_of_mem _ (List.mem_singleton.2 rfl)) (h _)
  · right
    exact ⟨_, _, rfl, rfl, rfl, fun _ => ⟨rfl, rfl, rfl, rfl⟩⟩

/-- C37: the fee decorator enforces the same rule in both phases.  On the same
context, store, transaction, authenticator and coin mover, `Check` and
`Deliver` make the same calls in the same order, so `Check` calls its next
handler if and only if `Deliver` calls its next handler, after the same
`MoveCoins` call; and when the next handler is not called, both return the
same error and leave the same store. -/
theorem fee_same_rule_in_both_phases {Ctx Store Tx : Type} (env : Deps Ctx Store Tx)
    (d : FeeDecorator Ctx Store) (ctx : Ctx) (store : Store) (tx : Tx)
    (nextC : Checker Ctx Store Tx) (nextD : Deliverer Ctx Store Tx) :
    (d.Check env ctx store tx nextC = none ↔ d.Deliver env ctx store tx nextD = none) ∧
    (∀ oc od, d.Check env ctx store tx nextC = some oc →
      d.Deliver env ctx store tx nextD = some od →
      oc.calls = od.calls ∧
      ((∃ s, Call.Next s ∈ oc.calls) ↔ (∃ s, Call.Next s ∈ od.calls)) ∧
      ((∀ s, Call.Next s ∉ oc.calls) → oc.err = od.err ∧ oc.store = od.store)) := by
  rcases Check_Deliver_agree env d ctx store tx nextC nextD with
    ⟨hc, hd⟩ | ⟨oc, od, hc, hd, hcalls, hrest⟩
  · refine ⟨⟨fun _ => hd, fun _ => hc⟩, ?_⟩
    intro oc od h1 _
    rw [hc] at h1
    cases h1
  · refine ⟨?_, ?_⟩
    · rw [hc, hd]
      exact ⟨fun h => (by cases h), fun h => (by cases h)⟩
    · intro oc' od' h1 h2
      rw [hc] at h1
      rw [hd] at h2
      cases h1
      cases h2
      refine ⟨hcalls, ?_, ?_⟩
      · rw [hcalls]
      · intro h
        exact ⟨(hrest h).1, (hrest h).2.1⟩

/-- Witness for C37: a fee of `(0, 5, "IOV")` declared with payer `[8]`, who
is not among the signers: both phases stop with `ErrUnauthorized` before any
call; and the same fee with payer `[7]`, who is: both phases call `MoveCoins`
and then the next handler. -/
theorem fee_same_rule_in_both_phases_witness :
    (demoDecorator [[7]]).Check demoDeps () emptyCoin
        (some { Payer := [8], Fees := some (NewCoin 0 5 "IOV") }) demoChecker
      = some { res := CheckResult.zero, err := some ErrUnauthorized, store := emptyCoin,
               calls := [] } ∧
    (demoDecorator [[7]]).Deliver demoDeps () emptyCoin
        (some { Payer := [8], Fees := some (NewCoin 0 5 "IOV") }) demoDeliverer
      = some { res := DeliverResult.zero, err := some ErrUnauthorized, store := emptyCoin,
               calls := [] } ∧
    (some ErrUnauthorized : Option ErrKind) = some ErrUnauthorized ∧
    ((∃ s, Call.Next s ∈ [Call.MoveCoins emptyCoin [7] [9] (NewCoin 0 5 "IOV"),
        Call.Next emptyCoin]) ↔
      (∃ s, Call.Next s ∈ [Call.MoveCoins emptyCoin [7] [9] (NewCoin 0 5 "IOV"),
        Call.Next emptyCoin])) :=
  ⟨rfl, rfl,
    (((fee_same_rule_in_both_phases demoDeps (demoDecorator [[7]]) () emptyCoin
      (some { Payer := [8], Fees := some (NewCoin 0 5 "IOV") }) demoChecker
      demoDeliverer).2
      { res := CheckResult.zero, err := some ErrUnauthorized, store := emptyCoin,
        calls := [] }
      { res := DeliverResult.zero, err := some ErrUnauthorized, store := emptyCoin,
        calls := [] } rfl rfl).2.2 (fun s h => by cases h)).1,
    ((fee_same_rule_in_both_phases demoDeps (demoDecorator [[7]]) () emptyCoin
      (some { Payer := [7], Fees := some (NewCoin 0 5 "IOV") }) demoChecker
      demoDeliverer).2
      { res := { CheckResult.zero with GasPayment := 5 }, err := none, store := emptyCoin,
        calls := [Call.MoveCoins emptyCoin [7] [9] (NewCoin 0 5 "IOV"),
          Call.Next emptyCoin] }
      { res := DeliverResult.zero, err := none, store := emptyCoin,
        calls := [Call.MoveCoins emptyCoin [7] [9] (NewCoin 0 5 "IOV"),
          Call.Next emptyCoin] } rfl rfl).2.1⟩

end cash

/-! # Payment channel messages -/

namespace paychan

open coin coin.ErrKind

/-- What `Validate` accepting a `CreatePaymentChannelMsg` implies: source,
sender public key and recipient are set, the total is set and not zero, the
timeout is positive and the memo has at most 128 bytes. -/
theorem CreatePaymentChannelMsg.props_of_valid (validate : cash.Address → Option ErrKind)
    (m : CreatePaymentChannelMsg) (h : m.Validate validate = none) :
    m.Src ≠ none ∧ m.SenderPubkey ≠ none ∧ m.Recipient ≠ none ∧
    (∃ total, m.Total = some total ∧ total.IsZero = false) ∧
    0 < m.Timeout ∧ m.Memo.utf8ByteSize ≤ 128 := by
  unfold CreatePaymentChannelMsg.Validate at h
  split_ifs at h with h1 h2 h3 h4 h5 h6
  refine ⟨h1, h2, h3, ?_, by omega, by omega⟩
  cases ht : m.Total with
  | none => simp [ht] at h4
  | some total =>
    rw [ht] at h4
    exact ⟨total, rfl, by simpa using h4⟩

/-- C40: `Validate` accepts a `CreatePaymentChannelMsg` whose total is not
positive.  The message with source, sender public key and recipient set, a
timeout of 1, an empty memo and the total `(-1, 0, "IOV")` is accepted,
although `IsPositive` is false for that total: the total is only checked for
being zero. -/
theorem create_accepts_negative_total :
    (demoCreateMsg (NewCoin (-1) 0 "IOV")).Validate demoValidateAddress = none ∧
    (demoCreateMsg (NewCoin (-1) 0 "IOV")).Total = some (NewCoin (-1) 0 "IOV") ∧
    (NewCoin (-1) 0 "IOV").Validate = none ∧
    (NewCoin (-1) 0 "IOV").IsPositive = false ∧
    (NewCoin (-1) 0 "IOV").IsZero = false := by
  decide

end paychan

/-! # Error responses at the consensus boundary -/

namespace errors

open coin

/-- The text of a wrapped error contains the text of its cause. -/
theorem Contains_text_Wrapped (p : Error) (m : String) :
    Contains (Error.Wrapped p m).text p.text := by
  unfold Contains
  simp only [Error.text, String.data_append]
  exact (List.suffix_append _ _).isInfix

/-- `Redact` preserves the kind and the message of an error. -/
theorem Redact_preserves (e : Error) :
    (Redact e).kind = e.kind ∧ (Redact e).text = e.text := by
  cases e <;> exact ⟨rfl, rfl⟩

/-- No kind has the code 0. -/
theorem codeOf_ne_zero (k : ErrKind) : codeOf k ≠ 0 := by
  cases k <;> simp [codeOf]

end errors

namespace weave

open coin errors

/-- The code and the log of the two error responses: the code is the code of
the kind of the error, and the log is the context of the phase before the
message of the error, with either value of the debug flag. -/
theorem txError_code_and_log (e : Error) (debug : Bool) :
    (DeliverTxError pkg e debug).Code = codeOf e.kind ∧
    (CheckTxError pkg e debug).Code = codeOf e.kind ∧
    (DeliverTxError pkg e debug).Log = "cannot deliver tx" ++ ": " ++ e.text ∧
    (CheckTxError pkg e debug).Log = "cannot check tx" ++ ": " ++ e.text := by
  obtain ⟨hk, ht⟩ := Redact_preserves e
  have hcD : (DeliverTxError pkg e debug).Code = codeOf (Redact e).kind := rfl
  have hcC : (CheckTxError pkg e debug).Code = codeOf (Redact e).kind := rfl
  have hlD : (DeliverTxError pkg e debug).Log
      = "cannot deliver tx" ++ ": " ++ (Redact e).text := by
    cases debug <;> rfl
  have hlC : (CheckTxError pkg e debug).Log
      = "cannot check tx" ++ ": " ++ (Redact e).text := by
    cases debug <;> rfl
  rw [hk] at hcD hcC
  rw [ht] at hlD hlC
  exact ⟨hcD, hcC, hlD, hlC⟩

/-- C31: for every error `e` and either value of the debug flag,
`DeliverTxError(e, debug)` and `CheckTxError(e, debug)` return a response with
a non-zero code whose log contains the message of the error; a plain error and
a recovered panic are reported with the code of the internal error, and a
framework error such as `ErrInvalidInput` keeps the code of its own kind;
`DeliverOrError` and `CheckOrError` return this response whenever the error is
not nil, whatever the result.  The last part states the rows of
`TestCreateErrorResult`. -/
theorem error_response (e : Error) (debug : Bool) (dres : DeliverResult)
    (cres : CheckResult) :
    ((DeliverTxError pkg e debug).Code ≠ 0 ∧ (CheckTxError pkg e debug).Code ≠ 0) ∧
    (Contains (DeliverTxError pkg e debug).Log e.text ∧
      Contains (CheckTxError pkg e debug).Log e.text) ∧
    (∀ msg, (DeliverTxError pkg (Error.Plain msg) debug).Code = codeOf ErrKind.ErrInternal ∧
      (CheckTxError pkg (Error.Plain msg) debug).Code = codeOf ErrKind.ErrInternal) ∧
    (∀ value,
      (DeliverTxError pkg (NormalizePanic value) debug).Code = codeOf ErrKind.ErrInternal ∧
      (CheckTxError pkg (NormalizePanic value) debug).Code = codeOf ErrKind.ErrInternal) ∧
    (∀ k msg, (DeliverTxError pkg (Error.Framework k msg) debug).Code = codeOf k ∧
      (CheckTxError pkg (Error.Framework k msg) debug).Code = codeOf k) ∧
    codeOf ErrKind.ErrInvalidInput ≠ codeOf ErrKind.ErrInternal ∧
    (DeliverOrError pkg dres (some e) debug = DeliverTxError pkg e debug ∧
      CheckOrError pkg cres (some e) debug = CheckTxError pkg e debug) ∧
    ((Contains (DeliverTxError pkg (NormalizePanic "stdlib") debug).Log "internal" ∧
        Contains (CheckTxError pkg (NormalizePanic "stdlib") debug).Log "internal") ∧
      (Contains (DeliverTxError pkg (Error.Plain "base") debug).Log "base" ∧
        Contains (CheckTxError pkg (Error.Plain "base") debug).Log "base") ∧
      (Contains (DeliverTxError pkg (Error.Plain "dave") debug).Log "dave" ∧
        Contains (CheckTxError pkg (Error.Plain "dave") debug).Log "dave") ∧
      (Contains (DeliverTxError pkg (Error.Wrapped (Error.Plain "demo") "wrapped") debug).Log
          "wrapped: demo" ∧
        Contains (CheckTxError pkg (Error.Wrapped (Error.Plain "demo") "wrapped") debug).Log
          "wrapped: demo")) := by
  obtain ⟨hcD, hcC, hlD, hlC⟩ := txError_code_and_log e debug
  refine ⟨⟨?_, ?_⟩, ⟨?_, ?_⟩, ?_, ?_, ?_, by decide, ⟨rfl, rfl⟩, ?_⟩
  · rw [hcD]
    exact codeOf_ne_zero _
  · rw [hcC]
    exact codeOf_ne_zero _
  · rw [hlD]
    exact Contains_text_Wrapped e "cannot deliver tx"
  · rw [hlC]
    exact Contains_text_Wrapped e "cannot check tx"
  · intro msg
    exact ⟨(txError_code_and_log _ debug).1, (txError_code_and_log _ debug).2.1⟩
  · intro value
    exact ⟨(txError_code_and_log _ debug).1, (txError_code_and_log _ debug).2.1⟩
  · intro k msg
    exact ⟨(txError_code_and_log _ debug).1, (txError_code_and_log _ debug).2.1⟩
  · cases debug <;> decide

end weave

/-! # The wire codec: varints -/

namespace blockchain

open coin

/-- Masking with `0x7F` keeps the lowest seven bits. -/
theorem and_0x7F (x : Nat) : x &&& 0x7F = x % 128 :=
  Nat.and_pow_two_sub_one_eq_mod x 7

/-- Or-ing a shifted value onto lower bits is addition. -/
theorem or_shiftLeft_eq_add {acc s : Nat} (h : acc < 2 ^ s) (y : Nat) :
    acc ||| (y <<< s) = acc + y * 2 ^ s := by
  rw [Nat.shiftLeft_eq, Nat.or_comm, Nat.mul_comm y, ← Nat.mul_add_lt_is_or h y, Nat.add_comm]

/-- The byte that `encodeVarintCodec` writes for a value of more than seven
bits. -/
theorem continuation_byte (v : Nat) : (v &&& 0x7f ||| 0x80) % 256 = v % 128 + 128 := by
  have h1 : v &&& 0x7f = v % 128 := and_0x7F v
  have h2 : v % 128 < 2 ^ 7 := Nat.mod_lt _ (by decide)
  have h3 := Nat.mul_add_lt_is_or h2 1
  rw [h1, Nat.or_comm]
  have h4 : (128 ||| v % 128) = 128 + v % 128 := by
    simpa using h3.symm
  rw [h4]
  omega

theorem shiftRight_7 (v : Nat) : v >>> 7 = v / 128 :=
  Nat.shiftRight_eq_div_pow v 7

/-- `sovCodec` counts the bytes of the varint. -/
theorem sovLoop_eq : ∀ (f x n : Nat), sovLoop f x n = n + (varintBytes f x).length := by
  intro f
  induction f with
  | zero => intro x n; rfl
  | succ f ih =>
    intro x n
    unfold sovLoop varintBytes
    rw [shiftRight_7]
    by_cases h : x ≥ 128
    · rw [if_neg (by omega), if_pos h, ih]
      simp only [List.length_cons]
      omega
    · rw [if_pos (by omega), if_neg h]
      rfl

theorem sovCodec_eq (x : Nat) : sovCodec x = (varint x).length := by
  unfold sovCodec varint
  rw [sovLoop_eq]
  omega

/-- A varint has at least one byte. -/
theorem varintBytes_length_pos (f v : Nat) : 0 < (varintBytes (f + 1) v).length := by
  unfold varintBytes
  split_ifs <;> simp

/-- A varint has at most as many bytes as rounds. -/
theorem varintBytes_length_le : ∀ (f v : Nat), (varintBytes f v).length ≤ f := by
  intro f
  induction f with
  | zero => intro v; simp [varintBytes]
  | succ f ih =>
    intro v
    unfold varintBytes
    split_ifs
    · simp only [List.length_cons]
      have := ih (v / 128)
      omega
    · simp

theorem varint_length_pos (v : Nat) : 0 < (varint v).length :=
  varintBytes_length_pos 9 v

theorem varint_length_le (v : Nat) : (varint v).length ≤ 10 :=
  varintBytes_length_le 10 v

/-- The assignment `dAtA[i] = b` at the first byte after `pre`. -/
theorem setByte_append (pre : List Nat) (b0 b : Nat) (rest : List Nat) :
    setByte (pre ++ b0 :: rest) pre.length b = some (pre ++ b :: rest) := by
  unfold setByte
  rw [if_pos (by simp)]
  simp

/-- `encodeVarintCodec` writes the bytes of the varint after `pre` when the
buffer has room for them. -/
theorem encodeVarintLoop_spec : ∀ (f v : Nat) (pre buf : List Nat),
    v < 128 ^ (f + 1) → (varintBytes (f + 1) v).length ≤ buf.length →
    encodeVarintLoop (f + 1) (pre ++ buf) pre.length v
      = some (pre ++ varintBytes (f + 1) v ++ buf.drop (varintBytes (f + 1) v).length,
          pre.length + (varintBytes (f + 1) v).length) := by
  intro f
  induction f with
  | zero =>
    intro v pre buf hv hlen
    have hv' : ¬ v ≥ 128 := by omega
    unfold varintBytes at hlen ⊢
    rw [if_neg hv'] at hlen ⊢
    cases buf with
    | nil => simp at hlen
    | cons b0 rest =>
      unfold encodeVarintLoop
      rw [if_neg hv', setByte_append]
      have : v % 256 = v := by omega
      simp [this]
  | succ f ih =>
    intro v pre buf hv hlen
    unfold varintBytes at hlen ⊢
    by_cases h : v ≥ 128
    · rw [if_pos h] at hlen ⊢
      cases buf with
      | nil => simp at hlen
      | cons b0 rest =>
        unfold encodeVarintLoop
        rw [if_pos h, setByte_append, continuation_byte, shiftRight_7]
        simp only [List.length_cons] at hlen
        have hv2 : v / 128 < 128 ^ (f + 1) := by
          rw [Nat.div_lt_iff_lt_mul (by decide)]
          rw [Nat.pow_succ] at hv
          exact hv
        have e := ih (v / 128) (pre ++ [v % 128 + 128]) rest hv2 (by omega)
        simp only [List.append_assoc, List.singleton_append, List.length_append,
          List.length_singleton] at e
        dsimp only
        rw [e]
        simp only [List.length_cons, List.drop_succ_cons, List.append_assoc,
          List.cons_append, Option.some.injEq, Prod.mk.injEq, true_and]
        omega
    · rw [if_neg h] at hlen ⊢
      cases buf with
      | nil => simp at hlen
      | cons b0 rest =>
        unfold encodeVarintLoop
        rw [if_neg h, setByte_append]
        have : v % 256 = v := by omega
        simp [this]

theorem encodeVarintCodec_spec (v : Nat) (pre buf : List Nat)
    (hv : v < 18446744073709551616) (hlen : (varint v).length ≤ buf.length) :
    encodeVarintCodec (pre ++ buf) pre.length v
      = some (pre ++ varint v ++ buf.drop (varint v).length,
          pre.length + (varint v).length) := by
  unfold encodeVarintCodec varint at *
  exact encodeVarintLoop_spec 9 v pre buf (by omega) hlen

/-- The byte after `pre`. -/
theorem index_append (pre : List Nat) (b : Nat) (rest : List Nat) :
    index (pre ++ b :: rest) (pre.length : Int) = some b := by
  unfold index
  rw [if_pos (by omega), Int.toNat_ofNat, List.getElem?_append_right (Nat.le_refl _),
    Nat.sub_self]
  simp

/-- Reading the varint of `v` that stands after `pre`: the index moves past
it, and `v`, shifted, is added to the bits read before. -/
theorem readVarint_spec : ∀ (f v : Nat) (pre post : List Nat) (g shift acc : Nat),
    f < g → shift < 64 → v < 2 ^ (64 - shift) → v < 128 ^ (f + 1) → acc < 2 ^ shift →
    readVarint (pre ++ varintBytes (f + 1) v ++ post) g shift (pre.length : Int) acc
      = Res.ok (((pre.length + (varintBytes (f + 1) v).length : Nat) : Int),
          acc + v * 2 ^ shift) := by
  intro f
  induction f with
  | zero =>
    intro v pre post g shift acc hg hs hv hv2 hacc
    obtain ⟨g, rfl⟩ : ∃ g', g = g' + 1 := ⟨g - 1, by omega⟩
    have hv' : ¬ v ≥ 128 := by omega
    unfold varintBytes
    rw [if_neg hv']
    unfold readVarint
    have hidx := index_append pre v post
    simp only [List.append_assoc, List.singleton_append]
    rw [if_neg (by omega), if_neg (by simp only [List.length_append, List.length_cons]; omega), hidx]
    simp only
    rw [if_pos (by omega), and_0x7F, or_shiftLeft_eq_add hacc]
    have e1 : v % 128 = v := by omega
    have hb : acc + v * 2 ^ shift < 18446744073709551616 := by
      have h1 : v * 2 ^ shift + 2 ^ shift ≤ 2 ^ (64 - shift) * 2 ^ shift := by
        have : (v + 1) * 2 ^ shift ≤ 2 ^ (64 - shift) * 2 ^ shift :=
          Nat.mul_le_mul_right _ hv
        rw [Nat.add_mul, Nat.one_mul] at this
        exact this
      rw [← Nat.pow_add, show 64 - shift + shift = 64 by omega] at h1
      omega
    rw [e1, Nat.mod_eq_of_lt hb]
    simp
  | succ f ih =>
    intro v pre post g shift acc hg hs hv hv2 hacc
    obtain ⟨g, rfl⟩ : ∃ g', g = g' + 1 := ⟨g - 1, by omega⟩
    unfold varintBytes
    by_cases h : v ≥ 128
    · rw [if_pos h]
      unfold readVarint
      have hidx := index_append pre (v % 128 + 128) (varintBytes (f + 1) (v / 128) ++ post)
      simp only [List.append_assoc, List.cons_append]
      rw [if_neg (by omega), if_neg (by simp only [List.length_append, List.length_cons]; omega), hidx]
      simp only
      rw [if_neg (by omega), and_0x7F, or_shiftLeft_eq_add hacc]
      have e1 : (v % 128 + 128) % 128 = v % 128 := by omega
      have hs7 : shift + 7 < 64 := by
        by_contra hc
        have : 2 ^ (64 - shift) ≤ 2 ^ 7 := Nat.pow_le_pow_right (by decide) (by omega)
        omega
      have hlow : acc + v % 128 * 2 ^ shift < 2 ^ (shift + 7) := by
        rw [Nat.pow_add]
        have : v % 128 * 2 ^ shift ≤ 127 * 2 ^ shift := Nat.mul_le_mul_right _ (by omega)
        omega
      have hb : acc + v % 128 * 2 ^ shift < 18446744073709551616 := by
        have : 2 ^ (shift + 7) ≤ 2 ^ 64 := Nat.pow_le_pow_right (by decide) (by omega)
        omega
      rw [e1, Nat.mod_eq_of_lt hb]
      have hv3 : v / 128 < 2 ^ (64 - (shift + 7)) := by
        rw [Nat.div_lt_iff_lt_mul (by decide)]
        have : 2 ^ (64 - (shift + 7)) * 128 = 2 ^ (64 - shift) := by
          rw [show (128 : Nat) = 2 ^ 7 by decide, ← Nat.pow_add]
          congr 1
          omega
        omega
      have hv4 : v / 128 < 128 ^ (f + 1) := by
        rw [Nat.div_lt_iff_lt_mul (by decide)]
        rw [Nat.pow_succ] at hv2
        exact hv2
      have e := ih (v / 128) (pre ++ [v % 128 + 128]) post g (shift + 7)
        (acc + v % 128 * 2 ^ shift) (by omega) hs7 hv3 hv4 hlow
      simp only [List.append_assoc, List.singleton_append, List.cons_append, List.nil_append,
        List.length_append, List.length_singleton, Nat.cast_add, Nat.cast_one] at e
      rw [e]
      simp only [List.length_cons, Nat.cast_add, Nat.cast_one, Res.ok.injEq, Prod.mk.injEq]
      refine ⟨by omega, ?_⟩
      have : v = v % 128 + 128 * (v / 128) := (Nat.mod_add_div v 128).symm
      rw [Nat.pow_add]
      nlinarith [this]
    · rw [if_neg h]
      unfold readVarint
      have hidx := index_append pre v post
      simp only [List.append_assoc, List.singleton_append]
      rw [if_neg (by omega), if_neg (by simp only [List.length_append, List.length_cons]; omega), hidx]
      simp only
      rw [if_pos (by omega), and_0x7F, or_shiftLeft_eq_add hacc]
      have e1 : v % 128 = v := by omega
      have hb : acc + v * 2 ^ shift < 18446744073709551616 := by
        have h1 : v * 2 ^ shift + 2 ^ shift ≤ 2 ^ (64 - shift) * 2 ^ shift := by
          have : (v + 1) * 2 ^ shift ≤ 2 ^ (64 - shift) * 2 ^ shift :=
            Nat.mul_le_mul_right _ hv
          rw [Nat.add_mul, Nat.one_mul] at this
          exact this
        rw [← Nat.pow_add, show 64 - shift + shift = 64 by omega] at h1
        omega
      rw [e1, Nat.mod_eq_of_lt hb]
      simp

/-- Reading the varint of a `uint64` that stands after `pre`. -/
theorem readVarint_varint (v : Nat) (pre post : List Nat) (hv : v < 18446744073709551616) :
    readVarint (pre ++ varint v ++ post) 10 0 (pre.length : Int) 0
      = Res.ok (((pre.length + (varint v).length : Nat) : Int), v) := by
  unfold varint
  have e := readVarint_spec 9 v pre post 10 0 0 (by decide) (by decide) (by omega) (by omega)
    (by decide)
  simpa using e

end blockchain

/-! # The wire codec: what `Marshal` writes -/

namespace blockchain

open coin

theorem uint64_natCast (n : Nat) (h : n < 18446744073709551616) : uint64 (n : Int) = n := by
  unfold uint64
  omega

/-- The call `copy(dAtA[i:], src)` after `pre`, when the buffer has room. -/
theorem copyAt_append (pre buf src : List Nat) (h : src.length ≤ buf.length) :
    copyAt (pre ++ buf) pre.length src
      = some (pre ++ src ++ buf.drop src.length, pre.length + src.length - pre.length) := by
  unfold copyAt
  rw [if_pos (by simp)]
  have e1 : min ((pre ++ buf).length - pre.length) src.length = src.length := by
    simp only [List.length_append]
    omega
  simp only [e1, List.take_left, List.take_length, List.drop_append, Nat.add_sub_cancel_left]

theorem fieldBytes_length (tag : Nat) (content : List Nat) :
    (fieldBytes tag content).length = 1 + (varint content.length).length + content.length := by
  simp only [fieldBytes, List.length_cons, List.length_append]
  omega

/-- Writing the varint of a length after `pre` and a tag. -/
theorem encodeVarintCodec_after_tag (tag v : Nat) (pre rest : List Nat)
    (hv : v < 18446744073709551616) (hlen : (varint v).length ≤ rest.length) :
    encodeVarintCodec (pre ++ tag :: rest) (pre.length + 1) v
      = some (pre ++ tag :: (varint v ++ rest.drop (varint v).length),
          pre.length + 1 + (varint v).length) := by
  have e := encodeVarintCodec_spec v (pre ++ [tag]) rest hv hlen
  simp only [List.append_assoc, List.singleton_append, List.cons_append, List.nil_append,
    List.length_append, List.length_singleton] at e
  exact e

/-- Copying a content after `pre`, a tag and a length. -/
theorem copyAt_after_length (tag : Nat) (pre vb buf src : List Nat)
    (h : src.length ≤ buf.length) :
    copyAt (pre ++ tag :: (vb ++ buf)) (pre.length + 1 + vb.length) src
      = some (pre ++ tag :: (vb ++ (src ++ buf.drop src.length)), src.length) := by
  have e := copyAt_append (pre ++ tag :: vb) buf src h
  simp only [List.append_assoc, List.cons_append, List.length_append, List.length_cons,
    Nat.add_sub_cancel_left] at e
  rw [show pre.length + 1 + vb.length = pre.length + (vb.length + 1) by omega]
  exact e

/-- `Size` of a node is the length of its encoding. -/
theorem Node.node_Size_eq (m : Node) (h : m.Name.length < 18446744073709551616) :
    m.Size = m.bytes.length := by
  unfold Node.Size Node.bytes
  simp only
  by_cases h0 : m.Name.length > 0
  · rw [if_pos h0, if_pos h0, uint64_natCast _ h, sovCodec_eq, fieldBytes_length]
    omega
  · rw [if_neg h0, if_neg h0]
    rfl

/-- `MarshalTo` of a node writes its encoding at the head of the buffer. -/
theorem Node.node_MarshalTo_spec (m : Node) (buf : List Nat)
    (h : m.Name.length < 18446744073709551616) (hlen : m.bytes.length ≤ buf.length) :
    m.MarshalTo buf = some (m.bytes ++ buf.drop m.bytes.length, m.bytes.length) := by
  unfold Node.MarshalTo Node.bytes at *
  by_cases h0 : m.Name.length > 0
  · rw [if_pos h0] at hlen ⊢
    rw [if_pos h0]
    rw [fieldBytes_length] at hlen
    cases buf with
    | nil => simp at hlen
    | cons t0 rest =>
      simp only [List.length_cons] at hlen
      have e0 := setByte_append [] t0 0xa rest
      have e1 := encodeVarintCodec_after_tag 0xa m.Name.length [] rest h (by omega)
      have e2 := copyAt_after_length 0xa [] (varint m.Name.length)
        (rest.drop (varint m.Name.length).length) m.Name
        (by simp only [List.length_drop]; omega)
      simp only [List.nil_append, List.length_nil, Nat.zero_add] at e0 e1 e2
      rw [uint64_natCast _ h, e0]
      dsimp only
      rw [e1]
      dsimp only
      rw [e2]
      simp only [fieldBytes, List.length_cons, List.length_append, List.drop_succ_cons,
        List.drop_drop, List.cons_append, List.append_assoc, Option.some.injEq,
        Prod.mk.injEq, List.cons.injEq, true_and]
      omega
  · rw [if_neg h0]
    simp [if_neg h0]

/-- The loop over the nodes in `Size` adds the length of their encoding. -/
theorem sizeNodes_eq : ∀ (ns : List Node) (n : Nat), nodesFit ns →
    sizeNodes ns n = n + (nodesBytes ns).length := by
  intro ns
  induction ns with
  | nil => intro n _; rfl
  | cons x xs ih =>
    intro n hfit
    obtain ⟨hx1', hx2'⟩ := hfit x (List.mem_cons_self _ _)
    have hx1 : x.Name.length < 18446744073709551616 := by omega
    have hx2 : x.bytes.length < 18446744073709551616 := by omega
    unfold sizeNodes nodesBytes
    rw [ih _ (fun y hy => hfit y (List.mem_cons_of_mem _ hy)), Node.node_Size_eq x hx1,
      uint64_natCast _ hx2, sovCodec_eq, List.length_append, fieldBytes_length]
    omega

/-- The loop over the nodes in `MarshalTo` writes their encoding after
`pre`. -/
theorem marshalNodes_spec : ∀ (ns : List Node) (pre buf : List Nat), nodesFit ns →
    (nodesBytes ns).length ≤ buf.length →
    marshalNodes ns (pre ++ buf) pre.length
      = some (pre ++ nodesBytes ns ++ buf.drop (nodesBytes ns).length,
          pre.length + (nodesBytes ns).length) := by
  intro ns
  induction ns with
  | nil =>
    intro pre buf _ _
    simp [marshalNodes, nodesBytes]
  | cons x xs ih =>
    intro pre buf hfit hlen
    obtain ⟨hx1', hx2'⟩ := hfit x (List.mem_cons_self _ _)
    have hx1 : x.Name.length < 18446744073709551616 := by omega
    have hx2 : x.bytes.length < 18446744073709551616 := by omega
    have hfit' : nodesFit xs := fun y hy => hfit y (List.mem_cons_of_mem _ hy)
    unfold nodesBytes at hlen ⊢
    rw [List.length_append, fieldBytes_length] at hlen
    cases buf with
    | nil => simp at hlen
    | cons t0 rest =>
      simp only [List.length_cons] at hlen
      unfold marshalNodes
      rw [setByte_append, Node.node_Size_eq x hx1, uint64_natCast _ hx2]
      have e := encodeVarintCodec_after_tag 0xa x.bytes.length pre rest hx2 (by omega)
      dsimp only
      rw [e]
      dsimp only
      rw [if_pos (by simp only [List.length_append, List.length_cons, List.length_drop]; omega)]
      have hd : List.drop (pre.length + 1 + (varint x.bytes.length).length)
          (pre ++ 0xa :: (varint x.bytes.length ++ rest.drop (varint x.bytes.length).length))
          = rest.drop (varint x.bytes.length).length := by
        have := List.drop_left (pre ++ 0xa :: varint x.bytes.length)
          (rest.drop (varint x.bytes.length).length)
        simp only [List.append_assoc, List.cons_append, List.length_append,
          List.length_cons] at this
        rw [show pre.length + 1 + (varint x.bytes.length).length
          = pre.length + ((varint x.bytes.length).length + 1) by omega]
        exact this
      have ht : List.take (pre.length + 1 + (varint x.bytes.length).length)
          (pre ++ 0xa :: (varint x.bytes.length ++ rest.drop (varint x.bytes.length).length))
          = pre ++ 0xa :: varint x.bytes.length := by
        have := List.take_left (pre ++ 0xa :: varint x.bytes.length)
          (rest.drop (varint x.bytes.length).length)
        simp only [List.append_assoc, List.cons_append, List.length_append,
          List.length_cons] at this
        rw [show pre.length + 1 + (varint x.bytes.length).length
          = pre.length + ((varint x.bytes.length).length + 1) by omega]
        exact this
      rw [hd, ht, Node.node_MarshalTo_spec x _ hx1 (by simp only [List.length_drop]; omega)]
      dsimp only
      have e2 := ih (pre ++ fieldBytes 0xa x.bytes)
        ((rest.drop (varint x.bytes.length).length).drop x.bytes.length) hfit'
        (by simp only [List.length_drop]; omega)
      simp only [fieldBytes, List.append_assoc, List.cons_append, List.length_append,
        List.length_cons, List.drop_drop] at e2 ⊢
      rw [show pre.length + 1 + (varint x.bytes.length).length + x.bytes.length
        = pre.length + ((varint x.bytes.length).length + x.bytes.length + 1) by omega, e2]
      simp only [List.drop_succ_cons, List.drop_drop, Option.some.injEq, Prod.mk.injEq]
      constructor
      · rw [Nat.add_assoc]
      · omega

/-- `Size` of token details is the length of their encoding. -/
theorem TokenDetails.Size_eq (d : TokenDetails) (hfit : nodesFit d.Nodes)
    (hc : d.ChainID.length < 18446744073709551616) : d.Size = d.bytes.length := by
  unfold TokenDetails.Size TokenDetails.bytes
  simp only
  rw [sizeNodes_eq _ _ hfit]
  by_cases h0 : d.ChainID.length > 0
  · rw [if_pos h0, if_pos h0, uint64_natCast _ hc, sovCodec_eq, List.length_append,
      fieldBytes_length]
    omega
  · rw [if_neg h0, if_neg h0]
    simp

/-- `MarshalTo` of token details writes their encoding at the head of the
buffer. -/
theorem TokenDetails.MarshalTo_spec (d : TokenDetails) (buf : List Nat)
    (hfit : nodesFit d.Nodes) (hc : d.ChainID.length < 18446744073709551616)
    (hlen : d.bytes.length ≤ buf.length) :
    d.MarshalTo buf = some (d.bytes ++ buf.drop d.bytes.length, d.bytes.length) := by
  unfold TokenDetails.MarshalTo TokenDetails.bytes at *
  have e := marshalNodes_spec d.Nodes [] buf hfit
    (by rw [List.length_append] at hlen; omega)
  simp only [List.nil_append, List.length_nil, Nat.zero_add] at e
  rw [e]
  dsimp only
  by_cases h0 : d.ChainID.length > 0
  · rw [if_pos h0] at hlen ⊢
    rw [if_pos h0]
    rw [List.length_append, fieldBytes_length] at hlen
    cases hb : buf.drop (nodesBytes d.Nodes).length with
    | nil =>
      have := congrArg List.length hb
      simp only [List.length_drop, List.length_nil] at this
      omega
    | cons t0 rest =>
      have hr : rest.length + 1 = buf.length - (nodesBytes d.Nodes).length := by
        have := congrArg List.length hb
        simp only [List.length_drop, List.length_cons] at this
        omega
      have e1 := encodeVarintCodec_after_tag 0x12 d.ChainID.length (nodesBytes d.Nodes) rest hc
        (by omega)
      have e2 := copyAt_after_length 0x12 (nodesBytes d.Nodes) (varint d.ChainID.length)
        (rest.drop (varint d.ChainID.length).length) d.ChainID
        (by simp only [List.length_drop]; omega)
      rw [setByte_append, uint64_natCast _ hc]
      dsimp only
      rw [e1]
      dsimp only
      rw [e2]
      have hd : buf.drop ((nodesBytes d.Nodes).length
            + ((varint d.ChainID.length).length + d.ChainID.length + 1))
          = rest.drop ((varint d.ChainID.length).length + d.ChainID.length) := by
        rw [← List.drop_drop, hb, List.drop_succ_cons]
      simp only [List.length_append, List.append_assoc, List.drop_drop, fieldBytes,
        List.cons_append, List.length_cons, Option.some.injEq, Prod.mk.injEq]
      rw [hd]
      exact ⟨rfl, by omega⟩
  · rw [if_neg h0]
    simp [if_neg h0]

/-- `Marshal` of a node returns its encoding. -/
theorem Node.node_Marshal_eq (m : Node) (h : m.Name.length < 18446744073709551616) :
    m.Marshal = some m.bytes := by
  unfold Node.Marshal
  rw [Node.node_MarshalTo_spec m _ h (by rw [List.length_replicate, Node.node_Size_eq m h])]
  dsimp only
  rw [if_pos (by simp), List.take_left]

/-- `Marshal` of token details returns their encoding. -/
theorem TokenDetails.Marshal_eq (d : TokenDetails) (hfit : nodesFit d.Nodes)
    (hc : d.ChainID.length < 18446744073709551616) : d.Marshal = some d.bytes := by
  unfold TokenDetails.Marshal
  rw [TokenDetails.MarshalTo_spec d _ hfit hc
    (by rw [List.length_replicate, TokenDetails.Size_eq d hfit hc])]
  dsimp only
  rw [if_pos (by simp), List.take_left]

end blockchain

/-! # The wire codec: what `Unmarshal` reads -/

namespace blockchain

open coin

/-- The varint of a value below 128 is the value itself. -/
theorem varint_of_lt {v : Nat} (h : v < 128) : varint v = [v] := by
  unfold varint varintBytes
  rw [if_neg (by omega)]

/-- The expression `dAtA[i:j]` on the bytes `mid` that stand after `pre`. -/
theorem slice_append (pre mid post : List Nat) :
    slice (pre ++ mid ++ post) (pre.length : Int) ((pre ++ mid).length : Int) = some mid := by
  unfold slice
  rw [if_pos (by simp only [List.length_append]; omega)]
  simp only [Int.toNat_ofNat]
  rw [List.take_left, List.drop_left]

/-- What the decoder finds at a length-delimited field that stands after
`pre`: the tag, the length, no wrap in the index after the content, and the
content as the slice. -/
theorem field_facts (tag : Nat) (content pre post data : List Nat) (htag : tag < 128)
    (hdata : data = pre ++ fieldBytes tag content ++ post)
    (hL : data.length < 9223372036854775808) :
    readVarint data 10 0 (pre.length : Int) 0 = Res.ok (((pre.length + 1 : Nat) : Int), tag) ∧
    readVarint data 10 0 ((pre.length + 1 : Nat) : Int) 0
      = Res.ok (((pre.length + 1 + (varint content.length).length : Nat) : Int),
          content.length) ∧
    wrap64 (content.length : Int) = (content.length : Int) ∧
    wrap64 (((pre.length + 1 + (varint content.length).length : Nat) : Int)
        + (content.length : Int)) = ((pre ++ fieldBytes tag content).length : Int) ∧
    slice data ((pre.length + 1 + (varint content.length).length : Nat) : Int)
        ((pre ++ fieldBytes tag content).length : Int) = some content ∧
    ((pre ++ fieldBytes tag content).length : Int) ≤ (data.length : Int) ∧
    (pre.length : Int) < (data.length : Int) := by
  have hlen : data.length
      = pre.length + (1 + (varint content.length).length + content.length) + post.length := by
    rw [hdata, List.length_append, List.length_append, fieldBytes_length]
  have hc : content.length < 18446744073709551616 := by omega
  refine ⟨?_, ?_, ?_, ?_, ?_, ?_, ?_⟩
  · have e := readVarint_varint tag pre (varint content.length ++ content ++ post) (by omega)
    rw [varint_of_lt htag] at e
    rw [hdata]
    simpa [fieldBytes] using e
  · have e := readVarint_varint content.length (pre ++ [tag]) (content ++ post) hc
    rw [hdata]
    simpa [fieldBytes] using e
  · apply wrap64_eq_of_bounds <;> omega
  · rw [List.length_append, fieldBytes_length]
    rw [wrap64_eq_of_bounds (by omega) (by omega)]
    push_cast
    ring
  · have e := slice_append (pre ++ tag :: varint content.length) content post
    rw [hdata]
    have h1 : pre ++ fieldBytes tag content ++ post
        = pre ++ tag :: varint content.length ++ content ++ post := by
      simp [fieldBytes]
    have h2 : (pre ++ tag :: varint content.length).length
        = pre.length + 1 + (varint content.length).length := by
      simp only [List.length_append, List.length_cons]
      omega
    have h3 : (pre ++ tag :: varint content.length ++ content).length
        = (pre ++ fieldBytes tag content).length := by
      simp [fieldBytes]
    rw [h1, ← h2, ← h3]
    exact e
  · rw [List.length_append, fieldBytes_length]
    omega
  · omega

/-- At the end of the input the loop of `Unmarshal` of a node returns the
node. -/
theorem Node.node_unmarshalLoop_end (data : List Nat) (f : Nat) (m : Node) :
    Node.unmarshalLoop data (f + 1) (data.length : Int) m = some (Res.ok m) := by
  unfold Node.unmarshalLoop
  rw [if_neg (by omega), if_neg (by omega)]

/-- `Unmarshal` of a node, on its encoding, returns the node. -/
theorem Node.node_Unmarshal_bytes (m : Node) (h : m.bytes.length < 9223372036854775808) :
    Node.Unmarshal { Name := [] } m.bytes = some (Res.ok m) := by
  unfold Node.Unmarshal
  by_cases h0 : m.Name.length > 0
  · have hb : m.bytes = fieldBytes 0xa m.Name := by
      unfold Node.bytes
      rw [if_pos h0]
    rw [hb] at h ⊢
    obtain ⟨f1, f2, f3, f4, f5, f6, f7⟩ := field_facts 0xa m.Name [] [] (fieldBytes 0xa m.Name)
      (by decide) (by simp) h
    simp only [List.nil_append, List.length_nil, Nat.zero_add, Nat.cast_zero] at f1 f2 f4 f5 f6 f7
    obtain ⟨f, hf⟩ : ∃ f, (fieldBytes 0xa m.Name).length = f + 1 :=
      ⟨(fieldBytes 0xa m.Name).length - 1, by rw [fieldBytes_length]; omega⟩
    unfold Node.unmarshalLoop
    rw [if_pos f7, f1]
    dsimp only
    rw [if_neg (by decide), if_neg (by decide), if_pos (by decide), if_neg (by decide), f2]
    dsimp only
    rw [f3, if_neg (by omega), f4, if_neg (by omega), f5]
    dsimp only
    have hend := Node.node_unmarshalLoop_end (fieldBytes 0xa m.Name) f { Name := m.Name }
    rw [← hf] at hend
    rw [hend]
  · have hn : m.Name = [] := List.length_eq_zero.mp (by omega)
    have hb : m.bytes = [] := by
      unfold Node.bytes
      rw [if_neg h0]
    rw [hb]
    have := Node.node_unmarshalLoop_end [] 0 { Name := [] }
    simp only [List.length_nil, Nat.cast_zero, Nat.zero_add] at this ⊢
    rw [this]
    cases m
    simp only at hn
    rw [hn]

end blockchain

namespace blockchain

open coin

/-- At the end of the input the loop of `Unmarshal` of token details returns
them. -/
theorem TokenDetails.unmarshalLoop_end (data : List Nat) (f : Nat) (m : TokenDetails) :
    TokenDetails.unmarshalLoop data (f + 1) (data.length : Int) m = some (Res.ok m) := by
  unfold TokenDetails.unmarshalLoop
  rw [if_neg (by omega), if_neg (by omega)]

/-- The round of the loop at the field of the chain id, which ends the
input. -/
theorem TokenDetails.unmarshalLoop_chain (c pre data : List Nat) (f : Nat) (m : TokenDetails)
    (hdata : data = pre ++ fieldBytes 0x12 c) (hL : data.length < 9223372036854775808) :
    TokenDetails.unmarshalLoop data (f + 2) (pre.length : Int) m
      = some (Res.ok { m with ChainID := c }) := by
  obtain ⟨f1, f2, f3, f4, f5, f6, f7⟩ := field_facts 0x12 c pre [] data (by decide)
    (by rw [hdata, List.append_nil]) hL
  have hlen : (pre ++ fieldBytes 0x12 c).length = data.length := by rw [hdata]
  rw [hlen] at f4 f5
  unfold TokenDetails.unmarshalLoop
  rw [if_pos f7, f1]
  dsimp only
  rw [if_neg (by decide), if_neg (by decide), if_neg (by decide), if_pos (by decide),
    if_neg (by decide), f2]
  dsimp only
  rw [f3, if_neg (by omega), f4, if_neg (by omega), f5]
  dsimp only
  rw [TokenDetails.unmarshalLoop_end]

/-- The rounds of the loop at the fields of the nodes: one round for each
node, which is appended to the nodes read before. -/
theorem TokenDetails.unmarshalLoop_nodes : ∀ (ns : List Node) (pre tail data : List Nat)
    (fuel : Nat) (acc : List Node) (c0 : List Nat),
    data = pre ++ nodesBytes ns ++ tail → data.length < 9223372036854775808 → nodesFit ns →
    TokenDetails.unmarshalLoop data (fuel + ns.length) (pre.length : Int)
        { Nodes := acc, ChainID := c0 }
      = TokenDetails.unmarshalLoop data fuel ((pre ++ nodesBytes ns).length : Int)
        { Nodes := acc ++ ns, ChainID := c0 } := by
  intro ns
  induction ns with
  | nil =>
    intro pre tail data fuel acc c0 _ _ _
    simp [nodesBytes]
  | cons x xs ih =>
    intro pre tail data fuel acc c0 hdata hL hfit
    obtain ⟨-, hx2⟩ := hfit x (List.mem_cons_self _ _)
    have hfit' : nodesFit xs := fun y hy => hfit y (List.mem_cons_of_mem _ hy)
    have hdata' : data = pre ++ fieldBytes 0xa x.bytes ++ (nodesBytes xs ++ tail) := by
      rw [hdata]
      simp [nodesBytes]
    obtain ⟨f1, f2, f3, f4, f5, f6, f7⟩ := field_facts 0xa x.bytes pre (nodesBytes xs ++ tail)
      data (by decide) hdata' hL
    rw [show fuel + (x :: xs).length = (fuel + xs.length) + 1 by
      simp only [List.length_cons]; omega]
    conv_lhs => unfold TokenDetails.unmarshalLoop
    rw [if_pos f7, f1]
    dsimp only
    rw [if_neg (by decide), if_neg (by decide), if_pos (by decide), if_neg (by decide), f2]
    dsimp only
    rw [f3, if_neg (by omega), f4, if_neg (by omega), f5]
    dsimp only
    rw [Node.node_Unmarshal_bytes x hx2]
    dsimp only
    have e := ih (pre ++ fieldBytes 0xa x.bytes) tail data fuel (acc ++ [x]) c0
      (by rw [hdata]; simp [nodesBytes]) hL hfit'
    rw [e]
    simp [nodesBytes]

/-- The encoding of a list of nodes has at least two bytes for each node. -/
theorem nodesBytes_length_ge : ∀ ns : List Node, 2 * ns.length ≤ (nodesBytes ns).length := by
  intro ns
  induction ns with
  | nil => simp
  | cons x xs ih =>
    have := varint_length_pos x.bytes.length
    simp only [nodesBytes, List.length_cons, List.length_append, fieldBytes_length]
    omega

/-- `Unmarshal` of token details, on their encoding, returns them. -/
theorem TokenDetails.Unmarshal_bytes (d : TokenDetails) (hfit : nodesFit d.Nodes)
    (h : d.bytes.length < 9223372036854775808) :
    TokenDetails.Unmarshal { Nodes := [], ChainID := [] } d.bytes = some (Res.ok d) := by
  unfold TokenDetails.Unmarshal
  have hge := nodesBytes_length_ge d.Nodes
  by_cases h0 : d.ChainID.length > 0
  · have hb : d.bytes = nodesBytes d.Nodes ++ fieldBytes 0x12 d.ChainID := by
      unfold TokenDetails.bytes
      rw [if_pos h0]
    have hl : d.bytes.length = (nodesBytes d.Nodes).length
        + (1 + (varint d.ChainID.length).length + d.ChainID.length) := by
      rw [hb, List.length_append, fieldBytes_length]
    obtain ⟨f, hf⟩ : ∃ f, d.bytes.length + 1 = (f + 2) + d.Nodes.length :=
      ⟨d.bytes.length + 1 - d.Nodes.length - 2, by omega⟩
    have e := TokenDetails.unmarshalLoop_nodes d.Nodes [] (fieldBytes 0x12 d.ChainID) d.bytes
      (f + 2) [] [] (by rw [hb]; simp) h hfit
    simp only [List.nil_append, List.length_nil, Nat.cast_zero] at e
    rw [hf, e, TokenDetails.unmarshalLoop_chain d.ChainID (nodesBytes d.Nodes) d.bytes f _ hb h]
  · have hn : d.ChainID = [] := List.length_eq_zero.mp (by omega)
    have hb : d.bytes = nodesBytes d.Nodes := by
      unfold TokenDetails.bytes
      rw [if_neg h0, List.append_nil]
    obtain ⟨f, hf⟩ : ∃ f, d.bytes.length + 1 = (f + 1) + d.Nodes.length :=
      ⟨d.bytes.length - d.Nodes.length, by rw [hb]; omega⟩
    have e := TokenDetails.unmarshalLoop_nodes d.Nodes [] [] d.bytes (f + 1) [] []
      (by rw [hb]; simp) h hfit
    simp only [List.nil_append, List.length_nil, Nat.cast_zero] at e
    rw [hf, e, ← hb, TokenDetails.unmarshalLoop_end]
    cases d
    simp only at hn
    rw [hn]

end blockchain

/-! # The wire codec: round trip and untrusted input -/

namespace blockchain

open coin

/-- The name of a node is not longer than its `Size`. -/
theorem Node.Name_length_le_Size (m : Node) : m.Name.length ≤ m.Size := by
  unfold Node.Size
  simp only
  split_ifs <;> omega

/-- The loop over the nodes in `Size` only adds, and adds at least the `Size`
of every node. -/
theorem le_sizeNodes : ∀ (ns : List Node) (n : Nat),
    n ≤ sizeNodes ns n ∧ ∀ x ∈ ns, x.Size ≤ sizeNodes ns n := by
  intro ns
  induction ns with
  | nil =>
    intro n
    exact ⟨Nat.le_refl _, fun x hx => by cases hx⟩
  | cons y ys ih =>
    intro n
    obtain ⟨h1, h2⟩ := ih (n + (1 + y.Size + sovCodec (uint64 y.Size)))
    unfold sizeNodes
    refine ⟨by omega, ?_⟩
    intro x hx
    rcases List.mem_cons.1 hx with rfl | hx'
    · omega
    · exact h2 x hx'

/-- Token details whose `Size` is an `int` have nodes and a chain id that
are. -/
theorem fit_of_Size (d : TokenDetails) (h : d.Size < 9223372036854775808) :
    nodesFit d.Nodes ∧ d.ChainID.length < 9223372036854775808 := by
  obtain ⟨h1, h2⟩ := le_sizeNodes d.Nodes 0
  have hs : sizeNodes d.Nodes 0 ≤ d.Size ∧ d.ChainID.length ≤ d.Size := by
    unfold TokenDetails.Size
    simp only
    split_ifs <;> omega
  refine ⟨?_, by omega⟩
  intro x hx
  have hx1 := h2 x hx
  have hx2 := Node.Name_length_le_Size x
  refine ⟨by omega, ?_⟩
  rw [← Node.node_Size_eq x (by omega)]
  omega

/-- C38: decoding undoes encoding.  For token details `d` whose `Size` is an
`int`, `Marshal` succeeds and returns exactly `d.Size()` bytes, and
`Unmarshal` of those bytes into empty token details succeeds and yields `d`
again; the same holds for a single node `n`. -/
theorem marshal_unmarshal_roundtrip (d : TokenDetails) (n : Node)
    (hd : d.Size < 9223372036854775808) (hn : n.Size < 9223372036854775808) :
    (∃ bs, d.Marshal = some bs ∧ bs.length = d.Size ∧
      TokenDetails.Unmarshal { Nodes := [], ChainID := [] } bs = some (Res.ok d)) ∧
    (∃ bs, n.Marshal = some bs ∧ bs.length = n.Size ∧
      Node.Unmarshal { Name := [] } bs = some (Res.ok n)) := by
  obtain ⟨hfit, hc⟩ := fit_of_Size d hd
  have hsd := TokenDetails.Size_eq d hfit (by omega)
  have hnn := Node.Name_length_le_Size n
  have hsn := Node.node_Size_eq n (by omega)
  refine ⟨⟨d.bytes, TokenDetails.Marshal_eq d hfit (by omega), hsd.symm,
      TokenDetails.Unmarshal_bytes d hfit (by omega)⟩,
    ⟨n.bytes, Node.node_Marshal_eq n (by omega), hsn.symm, Node.node_Unmarshal_bytes n (by omega)⟩⟩

/-- Witness for C38: token details with the nodes `a`, an unnamed node and
`bc`, and the chain id `1, 2`; their encoding has 17 bytes. -/
theorem marshal_unmarshal_roundtrip_witness :
    (TokenDetails.mk [Node.mk [97], Node.mk [], Node.mk [98, 99]] [1, 2]).Size = 17 ∧
    (TokenDetails.mk [Node.mk [97], Node.mk [], Node.mk [98, 99]] [1, 2]).Marshal
      = some [10, 3, 10, 1, 97, 10, 0, 10, 4, 10, 2, 98, 99, 18, 2, 1, 2] ∧
    (∃ bs, (TokenDetails.mk [Node.mk [97], Node.mk [], Node.mk [98, 99]] [1, 2]).Marshal
        = some bs ∧
      bs.length = (TokenDetails.mk [Node.mk [97], Node.mk [], Node.mk [98, 99]] [1, 2]).Size ∧
      TokenDetails.Unmarshal { Nodes := [], ChainID := [] } bs
        = some (Res.ok (TokenDetails.mk [Node.mk [97], Node.mk [], Node.mk [98, 99]] [1, 2]))) :=
  ⟨by decide, by decide,
    (marshal_unmarshal_roundtrip
      (TokenDetails.mk [Node.mk [97], Node.mk [], Node.mk [98, 99]] [1, 2]) (Node.mk [97])
      (by decide) (by decide)).1⟩

/-- C39: decoding untrusted bytes is not total.  On the ten bytes
`0a ff ff ff ff ff ff ff ff 7f` the length of the field 1 decodes to
`2^63 - 1`; the index after it, `10 + 2^63 - 1`, wraps to a negative number,
passes the check against the length of the input, and the slice panics, in
`Unmarshal` of a node and, with the tag `12` or `0a`, of token details.  On
`10 05 1a f5 ff ff ff ff ff ff ff 7f` the unknown field 3 is skipped with a
length of `2^63 - 11`; the index after it wraps, and the next read of the input
panics. -/
theorem unmarshal_panics_on_wrapped_length :
    Node.Unmarshal { Name := [] } [0x0a, 0xff, 0xff, 0xff, 0xff, 0xff, 0xff, 0xff, 0xff, 0x7f]
      = some Res.panic ∧
    TokenDetails.Unmarshal { Nodes := [], ChainID := [] }
        [0x12, 0xff, 0xff, 0xff, 0xff, 0xff, 0xff, 0xff, 0xff, 0x7f] = some Res.panic ∧
    TokenDetails.Unmarshal { Nodes := [], ChainID := [] }
        [0x0a, 0xff, 0xff, 0xff, 0xff, 0xff, 0xff, 0xff, 0xff, 0x7f] = some Res.panic ∧
    Node.Unmarshal { Name := [] }
        [0x10, 0x05, 0x1a, 0xf5, 0xff, 0xff, 0xff, 0xff, 0xff, 0xff, 0xff, 0x7f]
      = some Res.panic ∧
    readVarint [0x0a, 0xff, 0xff, 0xff, 0xff, 0xff, 0xff, 0xff, 0xff, 0x7f] 10 0 1 0
      = Res.ok (10, 9223372036854775807) ∧
    wrap64 (10 + wrap64 9223372036854775807) = -9223372036854775799 ∧
    slice [0x0a, 0xff, 0xff, 0xff, 0xff, 0xff, 0xff, 0xff, 0xff, 0x7f] 10
      (-9223372036854775799) = none := by
  decide

end blockchain
